import Mathlib

/-!
A verification development for the `sarc-rs` library (src/lib.rs, src/parse.rs,
src/writer.rs): a reader and writer for Nintendo SARC archives.

The embedding works over `Bytes := List Nat`, each element one byte of the
archive image.  Machine integers are modelled as `Nat` with explicit `% 2^w`
where the source performs wrapping casts or wrapping arithmetic.  Fallible
operations return `Except`/`Option`; Rust panics (out-of-bounds slice indexing,
`unwrap` on `Err`) are modelled by a dedicated `panik` outcome.
-/

set_option maxRecDepth 16000

deriving instance DecidableEq for Except

namespace SarcRs

abbrev Bytes := List Nat

/-- `Endian` from lib.rs: Big = 0xFFFE, Little = 0xFEFF (the u16 repr values). -/
inductive Endian where
  | big
  | little
deriving DecidableEq

/-- Numeric repr of the `Endian` enum (`#[repr(u16)]`). -/
def Endian.reprVal : Endian → Nat
  | .big => 0xFFFE
  | .little => 0xFEFF

/-- The bytes the custom `BinWrite for Endian` impl emits (endianness-independent). -/
def bomBytes : Endian → Bytes
  | .big => [0xFE, 0xFF]
  | .little => [0xFF, 0xFE]

def sarcMagicB : Bytes := [83, 65, 82, 67]   -- "SARC"
def sfatMagicB : Bytes := [83, 70, 65, 84]   -- "SFAT"
def sfntMagicB : Bytes := [83, 70, 78, 84]   -- "SFNT"
def yaz0MagicB : Bytes := [89, 97, 122, 48]  -- "Yaz0"

/-- Read one byte at position `p`; `none` when past the end (an EOF error in binread). -/
def readU8 (d : Bytes) (p : Nat) : Option Nat := d[p]?

/-- Read a u16 at position `p` in the given byte order. -/
def readU16 (e : Endian) (d : Bytes) (p : Nat) : Option Nat :=
  match d[p]?, d[p+1]? with
  | some a, some b =>
    some (match e with
          | .big => a * 2^8 + b
          | .little => a + b * 2^8)
  | _, _ => none

/-- Read a u32 at position `p` in the given byte order. -/
def readU32 (e : Endian) (d : Bytes) (p : Nat) : Option Nat :=
  match d[p]?, d[p+1]?, d[p+2]?, d[p+3]? with
  | some a, some b, some c, some x =>
    some (match e with
          | .big => ((a * 2^8 + b) * 2^8 + c) * 2^8 + x
          | .little => a + (b + (c + x * 2^8) * 2^8) * 2^8)
  | _, _, _, _ => none

/-- Read `n` raw bytes at position `p` (e.g. a `[char; 4]` magic). -/
def readBytesN (d : Bytes) (p n : Nat) : Option Bytes :=
  if p + n ≤ d.length then some ((d.drop p).take n) else none

/-- Serialize a u16 (value taken mod 2^16, as the `as u16` casts do). -/
def putU16 (e : Endian) (v : Nat) : Bytes :=
  let w := v % 2^16
  match e with
  | .big => [w / 2^8, w % 2^8]
  | .little => [w % 2^8, w / 2^8]

/-- Serialize a u32 (value taken mod 2^32, as the `as u32` casts do). -/
def putU32 (e : Endian) (v : Nat) : Bytes :=
  let w := v % 2^32
  match e with
  | .big => [w / 2^24 % 2^8, w / 2^16 % 2^8, w / 2^8 % 2^8, w % 2^8]
  | .little => [w % 2^8, w / 2^8 % 2^8, w / 2^16 % 2^8, w / 2^24 % 2^8]

/-- `hash_name` from lib.rs: FNV-like fold with wrapping 32-bit arithmetic. -/
def hashName (mult : Nat) (name : Bytes) : Nat :=
  name.foldl (fun h b => (h * mult + b) % 2^32) 0

/-- `is_valid_alignment` from lib.rs. -/
def isValidAlignment (a : Nat) : Bool :=
  decide (a ≠ 0) && (a &&& (a - 1)) == 0

/-- `align` from writer.rs:
`((pos as i64 + alignment as i64 - 1) & (0 - alignment as i64)) as usize`,
i.e. two's-complement bit arithmetic on 64-bit patterns. -/
def alignUp (pos alignment : Nat) : Nat :=
  Nat.land ((pos + alignment - 1) % 2^64) ((2^64 - alignment) % 2^64)

/-- `find_null` from parse.rs: index of the first NUL byte. -/
def findNull : Bytes → Option Nat
  | [] => none
  | b :: t => if b = 0 then some 0 else (findNull t).map (· + 1)

def isCont (b : Nat) : Bool := 0x80 ≤ b && b ≤ 0xBF

/-- UTF-8 validity (RFC 3629), as checked by `std::str::from_utf8`.
Fuel is the list length, so the definition reduces by `rfl`/`decide`. -/
def validUtf8Aux : Nat → Bytes → Bool
  | 0, l => l.isEmpty
  | _+1, [] => true
  | f+1, b0 :: r =>
    if b0 ≤ 0x7F then validUtf8Aux f r
    else match r with
    | [] => false
    | b1 :: r1 =>
      if 0xC2 ≤ b0 && b0 ≤ 0xDF then isCont b1 && validUtf8Aux f r1
      else match r1 with
      | [] => false
      | b2 :: r2 =>
        if b0 = 0xE0 then (0xA0 ≤ b1 && b1 ≤ 0xBF) && isCont b2 && validUtf8Aux f r2
        else if (0xE1 ≤ b0 && b0 ≤ 0xEC) || b0 = 0xEE || b0 = 0xEF then
          isCont b1 && isCont b2 && validUtf8Aux f r2
        else if b0 = 0xED then (0x80 ≤ b1 && b1 ≤ 0x9F) && isCont b2 && validUtf8Aux f r2
        else match r2 with
        | [] => false
        | b3 :: r3 =>
          if b0 = 0xF0 then (0x90 ≤ b1 && b1 ≤ 0xBF) && isCont b2 && isCont b3 && validUtf8Aux f r3
          else if 0xF1 ≤ b0 && b0 ≤ 0xF3 then
            isCont b1 && isCont b2 && isCont b3 && validUtf8Aux f r3
          else if b0 = 0xF4 then (0x80 ≤ b1 && b1 ≤ 0x8F) && isCont b2 && isCont b3 && validUtf8Aux f r3
          else false

def validUtf8 (l : Bytes) : Bool := validUtf8Aux l.length l

/-- `SarcError` from parse.rs.  The payloads of `InvalidData` carry a field name;
the offending-value string is omitted from the model (it plays no role in any claim). -/
inductive SarcError where
  | outOfRange (i : Nat)
  | invalidData (field : String)
  | unterminated
  | invalidFileName
  | parseErr
deriving DecidableEq

/-- Outcome of a Rust computation that may return, error, or panic. -/
inductive PRes (α : Type) where
  | ok : α → PRes α
  | err : SarcError → PRes α
  | panik : PRes α
deriving DecidableEq

/-- `File` from lib.rs (name bytes are the validated UTF-8 contents of the `&str`). -/
structure SFile where
  name : Option Bytes
  data : Bytes
deriving DecidableEq

/-- The `Sarc` reader struct from parse.rs. -/
structure Sarc where
  numFiles : Nat
  entriesOffset : Nat
  hashMultiplier : Nat
  dataOffset : Nat
  namesOffset : Nat
  endian : Endian
  data : Bytes
deriving DecidableEq

/-- The `ResHeader` fields as read by binread (a failed field read or an
invalid `Endian` enum value for the `bom` field is `none` = wrapped binread error). -/
structure ResHeaderV where
  magic : Bytes
  headerSize : Nat
  fileSize : Nat
  dataOffset : Nat
  version : Nat
deriving DecidableEq

/-- Read a `ResHeader` at offset 0 (0x14 bytes, fields in order). -/
def readResHeader (e : Endian) (data : Bytes) : Option ResHeaderV :=
  match readBytesN data 0 4, readU16 e data 4, readU16 e data 6, readU32 e data 8,
        readU32 e data 0xC, readU16 e data 0x10, readU16 e data 0x12 with
  | some magic, some hsize, some bomF, some fsize, some dataOffset,
    some version, some _res =>
    if bomF = 0xFFFE ∨ bomF = 0xFEFF then some ⟨magic, hsize, fsize, dataOffset, version⟩
    else none
  | _, _, _, _, _, _, _ => none

/-- The `ResFatHeader` fields as read by binread at offset 0x14. -/
structure ResFatHeaderV where
  magic : Bytes
  headerSize : Nat
  numFiles : Nat
  hashMultiplier : Nat
deriving DecidableEq

def readResFatHeader (e : Endian) (data : Bytes) : Option ResFatHeaderV :=
  match readBytesN data 0x14 4, readU16 e data 0x18, readU16 e data 0x1A,
        readU32 e data 0x1C with
  | some magic, some hsize, some numFiles, some mult => some ⟨magic, hsize, numFiles, mult⟩
  | _, _, _, _ => none

/-- The `ResFntHeader` fields as read by binread at `fntOff = 0x20 + 0x10 * num_files`. -/
structure ResFntHeaderV where
  magic : Bytes
  headerSize : Nat
deriving DecidableEq

def readResFntHeader (e : Endian) (data : Bytes) (fntOff : Nat) : Option ResFntHeaderV :=
  match readBytesN data fntOff 4, readU16 e data (fntOff + 4),
        readU16 e data (fntOff + 6) with
  | some magic, some hsize, some _res => some ⟨magic, hsize⟩
  | _, _, _ => none

/-- FNT-header stage of `Sarc::new`. -/
def parseFnt (e : Endian) (data : Bytes) (dataOffset numFiles mult : Nat) :
    Except SarcError Sarc :=
  let fntOff := 0x20 + 0x10 * numFiles
  match readResFntHeader e data fntOff with
  | none => .error .parseErr
  | some fnt =>
    if fnt.magic ≠ sfntMagicB then .error (.invalidData "SFNT magic")
    else if fnt.headerSize ≠ 0x08 then .error (.invalidData "SFNT header size")
    else
      let namesOffset := fntOff + 8
      if dataOffset < namesOffset then .error (.invalidData "name table offset")
      else .ok ⟨numFiles, 0x20, mult, dataOffset, namesOffset, e, data⟩

/-- FAT-header stage of `Sarc::new`. -/
def parseFat (e : Endian) (data : Bytes) (dataOffset : Nat) : Except SarcError Sarc :=
  match readResFatHeader e data with
  | none => .error .parseErr
  | some fat =>
    if fat.magic ≠ sfatMagicB then .error (.invalidData "SFAT magic")
    else if fat.headerSize ≠ 0x0C then .error (.invalidData "SFAT header size")
    else if fat.numFiles >>> 0xE ≠ 0 then .error (.invalidData "SFAT file count")
    else parseFnt e data dataOffset fat.numFiles fat.hashMultiplier

/-- Archive-header stage of `Sarc::new`. -/
def parseAfterBom (e : Endian) (data : Bytes) : Except SarcError Sarc :=
  match readResHeader e data with
  | none => .error .parseErr
  | some hd =>
    if hd.magic ≠ sarcMagicB then .error (.invalidData "SARC magic")
    else if hd.version ≠ 0x0100 then .error (.invalidData "SARC version")
    else if hd.headerSize ≠ 0x14 then .error (.invalidData "SARC header size")
    else parseFat e data hd.dataOffset

/-- `Sarc::new` from parse.rs.  Field reads and enum-value mismatches inside a
`read` call surface as a wrapped binread error (`parseErr`), before the explicit
validations; the explicit validations run in source order.  The BOM probe at
offset 6 is a native-endian (little, on all supported hosts) u16 read. -/
def parseSarc (data : Bytes) : Except SarcError Sarc :=
  match readU16 .little data 6 with
  | none => .error .parseErr
  | some bom =>
    if bom = 0xFFFE ∨ bom = 0xFEFF then
      parseAfterBom (if bom = 0xFFFE then .big else .little) data
    else .error .parseErr

/-- `Sarc::file_count`. -/
def Sarc.fileCount (s : Sarc) : Nat := s.numFiles

/-- `Sarc::file_at` from parse.rs, panics modelled: `&self.data[entry_offset..]`,
`&self.data[name_offset..]` and the payload slice index out of bounds are panics;
everything else is an error value. -/
def Sarc.fileAt (s : Sarc) (index : Nat) : PRes SFile :=
  if s.numFiles ≤ index then .err (.outOfRange index)
  else
    let entryOffset := s.entriesOffset + 0x10 * index
    if s.data.length < entryOffset then .panik   -- &data[entryOffset..]
    else
      match readU32 s.endian s.data entryOffset, readU32 s.endian s.data (entryOffset + 4),
            readU32 s.endian s.data (entryOffset + 8),
            readU32 s.endian s.data (entryOffset + 12) with
      | some _hash, some rel, some dataBegin, some dataEnd =>
        let nameR : PRes (Option Bytes) :=
          if rel ≠ 0 then
            let nameOffset := s.namesOffset + (rel % 2^24) * 4
            if s.data.length < nameOffset then .panik  -- &data[nameOffset..]
            else
              match findNull (s.data.drop nameOffset) with
              | none => .err .unterminated
              | some term =>
                let nm := (s.data.drop nameOffset).take term
                if validUtf8 nm then .ok (some nm) else .err .invalidFileName
          else .ok none
        match nameR with
        | .ok nm =>
          let dStart := (s.dataOffset + dataBegin) % 2^32
          let dEnd := (s.dataOffset + dataEnd) % 2^32
          if dEnd < dStart ∨ s.data.length < dEnd then .panik  -- payload slice
          else .ok ⟨nm, (s.data.drop dStart).take (dEnd - dStart)⟩
        | .err er => .err er
        | .panik => .panik
      | _, _, _, _ => .err .parseErr

/-- `Sarc::files` (the iterator), collected into a list.  `file_at` errors are
skipped by `.ok()`; a panic propagates. -/
def filesAux (s : Sarc) : List Nat → PRes (List SFile)
  | [] => .ok []
  | i :: t =>
    match s.fileAt i with
    | .panik => .panik
    | .err _ => filesAux s t
    | .ok f =>
      match filesAux s t with
      | .ok l => .ok (f :: l)
      | r => r

def Sarc.filesList (s : Sarc) : PRes (List SFile) := filesAux s (List.range s.numFiles)

/-- The binary-search loop of `Sarc::get_file`.  `a`/`b`/`m` are u32 with wrapping
arithmetic (`b = m - 1` wraps to 0xFFFFFFFF when `m = 0`; with overflow checks that
subtraction panics instead).  Fuel only bounds the iteration count; `get_file`
passes enough for the loop to finish. -/
def getFileLoop (s : Sarc) (needle : Nat) : Nat → Nat → Nat → PRes (Option SFile)
  | 0, _, _ => .panik
  | fuel+1, a, b =>
    if b < a then .ok none
    else
      let m := ((a + b) % 2^32) / 2
      match readU32 s.endian s.data (s.entriesOffset + 0x10 * m) with
      | none => .err .parseErr
      | some hash =>
        if needle < hash then getFileLoop s needle fuel a ((m + (2^32 - 1)) % 2^32)
        else if hash < needle then getFileLoop s needle fuel ((m + 1) % 2^32) b
        else
          match s.fileAt m with
          | .ok f => .ok (some f)
          | .err er => .err er
          | .panik => .panik

/-- `Sarc::get_file` from parse.rs. -/
def Sarc.getFile (s : Sarc) (name : Bytes) : PRes (Option SFile) :=
  if s.numFiles = 0 then .ok none
  else getFileLoop s (hashName s.hashMultiplier name) (s.numFiles + 2) 0 (s.numFiles - 1)

/-- One step of the gcd fold in `guess_min_alignment`; reads whole `ResFatEntry`s
sequentially (a failed read is an `unwrap` panic, modelled as `none`). -/
def guessFold (s : Sarc) : List Nat → Nat → Option Nat
  | [], g => some g
  | i :: t, g =>
    match readU32 s.endian s.data (s.entriesOffset + 0x10 * i),
          readU32 s.endian s.data (s.entriesOffset + 0x10 * i + 4),
          readU32 s.endian s.data (s.entriesOffset + 0x10 * i + 8),
          readU32 s.endian s.data (s.entriesOffset + 0x10 * i + 12) with
    | some _, some _, some dataBegin, some _ =>
      guessFold s t (Nat.gcd g ((s.dataOffset + dataBegin) % 2^32))
    | _, _, _, _ => none

/-- `Sarc::guess_min_alignment` from parse.rs (`none` = the `unwrap` panicked). -/
def Sarc.guessMinAlignment (s : Sarc) : Option Nat :=
  if s.data.length < s.entriesOffset then none  -- &data[entries_offset..]
  else
    match guessFold s (List.range s.numFiles) 4 with
    | none => none
    | some g => some (if isValidAlignment g then g else 4)

/-! ## Writer (writer.rs)

The ambient data tables shipped with the library are outside `src/` and outside
the spec's scope (spec §1, §6 gives only their schema).  They are therefore
taken as parameters throughout:
* `agl` — the flattened (extension, alignment) requirement list produced from
  the AGL-environment JSON (each `ext` and `bext` paired with its nonnegative
  `align`), as built by `get_agl_env_alignment_requirements`;
* `factory` — the set of BOTW factory extensions (first column of the TSV),
  as built by `get_botw_factory_names`.
-/

/-- Association-list lookup, modelling `HashMap::get` (only lookups are observable). -/
def aamLookup (m : List (Bytes × Nat)) (k : Bytes) : Option Nat :=
  match m with
  | [] => none
  | (k', v') :: t => if k' = k then some v' else aamLookup t k

/-- Association-list insert-or-replace, modelling `HashMap::insert`. -/
def aamInsert (m : List (Bytes × Nat)) (k : Bytes) (v : Nat) : List (Bytes × Nat) :=
  match m with
  | [] => [(k, v)]
  | (k', v') :: t => if k' = k then (k, v) :: t else (k', v') :: aamInsert t k v

/-- `IndexMap::insert`: replace the value in place when the key exists,
append at the back otherwise. -/
def imInsert (m : List (Bytes × Bytes)) (k v : Bytes) : List (Bytes × Bytes) :=
  match m with
  | [] => [(k, v)]
  | (k', v') :: t => if k' = k then (k, v) :: t else (k', v') :: imInsert t k v

/-- `SarcWriter` from writer.rs.  `files` models the `IndexMap` as an ordered
association list; `alignmentMap` models the `HashMap` (observable only through
lookups). -/
structure SarcWriter where
  endian : Endian
  legacy : Bool
  hashMultiplier : Nat
  minAlignment : Nat
  alignmentMap : List (Bytes × Nat)
  files : List (Bytes × Bytes)
deriving DecidableEq

/-- `SarcWriter::new`. -/
def SarcWriter.new (e : Endian) : SarcWriter :=
  ⟨e, false, 0x65, 4, [], []⟩

/-- `SarcWriter::is_file_sarc`. -/
def isFileSarc (data : Bytes) : Bool :=
  decide (0x20 ≤ data.length) &&
    ((data.take 4 == sarcMagicB) ||
     ((data.take 4 == yaz0MagicB) && ((data.drop 0x11).take 4 == sarcMagicB)))

/-- The extension: substring after the last `.` in the name, empty when there is
no dot (`name.rfind('.')`; `.` is ASCII so byte-level search is exact). -/
def extOf (name : Bytes) : Bytes :=
  if name.any (· == 46) then (name.reverse.takeWhile (fun b => b ≠ 46)).reverse else []

/-- `SarcWriter::get_alignment_for_new_binary_file`.  `1 << data[0xE]` is modelled
as `2 ^ data[0xE]` (for shift amounts ≥ 64 the Rust shift is an overflow panic;
the theorems below bound the resolved alignments, which excludes that case). -/
def getAlignmentForNewBinaryFile (data : Bytes) : Nat :=
  if data.length ≤ 0x20 then 1
  else
    match readU16 .big data 0xC with
    | some 0xFFFE =>
      (match readU32 .big data 0x1C with
       | some fsize => if fsize = data.length then 2 ^ data.getD 0xE 0 else 1
       | none => 1)
    | some 0xFEFF =>
      (match readU32 .little data 0x1C with
       | some fsize => if fsize = data.length then 2 ^ data.getD 0xE 0 else 1
       | none => 1)
    | _ => 1

/-- `SarcWriter::get_alignment_for_cafe_bflim`: trailing "FLIM" magic at
`[len-0x28, len-0x24)`, big-endian u16 at `[len-8, len-6)`. -/
def getAlignmentForCafeBflim (data : Bytes) : Nat :=
  if data.length ≤ 0x28 then 1
  else if (data.drop (data.length - 0x28)).take 4 ≠ [70, 76, 73, 77] then 1
  else
    match readU16 .big data (data.length - 8) with
    | some a => a
    | none => 1

/-- `SarcWriter::get_alignment_for_file` (called with the alignment map as it
stands after `add_default_alignments`). -/
def getAlignmentForFile (factory : List Bytes) (legacy : Bool) (amap : List (Bytes × Nat))
    (minA : Nat) (e : Endian) (name data : Bytes) : Nat :=
  let ext := extOf name
  let a1 := minA
  let a2 := match aamLookup amap ext with
    | some r => Nat.lcm a1 r
    | none => a1
  let a3 := if legacy && isFileSarc data then Nat.lcm a2 0x2000 else a2
  if legacy || !(factory.contains ext) then
    let a4 := Nat.lcm a3 (getAlignmentForNewBinaryFile data)
    match e with
    | .big => Nat.lcm a4 (getAlignmentForCafeBflim data)
    | .little => a4
  else a3

/-- `SarcWriter::add_default_alignments`.  Every hardcoded alignment is a power
of two, so each inner `add_alignment_requirement` succeeds; the source asserts
(comment at writer.rs:233) that the AGL table alignments are powers of two too,
so the insertions are modelled unconditionally. -/
def addDefaultAlignments (agl : List (Bytes × Nat)) (e : Endian)
    (m : List (Bytes × Nat)) : List (Bytes × Nat) :=
  let m1 := agl.foldl (fun acc p => aamInsert acc p.1 p.2) m
  let m2 := aamInsert m1 [107, 115, 107, 121] 8            -- "ksky"
  let m3 := aamInsert m2 [107, 115, 107, 121] 8            -- "ksky" (duplicated in source)
  let m4 := aamInsert m3 [98, 107, 115, 107, 121] 8        -- "bksky"
  let m5 := aamInsert m4 [103, 116, 120] 0x2000            -- "gtx"
  let m6 := aamInsert m5 [115, 104, 97, 114, 99, 98] 0x1000  -- "sharcb"
  let m7 := aamInsert m6 [115, 104, 97, 114, 99] 0x1000    -- "sharc"
  let m8 := aamInsert m7 [98, 97, 103, 108, 109, 102] 0x80 -- "baglmf"
  aamInsert m8 [98, 102, 102, 110, 116]                    -- "bffnt"
    (match e with | .big => 0x2000 | .little => 0x1000)

/-- Stable insertion into a hash-sorted list: `x` goes before the first element
whose hash is not smaller. -/
def insHash (mult : Nat) (x : Bytes × Bytes) :
    List (Bytes × Bytes) → List (Bytes × Bytes)
  | [] => [x]
  | y :: t => if hashName mult y.1 < hashName mult x.1 then y :: insHash mult x t
              else x :: y :: t

/-- `IndexMap::sort_by` with the `hash_name` comparator.  `sort_by` is a stable
sort, and a stable sort's output is uniquely determined by the comparator, so
any stable algorithm is a faithful model; insertion sort is used here. -/
def sortByHash (mult : Nat) (l : List (Bytes × Bytes)) : List (Bytes × Bytes) :=
  l.foldr (insHash mult) []

/-- An in-memory `Cursor<&mut Vec<u8>>`: writing a nonempty slice at a position
past the end zero-fills the gap (std behaviour); writing zero bytes is a no-op
on the vector; a bare seek just moves the position. -/
def storeBytes (buf : Bytes) (pos : Nat) (bs : Bytes) : Bytes :=
  if bs.isEmpty then buf
  else buf.take pos ++ List.replicate (pos - buf.length) 0 ++ bs ++ buf.drop (pos + bs.length)

structure Cur where
  buf : Bytes
  pos : Nat
deriving DecidableEq

def curWrite (c : Cur) (bs : Bytes) : Cur :=
  ⟨storeBytes c.buf c.pos bs, c.pos + bs.length⟩

/-- State of the FAT-entry emission loop in `SarcWriter::write`. -/
structure EntSt where
  cur : Cur
  aligns : List Nat
  relData : Nat
  relStr : Nat
deriving DecidableEq

/-- One iteration of the FAT-entry loop: resolve the alignment, align the
relative data offset, emit the `ResFatEntry`, advance the string offset
(`rel_string_offset` is a u32 with wrapping add). -/
def entryStep (factory : List Bytes) (legacy : Bool) (amap : List (Bytes × Nat))
    (minA : Nat) (e : Endian) (mult : Nat) (st : EntSt) (nd : Bytes × Bytes) : EntSt :=
  let a := getAlignmentForFile factory legacy amap minA e nd.1 nd.2
  let off := alignUp st.relData a
  let entry := putU32 e (hashName mult nd.1) ++
               putU32 e (Nat.lor 0x1000000 (st.relStr / 4)) ++
               putU32 e off ++
               putU32 e (off + nd.2.length)
  ⟨curWrite st.cur entry, st.aligns ++ [a], off + nd.2.length,
   (st.relStr + alignUp (nd.1.length + 1) 4) % 2^32⟩

/-- The emission pass of `SarcWriter::write`, as a function of the already
sorted file list `files1` and the alignment map `map1` as it stands after
`add_default_alignments`: seek 0x14; FAT header; FAT entries; FNT header;
names (each NUL-terminated then 4-aligned); pad to the LCM of the alignments;
data blocks (each padded to its own alignment); backpatch the archive header. -/
def writeCore (factory : List Bytes) (legacy : Bool) (map1 : List (Bytes × Nat))
    (minA : Nat) (e : Endian) (mult : Nat) (files1 : List (Bytes × Bytes)) : Bytes :=
  let c1 := curWrite ⟨[], 0x14⟩
    (sfatMagicB ++ putU16 e 0x0C ++ putU16 e files1.length ++ putU32 e mult)
  let st := files1.foldl (entryStep factory legacy map1 minA e mult) ⟨c1, [], 0, 0⟩
  let c3 := curWrite st.cur (sfntMagicB ++ putU16 e 0x8 ++ putU16 e 0)
  let c4 := files1.foldl
    (fun c nd =>
      let c' := curWrite c (nd.1 ++ [0])
      Cur.mk c'.buf (alignUp c'.pos 4)) c3
  let required := st.aligns.foldl (fun acc a => Nat.lcm acc a) 1
  let dOff := alignUp c4.pos required
  let c6 := (files1.zip st.aligns).foldl
    (fun c p => curWrite ⟨c.buf, alignUp c.pos p.2⟩ p.1.2) ⟨c4.buf, dOff⟩
  let fileSize := c6.pos
  let hdr := sarcMagicB ++ putU16 e 0x14 ++ bomBytes e ++ putU32 e fileSize ++
             putU32 e dOff ++ putU16 e 0x0100 ++ putU16 e 0
  storeBytes c6.buf 0 hdr

/-- `SarcWriter::write` from writer.rs: sort the files by hash, merge the
default alignments, run the emission pass, and return the output bytes and the
mutated writer.  (In the source the FAT header is emitted one step before
`add_default_alignments` runs; the two steps are independent, so hoisting the
map merge in front of the emission pass is observationally identical.) -/
def SarcWriter.write (agl : List (Bytes × Nat)) (factory : List Bytes)
    (w : SarcWriter) : Bytes × SarcWriter :=
  let files1 := sortByHash w.hashMultiplier w.files
  let map1 := addDefaultAlignments agl w.endian w.alignmentMap
  (writeCore factory w.legacy map1 w.minAlignment w.endian w.hashMultiplier files1,
   { w with files := files1, alignmentMap := map1 })

/-- `SarcWriter::from_sarc`: copy the named files (reader order, `IndexMap`
collect semantics), inherit endian and guessed min alignment, reset the
multiplier to 0x65 and the alignment map to empty.  `none` = a panic propagated
out of `files()` or `guess_min_alignment`. -/
def SarcWriter.fromSarc (s : Sarc) : Option SarcWriter :=
  match s.filesList, s.guessMinAlignment with
  | .ok fs, some g =>
    some { endian := s.endian, legacy := false, hashMultiplier := 0x65,
           alignmentMap := [],
           files := (fs.filterMap (fun f => f.name.map (fun n => (n, f.data)))).foldl
             (fun m p => imInsert m p.1 p.2) [],
           minAlignment := g }
  | _, _ => none

/-- The alignment `SarcWriter::write` resolves for a file of a given writer:
`get_alignment_for_file` consulted after `add_default_alignments` has run. -/
def resolvedAlignment (agl : List (Bytes × Nat)) (factory : List Bytes) (w : SarcWriter)
    (name data : Bytes) : Nat :=
  getAlignmentForFile factory w.legacy (addDefaultAlignments agl w.endian w.alignmentMap)
    w.minAlignment w.endian name data

/-- The hardcoded tail of `add_default_alignments`, as an insertion list. -/
def hardList (e : Endian) : List (Bytes × Nat) :=
  [([107, 115, 107, 121], 8), ([107, 115, 107, 121], 8), ([98, 107, 115, 107, 121], 8),
   ([103, 116, 120], 0x2000), ([115, 104, 97, 114, 99, 98], 0x1000),
   ([115, 104, 97, 114, 99], 0x1000), ([98, 97, 103, 108, 109, 102], 0x80),
   ([98, 102, 102, 110, 116], match e with | .big => 0x2000 | .little => 0x1000)]

/-- The values of one emitted `ResFatEntry`, plus the alignment resolved for
its file (layout-level mirror of the FAT-entry loop). -/
structure EntryL where
  align : Nat
  hash : Nat
  rel : Nat
  dBegin : Nat
  dEnd : Nat
deriving DecidableEq

/-- Layout-level mirror of the FAT-entry loop of `write`: the entry values the
loop emits, starting from relative data offset `rd` and string offset `rs`. -/
def entsSpec (factory : List Bytes) (legacy : Bool) (amap : List (Bytes × Nat))
    (minA : Nat) (e : Endian) (mult : Nat) :
    List (Bytes × Bytes) → Nat → Nat → List EntryL
  | [], _, _ => []
  | nd :: t, rd, rs =>
    let a := getAlignmentForFile factory legacy amap minA e nd.1 nd.2
    let off := alignUp rd a
    ⟨a, hashName mult nd.1, Nat.lor 0x1000000 (rs / 4), off, off + nd.2.length⟩ ::
      entsSpec factory legacy amap minA e mult t (off + nd.2.length)
        ((rs + alignUp (nd.1.length + 1) 4) % 2^32)

/-- The 16 bytes of one emitted `ResFatEntry`. -/
def entryBytes (e : Endian) (E : EntryL) : Bytes :=
  putU32 e E.hash ++ putU32 e E.rel ++ putU32 e E.dBegin ++ putU32 e E.dEnd

/-- Default values for indexed access into layouts (out-of-range reads are
always guarded by a length bound in the lemmas below). -/
def dfltEntry : EntryL := ⟨1, 0, 0, 0, 0⟩

def dfltFile : Bytes × Bytes := ([], [])

/-- The 4-aligned size a name occupies in the name table. -/
def nameSz (nm : Bytes) : Nat := alignUp (nm.length + 1) 4

/-- Decidable in-bounds check for one FAT entry of an opened archive: its name
offset (when named) and its wrapped payload bounds stay inside the buffer.
These are exactly the accesses `file_at` performs with panicking slice
indexing. -/
def entryInBounds (s : Sarc) (i : Nat) : Bool :=
  let eo := s.entriesOffset + 0x10 * i
  match readU32 s.endian s.data (eo + 4), readU32 s.endian s.data (eo + 8),
        readU32 s.endian s.data (eo + 12) with
  | some rel, some b, some en =>
    (rel == 0 || decide (s.namesOffset + (rel % 2^24) * 4 ≤ s.data.length)) &&
    (decide ((s.dataOffset + b) % 2^32 ≤ (s.dataOffset + en) % 2^32) &&
     decide ((s.dataOffset + en) % 2^32 ≤ s.data.length))
  | _, _, _ => false

/-- The relative end of the data region laid out by `entsSpec`: the last
entry's `data_end`, or the starting offset when there are no files. -/
def endRd (rd : Nat) : List EntryL → Nat
  | [] => rd
  | E :: t => endRd E.dEnd t

/-- The FAT entries `write` emits for a sorted file list (`entsSpec` from
relative data offset 0 and string offset 0). -/
def entsOf (factory : List Bytes) (legacy : Bool) (map1 : List (Bytes × Nat))
    (minA : Nat) (e : Endian) (mult : Nat) (fs : List (Bytes × Bytes)) : List EntryL :=
  entsSpec factory legacy map1 minA e mult fs 0 0

/-- The position right after the name table: headers, FAT, FNT header and the
4-aligned names. -/
def namesEndOf (fs : List (Bytes × Bytes)) : Nat :=
  0x28 + 16 * fs.length + (fs.map (fun nd => nameSz nd.1)).sum

/-- The `required` LCM of all resolved alignments, as `write` folds it. -/
def requiredOf (factory : List Bytes) (legacy : Bool) (map1 : List (Bytes × Nat))
    (minA : Nat) (e : Endian) (mult : Nat) (fs : List (Bytes × Bytes)) : Nat :=
  ((entsOf factory legacy map1 minA e mult fs).map EntryL.align).foldl
    (fun acc a => Nat.lcm acc a) 1

/-- The `data_offset` the emitted archive header records. -/
def dOffOf (factory : List Bytes) (legacy : Bool) (map1 : List (Bytes × Nat))
    (minA : Nat) (e : Endian) (mult : Nat) (fs : List (Bytes × Bytes)) : Nat :=
  alignUp (namesEndOf fs) (requiredOf factory legacy map1 minA e mult fs)

/-- The `file_size` the emitted archive header records. -/
def fileSizeOf (factory : List Bytes) (legacy : Bool) (map1 : List (Bytes × Nat))
    (minA : Nat) (e : Endian) (mult : Nat) (fs : List (Bytes × Bytes)) : Nat :=
  dOffOf factory legacy map1 minA e mult fs +
    endRd 0 (entsOf factory legacy map1 minA e mult fs)

/-- The SFAT header bytes `write` emits. -/
def fatHdrB (e : Endian) (n mult : Nat) : Bytes :=
  sfatMagicB ++ putU16 e 0x0C ++ putU16 e n ++ putU32 e mult

/-- The SFNT header bytes `write` emits. -/
def fntHdrB (e : Endian) : Bytes := sfntMagicB ++ putU16 e 0x8 ++ putU16 e 0

/-- The archive header bytes `write` backpatches at offset 0. -/
def hdrB (e : Endian) (fileSize dOff : Nat) : Bytes :=
  sarcMagicB ++ putU16 e 0x14 ++ bomBytes e ++ putU32 e fileSize ++ putU32 e dOff ++
  putU16 e 0x0100 ++ putU16 e 0

/-- The emission-loop state after the FAT entries (stage cursor of `writeCore`). -/
def stOf (factory : List Bytes) (legacy : Bool) (map1 : List (Bytes × Nat))
    (minA : Nat) (e : Endian) (mult : Nat) (fs : List (Bytes × Bytes)) : EntSt :=
  fs.foldl (entryStep factory legacy map1 minA e mult)
    ⟨curWrite ⟨[], 0x14⟩ (fatHdrB e fs.length mult), [], 0, 0⟩

/-- The cursor after the name table (stage cursor of `writeCore`). -/
def c4Of (factory : List Bytes) (legacy : Bool) (map1 : List (Bytes × Nat))
    (minA : Nat) (e : Endian) (mult : Nat) (fs : List (Bytes × Bytes)) : Cur :=
  fs.foldl (fun c nd =>
      let c' := curWrite c (nd.1 ++ [0])
      Cur.mk c'.buf (alignUp c'.pos 4))
    (curWrite (stOf factory legacy map1 minA e mult fs).cur (fntHdrB e))

/-- The cursor after the data region (stage cursor of `writeCore`). -/
def c6Of (factory : List Bytes) (legacy : Bool) (map1 : List (Bytes × Nat))
    (minA : Nat) (e : Endian) (mult : Nat) (fs : List (Bytes × Bytes)) : Cur :=
  (fs.zip (stOf factory legacy map1 minA e mult fs).aligns).foldl
    (fun c p => curWrite ⟨c.buf, alignUp c.pos p.2⟩ p.1.2)
    ⟨(c4Of factory legacy map1 minA e mult fs).buf,
     alignUp (c4Of factory legacy map1 minA e mult fs).pos
       ((stOf factory legacy map1 minA e mult fs).aligns.foldl
         (fun acc a => Nat.lcm acc a) 1)⟩

/-! ## Concrete test vectors

Hand-assembled archives (all little-endian, multiplier 0x65, version 0x100) and
writers used to settle individual claims on explicit inputs. -/

/-- Valid archive, one nameless entry with hash 5 and empty payload;
`data_offset = names_offset = 0x38`. -/
def arch3 : Bytes :=
  [83, 65, 82, 67, 0x14, 0, 0xFF, 0xFE, 0x38, 0, 0, 0, 0x38, 0, 0, 0, 0, 1, 0, 0] ++
  [83, 70, 65, 84, 0x0C, 0, 1, 0, 0x65, 0, 0, 0] ++
  [5, 0, 0, 0, 0, 0, 0, 0, 0, 0, 0, 0, 0, 0, 0, 0] ++
  [83, 70, 78, 84, 8, 0, 0, 0]

def sarc3 : Sarc := ⟨1, 0x20, 0x65, 0x38, 0x38, .little, arch3⟩

/-- Valid archive like `arch3` but with the odd `data_offset = 0x39`. -/
def arch4 : Bytes :=
  [83, 65, 82, 67, 0x14, 0, 0xFF, 0xFE, 0x39, 0, 0, 0, 0x39, 0, 0, 0, 0, 1, 0, 0] ++
  [83, 70, 65, 84, 0x0C, 0, 1, 0, 0x65, 0, 0, 0] ++
  [5, 0, 0, 0, 0, 0, 0, 0, 0, 0, 0, 0, 0, 0, 0, 0] ++
  [83, 70, 78, 84, 8, 0, 0, 0]

def sarc4 : Sarc := ⟨1, 0x20, 0x65, 0x39, 0x38, .little, arch4⟩

/-- Valid archive whose single FAT entry has `rel_name_opt_offset = 0x01FFFFFF`,
a name offset far beyond the end of the buffer. -/
def arch7 : Bytes :=
  [83, 65, 82, 67, 0x14, 0, 0xFF, 0xFE, 0x38, 0, 0, 0, 0x38, 0, 0, 0, 0, 1, 0, 0] ++
  [83, 70, 65, 84, 0x0C, 0, 1, 0, 0x65, 0, 0, 0] ++
  [5, 0, 0, 0, 0xFF, 0xFF, 0xFF, 1, 0, 0, 0, 0, 0, 0, 0, 0] ++
  [83, 70, 78, 84, 8, 0, 0, 0]

def sarc7 : Sarc := ⟨1, 0x20, 0x65, 0x38, 0x38, .little, arch7⟩

/-- Valid archive whose single entry has a name (`rel = 0x01000000`) whose
name-table bytes `FF 00` are not valid UTF-8. -/
def arch10 : Bytes :=
  [83, 65, 82, 67, 0x14, 0, 0xFF, 0xFE, 0x3C, 0, 0, 0, 0x3C, 0, 0, 0, 0, 1, 0, 0] ++
  [83, 70, 65, 84, 0x0C, 0, 1, 0, 0x65, 0, 0, 0] ++
  [5, 0, 0, 0, 0, 0, 0, 1, 0, 0, 0, 0, 0, 0, 0, 0] ++
  [83, 70, 78, 84, 8, 0, 0, 0] ++
  [0xFF, 0, 0, 0]

def sarc10 : Sarc := ⟨1, 0x20, 0x65, 0x3C, 0x38, .little, arch10⟩

/-- Valid archive, one nameless entry with a 4-byte payload at the default
4-aligned `data_offset = 0x38`; stored multiplier 0x65. -/
def arch1 : Bytes :=
  [83, 65, 82, 67, 0x14, 0, 0xFF, 0xFE, 0x3C, 0, 0, 0, 0x38, 0, 0, 0, 0, 1, 0, 0] ++
  [83, 70, 65, 84, 0x0C, 0, 1, 0, 0x65, 0, 0, 0] ++
  [5, 0, 0, 0, 0, 0, 0, 0, 0, 0, 0, 0, 4, 0, 0, 0] ++
  [83, 70, 78, 84, 8, 0, 0, 0] ++
  [9, 9, 9, 9]

def sarc1 : Sarc := ⟨1, 0x20, 0x65, 0x38, 0x38, .little, arch1⟩

/-- The writer `from_sarc` produces for `sarc1`/`sarc10`: defaults and no files. -/
def emptyLittleWriter : SarcWriter := ⟨.little, false, 0x65, 4, [], []⟩

/-- The 0x28 bytes an empty little-endian writer serializes to. -/
def emptyArchiveBytes : Bytes :=
  [83, 65, 82, 67, 20, 0, 255, 254, 40, 0, 0, 0, 40, 0, 0, 0, 0, 1, 0, 0,
   83, 70, 65, 84, 12, 0, 0, 0, 101, 0, 0, 0, 83, 70, 78, 84, 8, 0, 0, 0]

/-- A 0x30-byte payload shaped like a Cafe BFLIM: trailing "FLIM" magic at
`[len-0x28, len-0x24)` and big-endian alignment field 6 at `[len-8, len-6)`. -/
def bflimFile : Bytes :=
  List.replicate 8 9 ++ [70, 76, 73, 77] ++ List.replicate 28 9 ++ [0, 6, 0, 0, 0, 0, 0, 0]

/-- Big-endian writer holding the BFLIM-shaped file under a factory-less name. -/
def w2c : SarcWriter := ⟨.big, false, 0x65, 4, [], [([97], bflimFile)]⟩

/-- Little-endian writer with two distinct names whose hashes collide:
`hash(0x65, "ab\x01") = hash(0x65, "aaf") = 999396`. -/
def w6c : SarcWriter :=
  ⟨.little, false, 0x65, 4, [], [([97, 98, 1], [104]), ([97, 97, 102], [104])]⟩

/-- Little-endian writer with two one-byte names "a" and "b" (hashes 97 and 98)
and one-byte payloads. -/
def w6a : SarcWriter :=
  ⟨.little, false, 0x65, 4, [], [([97], [104]), ([98], [105])]⟩

/-! ## Byte-level lemmas -/

theorem length_putU16 (e : Endian) (v : Nat) : (putU16 e v).length = 2 := by
  cases e <;> rfl

theorem length_putU32 (e : Endian) (v : Nat) : (putU32 e v).length = 4 := by
  cases e <;> rfl

theorem readU16_bound {e d p v} (h : readU16 e d p = some v) : p + 2 ≤ d.length := by
  unfold readU16 at h
  split at h
  · next hb ha => have := (List.getElem?_eq_some.1 ha).1; omega
  · exact absurd h (by simp)

theorem readU32_bound {e d p v} (h : readU32 e d p = some v) : p + 4 ≤ d.length := by
  unfold readU32 at h
  split at h
  · next _ _ _ hx => have := (List.getElem?_eq_some.1 hx).1; omega
  · exact absurd h (by simp)

theorem readU32_isSome (e : Endian) {d : Bytes} {p : Nat} (h : p + 4 ≤ d.length) :
    ∃ v, readU32 e d p = some v := by
  unfold readU32
  have h0 : p < d.length := by omega
  have h1 : p + 1 < d.length := by omega
  have h2 : p + 2 < d.length := by omega
  have h3 : p + 3 < d.length := by omega
  rw [List.getElem?_eq_getElem h0, List.getElem?_eq_getElem h1,
      List.getElem?_eq_getElem h2, List.getElem?_eq_getElem h3]
  exact ⟨_, rfl⟩

theorem readU16_append_right (e : Endian) (xs ys : Bytes) (p : Nat) (h : xs.length ≤ p) :
    readU16 e (xs ++ ys) p = readU16 e ys (p - xs.length) := by
  unfold readU16
  rw [List.getElem?_append_right h, List.getElem?_append_right (by omega)]
  have : p + 1 - xs.length = p - xs.length + 1 := by omega
  rw [this]

theorem readU32_append_right (e : Endian) (xs ys : Bytes) (p : Nat) (h : xs.length ≤ p) :
    readU32 e (xs ++ ys) p = readU32 e ys (p - xs.length) := by
  unfold readU32
  rw [List.getElem?_append_right h, List.getElem?_append_right (by omega),
      List.getElem?_append_right (by omega), List.getElem?_append_right (by omega)]
  have e1 : p + 1 - xs.length = p - xs.length + 1 := by omega
  have e2 : p + 2 - xs.length = p - xs.length + 2 := by omega
  have e3 : p + 3 - xs.length = p - xs.length + 3 := by omega
  rw [e1, e2, e3]

theorem readU16_append_left (e : Endian) (xs ys : Bytes) (p : Nat) (h : p + 2 ≤ xs.length) :
    readU16 e (xs ++ ys) p = readU16 e xs p := by
  unfold readU16
  rw [List.getElem?_append_left (by omega), List.getElem?_append_left (by omega)]

theorem readU32_append_left (e : Endian) (xs ys : Bytes) (p : Nat) (h : p + 4 ≤ xs.length) :
    readU32 e (xs ++ ys) p = readU32 e xs p := by
  unfold readU32
  rw [List.getElem?_append_left (by omega), List.getElem?_append_left (by omega),
      List.getElem?_append_left (by omega), List.getElem?_append_left (by omega)]

theorem readBytesN_append_left (xs ys : Bytes) (p n : Nat) (h : p + n ≤ xs.length) :
    readBytesN (xs ++ ys) p n = readBytesN xs p n := by
  unfold readBytesN
  rw [if_pos (by simp; omega), if_pos h, List.drop_append_eq_append_drop,
      List.take_append_eq_append_take]
  have h1 : (List.drop p xs).length = xs.length - p := List.length_drop p xs
  have h2 : n - (List.drop p xs).length = 0 := by omega
  rw [h2, List.take_zero, List.append_nil]

theorem digits32 (w : Nat) (hw : w < 2^32) :
    w % 2^8 + (w / 2^8 % 2^8 + (w / 2^16 % 2^8 + w / 2^24 % 2^8 * 2^8) * 2^8) * 2^8 = w := by
  norm_num
  omega

theorem digits32be (w : Nat) (hw : w < 2^32) :
    ((w / 2^24 % 2^8 * 2^8 + w / 2^16 % 2^8) * 2^8 + w / 2^8 % 2^8) * 2^8 + w % 2^8 = w := by
  norm_num
  omega

theorem readU32_putU32 (e : Endian) (v : Nat) (rest : Bytes) :
    readU32 e (putU32 e v ++ rest) 0 = some (v % 2^32) := by
  have hv : v % 2^32 < 2^32 := Nat.mod_lt _ (by norm_num)
  cases e <;>
    simp only [putU32, readU32, List.cons_append, List.getElem?_cons_zero,
      List.getElem?_cons_succ] <;>
    rw [Option.some_inj]
  · exact digits32be (v % 2^32) hv
  · exact digits32 (v % 2^32) hv

theorem digits16 (w : Nat) : w % 2^8 + w / 2^8 * 2^8 = w := by
  norm_num; omega

theorem digits16be (w : Nat) : w / 2^8 * 2^8 + w % 2^8 = w := by
  norm_num; omega

theorem readU16_putU16 (e : Endian) (v : Nat) (rest : Bytes) :
    readU16 e (putU16 e v ++ rest) 0 = some (v % 2^16) := by
  have hv : v % 2^16 < 2^16 := Nat.mod_lt _ (by norm_num)
  cases e <;>
    simp only [putU16, readU16, List.cons_append, List.getElem?_cons_zero,
      List.getElem?_cons_succ] <;>
    rw [Option.some_inj]
  · exact digits16be (v % 2^16)
  · exact digits16 (v % 2^16)

/-! ## Cursor lemmas -/

theorem storeBytes_at_end (buf bs : Bytes) : storeBytes buf buf.length bs = buf ++ bs := by
  unfold storeBytes
  split
  · next h => rw [List.isEmpty_iff.1 h, List.append_nil]
  · rw [List.take_length, Nat.sub_self, List.replicate_zero, List.drop_eq_nil_of_le (by omega)]
    simp

theorem storeBytes_ge (buf bs : Bytes) (pos : Nat) (h : buf.length ≤ pos) (hbs : bs ≠ []) :
    storeBytes buf pos bs = buf ++ List.replicate (pos - buf.length) 0 ++ bs := by
  unfold storeBytes
  rw [if_neg (by simpa using hbs), List.take_of_length_le h,
      List.drop_eq_nil_of_le (by omega)]
  simp

theorem length_storeBytes_ge (buf bs : Bytes) (pos : Nat) (h : buf.length ≤ pos)
    (hbs : bs ≠ []) : (storeBytes buf pos bs).length = pos + bs.length := by
  rw [storeBytes_ge buf bs pos h hbs]
  simp
  omega

theorem storeBytes_zero (buf bs : Bytes) :
    storeBytes buf 0 bs = bs ++ buf.drop bs.length := by
  unfold storeBytes
  split
  · next hb => rw [List.isEmpty_iff.1 hb]; simp
  · simp

/-! ## Alignment arithmetic -/

theorem land_high_mask (x k : Nat) (hk : k ≤ 64) (hx : x < 2^64) :
    Nat.land x (2^64 - 2^k) = x / 2^k * 2^k := by
  have hmask : 2^64 - 2^k = (2^(64-k) - 1) <<< k := by
    rw [Nat.shiftLeft_eq, Nat.sub_mul, ← Nat.pow_add, one_mul]
    congr 2
    omega
  have hdiv : x / 2^k * 2^k = (x >>> k) <<< k := by
    rw [Nat.shiftLeft_eq, Nat.shiftRight_eq_div_pow]
  apply Nat.eq_of_testBit_eq
  intro i
  show (x &&& (2^64 - 2^k)).testBit i = _
  rw [Nat.testBit_land, hmask, hdiv, Nat.testBit_shiftLeft, Nat.testBit_shiftLeft,
      Nat.testBit_two_pow_sub_one, Nat.testBit_shiftRight]
  by_cases h1 : i < k
  · simp [Nat.not_le.2 h1]
  · by_cases h2 : i < 64
    · have : k + (i - k) = i := by omega
      simp [Nat.le_of_not_lt h1, this]
      omega
    · have hb : x.testBit i = false := by
        apply Nat.testBit_eq_false_of_lt
        calc x < 2^64 := hx
          _ ≤ 2^i := Nat.pow_le_pow_right (by norm_num) (by omega)
      have : k + (i - k) = i := by omega
      simp [Nat.le_of_not_lt h1, this, hb]

theorem alignUp_pow2 (pos k : Nat) (hk : k ≤ 64) (h : pos + 2^k ≤ 2^64) :
    alignUp pos (2^k) = (pos + 2^k - 1) / 2^k * 2^k := by
  have hp : 0 < 2^k := Nat.pos_pow_of_pos k (by norm_num)
  have h1 : pos + 2^k - 1 < 2^64 := by omega
  have h2 : 2^64 - 2^k < 2^64 := by
    have : 0 < (2:Nat)^64 := by norm_num
    omega
  unfold alignUp
  rw [Nat.mod_eq_of_lt h1, Nat.mod_eq_of_lt h2]
  exact land_high_mask _ k hk h1

theorem alignUp_pow2_dvd (pos k : Nat) (hk : k ≤ 64) (h : pos + 2^k ≤ 2^64) :
    2^k ∣ alignUp pos (2^k) := by
  rw [alignUp_pow2 pos k hk h]
  exact dvd_mul_left (2^k) _

theorem le_alignUp_pow2 (pos k : Nat) (hk : k ≤ 64) (h : pos + 2^k ≤ 2^64) :
    pos ≤ alignUp pos (2^k) := by
  have hp : 0 < 2^k := Nat.pos_pow_of_pos k (by norm_num)
  rw [alignUp_pow2 pos k hk h, Nat.mul_comm]
  have hdm := Nat.div_add_mod (pos + 2^k - 1) (2^k)
  have hm : (pos + 2^k - 1) % 2^k < 2^k := Nat.mod_lt _ hp
  omega

theorem alignUp_pow2_lt (pos k : Nat) (hk : k ≤ 64) (h : pos + 2^k ≤ 2^64) :
    alignUp pos (2^k) < pos + 2^k := by
  have hp : 0 < 2^k := Nat.pos_pow_of_pos k (by norm_num)
  rw [alignUp_pow2 pos k hk h, Nat.mul_comm]
  have hdm := Nat.div_add_mod (pos + 2^k - 1) (2^k)
  have hm : (pos + 2^k - 1) % 2^k < 2^k := Nat.mod_lt _ hp
  have hle := Nat.div_mul_le_self (pos + 2^k - 1) (2^k)
  rw [Nat.mul_comm ((pos + 2^k - 1) / 2^k) (2^k)] at hle
  omega

theorem alignUp_pow2_add (d pos k : Nat) (hk : k ≤ 64) (hd : 2^k ∣ d)
    (h : d + pos + 2^k ≤ 2^64) : alignUp (d + pos) (2^k) = d + alignUp pos (2^k) := by
  have hp : 0 < 2^k := Nat.pos_pow_of_pos k (by norm_num)
  obtain ⟨q, hq⟩ := hd
  rw [alignUp_pow2 _ k hk h, alignUp_pow2 pos k hk (by omega), hq]
  have h1 : 2^k * q + pos + 2^k - 1 = pos + 2^k - 1 + 2^k * q := by omega
  rw [h1, Nat.add_mul_div_left _ _ hp, Nat.add_mul, Nat.mul_comm q (2^k)]
  omega

theorem alignUp_pow2_self (pos k : Nat) (hk : k ≤ 64) (hd : 2^k ∣ pos)
    (h : pos + 2^k ≤ 2^64) : alignUp pos (2^k) = pos := by
  have h0 : alignUp 0 (2^k) = 0 := by
    have hp : 0 < 2^k := Nat.pos_pow_of_pos k (by norm_num)
    rw [alignUp_pow2 0 k hk (by omega), Nat.zero_add, Nat.div_eq_of_lt (by omega)]
    simp
  have := alignUp_pow2_add pos 0 k hk hd (by omega)
  simpa [h0] using this

/-! ## Name-table lemmas -/

theorem findNull_append (nm tail : Bytes) (h : ∀ b ∈ nm, b ≠ 0) :
    findNull (nm ++ 0 :: tail) = some nm.length := by
  induction nm with
  | nil => simp [findNull]
  | cons b t ih =>
    have hb : b ≠ 0 := h b (by simp)
    simp only [List.cons_append, findNull, if_neg hb, List.append_eq]
    rw [ih (fun x hx => h x (by simp [hx]))]
    rfl

theorem take_length_append (nm tail : Bytes) : (nm ++ tail).take nm.length = nm :=
  List.take_left nm tail

/-! ## Parse-success facts -/

theorem readResFntHeader_bound {e : Endian} {data : Bytes} {fntOff : Nat} {v : ResFntHeaderV}
    (h : readResFntHeader e data fntOff = some v) : fntOff + 8 ≤ data.length := by
  unfold readResFntHeader at h
  split at h
  · next heq1 heq2 heq3 => have := readU16_bound heq3; omega
  · exact Option.noConfusion h

theorem parseFnt_ok {e : Endian} {data : Bytes} {dOff n mult : Nat} {s : Sarc}
    (h : parseFnt e data dOff n mult = Except.ok s) :
    s = ⟨n, 0x20, mult, dOff, 0x20 + 0x10 * n + 8, e, data⟩ ∧
    0x20 + 0x10 * n + 8 ≤ dOff ∧ 0x20 + 0x10 * n + 8 ≤ data.length := by
  unfold parseFnt at h
  simp only [] at h
  split at h
  · exact Except.noConfusion h
  next fnt hfnt =>
    split at h
    · exact Except.noConfusion h
    split at h
    · exact Except.noConfusion h
    split at h
    · exact Except.noConfusion h
    next hdo =>
      injection h with h'
      refine ⟨h'.symm, by omega, by have := readResFntHeader_bound hfnt; omega⟩

theorem parseFat_ok {e : Endian} {data : Bytes} {dOff : Nat} {s : Sarc}
    (h : parseFat e data dOff = Except.ok s) :
    ∃ n mult, n < 0x4000 ∧ parseFnt e data dOff n mult = Except.ok s := by
  unfold parseFat at h
  split at h
  · exact Except.noConfusion h
  next fat hfat =>
    split at h
    · exact Except.noConfusion h
    split at h
    · exact Except.noConfusion h
    split at h
    · exact Except.noConfusion h
    next hnum =>
      refine ⟨fat.numFiles, fat.hashMultiplier, ?_, h⟩
      simp only [ne_eq, not_not] at hnum
      rw [Nat.shiftRight_eq_div_pow] at hnum
      have : (2:Nat)^0xE = 16384 := by norm_num
      rw [this] at hnum
      omega

theorem parseAfterBom_ok {e : Endian} {data : Bytes} {s : Sarc}
    (h : parseAfterBom e data = Except.ok s) :
    ∃ dOff, parseFat e data dOff = Except.ok s := by
  unfold parseAfterBom at h
  split at h
  · exact Except.noConfusion h
  next hd hhd =>
    split at h
    · exact Except.noConfusion h
    split at h
    · exact Except.noConfusion h
    split at h
    · exact Except.noConfusion h
    exact ⟨hd.dataOffset, h⟩

theorem parseSarc_okE {data : Bytes} {s : Sarc} (h : parseSarc data = Except.ok s) :
    ∃ e, parseAfterBom e data = Except.ok s := by
  unfold parseSarc at h
  split at h
  · exact Except.noConfusion h
  split at h
  · exact ⟨_, h⟩
  · exact Except.noConfusion h

theorem parseSarc_ok {data : Bytes} {s : Sarc} (h : parseSarc data = Except.ok s) :
    s.data = data ∧ s.entriesOffset = 0x20 ∧
    s.namesOffset = 0x20 + 0x10 * s.numFiles + 8 ∧
    s.numFiles < 0x4000 ∧ s.namesOffset ≤ s.dataOffset ∧
    0x20 + 0x10 * s.numFiles + 8 ≤ data.length := by
  obtain ⟨e, h1⟩ := parseSarc_okE h
  obtain ⟨dOff, h2⟩ := parseAfterBom_ok h1
  obtain ⟨n, mult, hn, h3⟩ := parseFat_ok h2
  obtain ⟨hs, hdo, hlen⟩ := parseFnt_ok h3
  subst hs
  exact ⟨rfl, rfl, rfl, hn, hdo, hlen⟩

/-! ## guess_min_alignment facts -/

theorem guessFold_dvd (s : Sarc) (l : List Nat) (g₀ : Nat)
    (h : ∀ i ∈ l, s.entriesOffset + 0x10 * i + 16 ≤ s.data.length) :
    ∃ g, guessFold s l g₀ = some g ∧ g ∣ g₀ := by
  induction l generalizing g₀ with
  | nil => exact ⟨g₀, rfl, dvd_refl g₀⟩
  | cons i t ih =>
    have hi := h i (by simp)
    obtain ⟨v0, hv0⟩ := readU32_isSome s.endian
      (show s.entriesOffset + 0x10 * i + 4 ≤ s.data.length by omega)
    obtain ⟨v1, hv1⟩ := readU32_isSome s.endian
      (show s.entriesOffset + 0x10 * i + 4 + 4 ≤ s.data.length by omega)
    obtain ⟨v2, hv2⟩ := readU32_isSome s.endian
      (show s.entriesOffset + 0x10 * i + 8 + 4 ≤ s.data.length by omega)
    obtain ⟨v3, hv3⟩ := readU32_isSome s.endian
      (show s.entriesOffset + 0x10 * i + 12 + 4 ≤ s.data.length by omega)
    obtain ⟨g, hg, hdvd⟩ := ih (Nat.gcd g₀ ((s.dataOffset + v2) % 2^32))
      (fun j hj => h j (by simp [hj]))
    refine ⟨g, ?_, hdvd.trans (Nat.gcd_dvd_left _ _)⟩
    unfold guessFold
    rw [hv0, hv1, hv2, hv3]
    exact hg

theorem isValidAlignment_two_pow (k : Nat) : isValidAlignment (2^k) = true := by
  unfold isValidAlignment
  have h1 : (2:Nat)^k ≠ 0 := by positivity
  have h2 : (2:Nat)^k &&& (2^k - 1) = 0 := by
    have := Nat.and_pow_two_sub_one_eq_mod (2^k) k
    simpa [Nat.mod_self] using this
  simp [h1, h2]

/-! ## Claim C3 -/

/-- Claim C3 (code bug): the spec says a `get_file` query whose hash matches no
entry returns none, also when the query hash is below every entry hash.  On
`arch3` (single entry, hash 5) the query `""` (hash 0) drives the binary search
to `b = m - 1` with `m = 0`: a u32 underflow.  With wrapping arithmetic the next
iteration reads entry 0x7FFFFFFF far past the buffer and returns a wrapped
binread `parseErr`; with overflow checks the subtraction itself panics.  Either
way the result is not `ok none`. -/
theorem claim_C3_divergence :
    parseSarc arch3 = Except.ok sarc3 ∧
    sarc3.getFile [] = PRes.err SarcError.parseErr ∧
    sarc3.getFile [] ≠ PRes.ok none := by
  refine ⟨rfl, rfl, ?_⟩
  intro h
  exact absurd (rfl.trans h) (by decide)

/-! ## Claim C4 -/

/-- Claim C4 as stated is false: `guess_min_alignment` need not be ≥ 4.  On
`arch4` (`data_offset = 0x39`, `data_begin = 0`) the gcd fold gives
`gcd 4 0x39 = 1`, which passes `is_valid_alignment`, so 1 is returned. -/
theorem claim_C4_counterexample :
    ¬ (∀ (data : Bytes) (s : Sarc) (g : Nat),
        parseSarc data = Except.ok s → s.guessMinAlignment = some g → 4 ≤ g) := by
  intro h
  have := h arch4 sarc4 1 rfl rfl
  omega

/-- Claim C4, amended: for every successfully opened archive,
`guess_min_alignment` never panics and returns exactly the gcd fold of 4 with
`data_offset + data_begin[i]`; the result is a power of two (it passes
`is_valid_alignment`) that divides 4 — i.e. 1, 2 or 4 — but can be smaller
than 4. -/
theorem claim_C4_guess (data : Bytes) (s : Sarc) (h : parseSarc data = Except.ok s) :
    ∃ g, s.guessMinAlignment = some g ∧
      guessFold s (List.range s.numFiles) 4 = some g ∧
      g ∣ 4 ∧ isValidAlignment g = true := by
  obtain ⟨hdata, hent, hnameso, hn, hdo, hlen⟩ := parseSarc_ok h
  have hb : ∀ i ∈ List.range s.numFiles, s.entriesOffset + 0x10 * i + 16 ≤ s.data.length := by
    intro i hi
    rw [List.mem_range] at hi
    rw [hdata, hent]
    omega
  obtain ⟨g, hg, hdvd⟩ := guessFold_dvd s (List.range s.numFiles) 4 hb
  have hcases : g = 1 ∨ g = 2 ∨ g = 4 := by
    have h4 : g ≤ 4 := Nat.le_of_dvd (by norm_num) hdvd
    interval_cases g
    · exact absurd hdvd (by decide)
    · exact Or.inl rfl
    · exact Or.inr (Or.inl rfl)
    · exact absurd hdvd (by decide)
    · exact Or.inr (Or.inr rfl)
  have hvalid : isValidAlignment g = true := by
    rcases hcases with h' | h' | h' <;> subst h' <;> decide
  refine ⟨g, ?_, hg, hdvd, hvalid⟩
  unfold Sarc.guessMinAlignment
  rw [if_neg (by rw [hdata, hent]; omega), hg]
  simp [hvalid]

/-- Witness for `claim_C4_guess` at the concrete archive `arch4`. -/
theorem claim_C4_guess_witness :
    ∃ g, sarc4.guessMinAlignment = some g ∧
      guessFold sarc4 (List.range sarc4.numFiles) 4 = some g ∧
      g ∣ 4 ∧ isValidAlignment g = true :=
  claim_C4_guess arch4 sarc4 rfl

/-! ## Claim C9 -/

/-- Claim C9 as stated is false: `is_file_sarc` is not equivalent to the pure
magic test, because the source first requires `data.len() >= 0x20`.  The 4-byte
buffer `"SARC"` starts with the SARC magic yet the probe returns false. -/
theorem claim_C9_counterexample :
    ¬ (∀ data : Bytes, isFileSarc data = true ↔
        (data.take 4 = sarcMagicB ∨
         (data.take 4 = yaz0MagicB ∧ (data.drop 0x11).take 4 = sarcMagicB))) := by
  intro h
  have := (h sarcMagicB).2 (Or.inl (by decide))
  exact absurd this (by decide)

/-- Claim C9, amended: `is_file_sarc` returns true iff the buffer is at least
0x20 bytes long and starts with "SARC", or starts with "Yaz0" and has "SARC" at
offset 0x11.  The model is a total function of the byte list, so the probe
cannot panic on any input length (the source's slice accesses are guarded by the
length test). -/
theorem claim_C9_is_sarc (data : Bytes) :
    isFileSarc data = true ↔
      (0x20 ≤ data.length ∧
       (data.take 4 = sarcMagicB ∨
        (data.take 4 = yaz0MagicB ∧ (data.drop 0x11).take 4 = sarcMagicB))) := by
  unfold isFileSarc
  simp [Bool.and_eq_true, Bool.or_eq_true, decide_eq_true_eq, beq_iff_eq]

/-! ## Claim C5 -/

/-- Claim C5 as stated is false: the serialized empty archive is 0x28 bytes
(0x14 header + 0x0C FAT header + 0x08 FNT header), not 0x20 — the spec's
figure forgets the FNT header. -/
theorem claim_C5_counterexample :
    ¬ (∀ (agl : List (Bytes × Nat)) (factory : List Bytes),
        (((SarcWriter.new .little).write agl factory).1).length = 0x20 ∧
        readU32 .little (((SarcWriter.new .little).write agl factory).1) 0xC = some 0x20 ∧
        readU16 .little (((SarcWriter.new .little).write agl factory).1) 0x1A = some 0) := by
  intro h
  exact absurd (h [] []).1 (by decide)

/-- Claim C5, amended: an empty little-endian writer serializes to exactly 0x28
bytes with `data_offset = 0x28` and `num_files = 0`, independently of the
ambient tables; the reader accepts the output and reports zero files and an
empty iteration. -/
theorem claim_C5_empty (agl : List (Bytes × Nat)) (factory : List Bytes) :
    ((SarcWriter.new .little).write agl factory).1 = emptyArchiveBytes ∧
    emptyArchiveBytes.length = 0x28 ∧
    readU32 .little emptyArchiveBytes 0xC = some 0x28 ∧
    readU16 .little emptyArchiveBytes 0x1A = some 0 ∧
    parseSarc emptyArchiveBytes =
      Except.ok ⟨0, 0x20, 0x65, 0x28, 0x28, .little, emptyArchiveBytes⟩ ∧
    Sarc.fileCount ⟨0, 0x20, 0x65, 0x28, 0x28, .little, emptyArchiveBytes⟩ = 0 ∧
    Sarc.filesList ⟨0, 0x20, 0x65, 0x28, 0x28, .little, emptyArchiveBytes⟩ = PRes.ok [] := by
  refine ⟨?_, by decide, by decide, by decide, by decide, by decide, by decide⟩
  simp only [SarcWriter.write, writeCore, SarcWriter.new, sortByHash, List.foldr_nil,
    List.foldl_nil, List.length_nil, List.zip_nil_left, List.zip_nil_right]
  rfl

/-! ## Claim C7 (counterexample half) -/

/-- Claim C7 as stated is false: lookups can panic on a successfully opened
archive.  On `arch7` the single entry's `rel_name_opt_offset` points 0x3FFFFC
bytes past the name table, and `file_at 0` evaluates `&self.data[name_offset..]`
with `name_offset > len`: an index-out-of-bounds panic, not an error value. -/
theorem claim_C7_counterexample :
    ¬ (∀ (data : Bytes) (s : Sarc), parseSarc data = Except.ok s →
        (∀ i, s.fileAt i ≠ PRes.panik) ∧ (∀ nm, s.getFile nm ≠ PRes.panik)) := by
  intro h
  exact ((h arch7 sarc7 (by decide)).1) 0 (by decide)

/-! ## Claim C10 (counterexample half) -/

/-- Claim C10 as stated is false: `from_sarc` does not keep every entry that
"has a name" (`rel_name_opt_offset ≠ 0`).  On `arch10` the single entry has
`rel = 0x01000000` but its name bytes are invalid UTF-8, so `file_at` errors,
`files()`'s `.ok()` drops it, and the writer's file map is empty. -/
theorem claim_C10_counterexample :
    ¬ (∀ (data : Bytes) (s : Sarc) (w : SarcWriter),
        parseSarc data = Except.ok s → SarcWriter.fromSarc s = some w →
        w.files.length =
          ((List.range s.numFiles).filter
            (fun i => ((readU32 s.endian s.data (s.entriesOffset + 0x10 * i + 4)).getD 0)
              ≠ 0)).length) := by
  intro h
  have := h arch10 sarc10 emptyLittleWriter rfl rfl
  exact absurd this (by decide)

/-! ## Claim C1 (counterexample half) -/

/-- Claim C1 as stated is false: a valid archive that follows the default
alignment rules (all payload starts 4-aligned, guessed minimum alignment 4) and
the default hash multiplier 0x65 need not round-trip, because `from_sarc`
silently drops entries without a name.  `arch1` holds one nameless 4-byte file;
the rebuilt writer is empty and serializes to the 0x28-byte empty archive. -/
theorem claim_C1_counterexample :
    ¬ (∀ (agl : List (Bytes × Nat)) (factory : List Bytes) (data : Bytes)
        (s : Sarc) (w : SarcWriter),
        parseSarc data = Except.ok s → s.hashMultiplier = 0x65 →
        s.guessMinAlignment = some 4 → SarcWriter.fromSarc s = some w →
        (w.write agl factory).1 = data) := by
  intro h
  have := h [] [] arch1 sarc1 emptyLittleWriter rfl rfl rfl rfl
  exact absurd this (by decide)

/-! ## Claim C2 (counterexample half) -/

/-- Claim C2 as stated is false: with a Big-endian writer, a payload shaped
like a BFLIM whose trailing alignment field is 6, and a name whose extension is
in no table, the resolved alignment is `lcm 4 6 = 12` — not a power of two —
and the emitted `data_offset + data_begin[0] = 68` is not divisible by 12
(the bit-trick `align` is only correct for powers of two). -/
theorem claim_C2_counterexample :
    ¬ (∀ (agl : List (Bytes × Nat)) (factory : List Bytes) (w : SarcWriter)
        (i : Nat) (nd : Bytes × Bytes) (d b : Nat),
        (sortByHash w.hashMultiplier w.files)[i]? = some nd →
        readU32 w.endian ((w.write agl factory).1) 0xC = some d →
        readU32 w.endian ((w.write agl factory).1) (0x20 + 0x10 * i + 8) = some b →
        (d + b) % resolvedAlignment agl factory w nd.1 nd.2 = 0 ∧
        isValidAlignment (resolvedAlignment agl factory w nd.1 nd.2) = true) := by
  intro h
  have := h [] [] w2c 0 ([97], bflimFile) 68 0 (by decide) (by decide) (by decide)
  exact absurd this (by decide)

/-! ## Claim C6 (counterexample half) -/

/-- Claim C6 as stated is false: FAT `name_hash` values are not strictly
ascending for every set of input names, because two distinct names can share a
hash.  With multiplier 0x65 the ASCII names "ab\x01" and "aaf" both hash to
999396, and the two emitted entries carry equal hashes. -/
theorem claim_C6_counterexample :
    ¬ (∀ (agl : List (Bytes × Nat)) (factory : List Bytes) (w : SarcWriter)
        (i : Nat) (h0 h1 : Nat),
        i + 1 < (sortByHash w.hashMultiplier w.files).length →
        readU32 w.endian ((w.write agl factory).1) (0x20 + 0x10 * i) = some h0 →
        readU32 w.endian ((w.write agl factory).1) (0x20 + 0x10 * (i + 1)) = some h1 →
        h0 < h1) := by
  intro h
  have := h [] [] w6c 0 999396 999396 (by decide) (by decide) (by decide)
  omega

/-! ## Alignment-map lemmas -/

theorem aamLookup_cons (p : Bytes × Nat) (t : List (Bytes × Nat)) (k : Bytes) :
    aamLookup (p :: t) k = if p.1 = k then some p.2 else aamLookup t k := by
  obtain ⟨a, b⟩ := p
  rfl

theorem aamLookup_aamInsert (m : List (Bytes × Nat)) (k : Bytes) (v : Nat) (k' : Bytes) :
    aamLookup (aamInsert m k v) k' = if k = k' then some v else aamLookup m k' := by
  induction m with
  | nil =>
    unfold aamInsert aamLookup
    split <;> simp_all [aamLookup]
  | cons p t ih =>
    obtain ⟨k0, v0⟩ := p
    unfold aamInsert
    by_cases h0 : k0 = k
    · subst h0
      simp only [if_pos rfl]
      unfold aamLookup
      split <;> simp_all
    · rw [if_neg h0]
      unfold aamLookup
      by_cases h1 : k0 = k'
      · subst h1
        rw [if_pos rfl, if_pos rfl, if_neg (fun he => h0 he.symm)]
      · rw [if_neg h1, if_neg h1, ih]

theorem lookup_foldIns (S : List (Bytes × Nat)) (m : List (Bytes × Nat)) (k : Bytes) :
    aamLookup (S.foldl (fun acc p => aamInsert acc p.1 p.2) m) k =
      (match aamLookup S.reverse k with
       | some v => some v
       | none => aamLookup m k) := by
  induction S using List.reverseRecOn with
  | nil => simp [aamLookup]
  | append_singleton S p ih =>
    rw [List.foldl_append, List.reverse_append]
    simp only [List.foldl_cons, List.foldl_nil, List.reverse_cons, List.reverse_nil,
      List.nil_append, List.singleton_append]
    rw [aamLookup_aamInsert, aamLookup_cons]
    by_cases hp : p.1 = k
    · rw [if_pos hp, if_pos hp]
    · rw [if_neg hp, if_neg hp, ih]

theorem addDefaults_eq_foldl (agl : List (Bytes × Nat)) (e : Endian) (m : List (Bytes × Nat)) :
    addDefaultAlignments agl e m =
      (agl ++ hardList e).foldl (fun acc p => aamInsert acc p.1 p.2) m := by
  rw [List.foldl_append]
  cases e <;> rfl

theorem lookup_addDefaults_twice (agl : List (Bytes × Nat)) (e : Endian)
    (m : List (Bytes × Nat)) (k : Bytes) :
    aamLookup (addDefaultAlignments agl e (addDefaultAlignments agl e m)) k =
    aamLookup (addDefaultAlignments agl e m) k := by
  rw [addDefaults_eq_foldl, addDefaults_eq_foldl, lookup_foldIns, lookup_foldIns]
  cases h : aamLookup (agl ++ hardList e).reverse k <;> simp

theorem getAlignmentForFile_congr {m1 m2 : List (Bytes × Nat)}
    (h : ∀ k, aamLookup m1 k = aamLookup m2 k) (factory : List Bytes) (legacy : Bool)
    (minA : Nat) (e : Endian) (n d : Bytes) :
    getAlignmentForFile factory legacy m1 minA e n d =
    getAlignmentForFile factory legacy m2 minA e n d := by
  simp only [getAlignmentForFile, h]

theorem writeCore_map_congr {m1 m2 : List (Bytes × Nat)}
    (h : ∀ k, aamLookup m1 k = aamLookup m2 k) (factory : List Bytes) (legacy : Bool)
    (minA : Nat) (e : Endian) (mult : Nat) (files1 : List (Bytes × Bytes)) :
    writeCore factory legacy m1 minA e mult files1 =
    writeCore factory legacy m2 minA e mult files1 := by
  have hfold : ∀ init : EntSt,
      List.foldl (entryStep factory legacy m1 minA e mult) init files1 =
      List.foldl (entryStep factory legacy m2 minA e mult) init files1 := by
    intro init
    apply List.foldl_ext
    intro st nd _
    unfold entryStep
    rw [getAlignmentForFile_congr h]
  simp only [writeCore, hfold]

/-! ## Stable-sort lemmas -/

theorem mem_insHash {mult : Nat} {x z : Bytes × Bytes} {l : List (Bytes × Bytes)} :
    z ∈ insHash mult x l ↔ z = x ∨ z ∈ l := by
  induction l with
  | nil => simp [insHash]
  | cons y t ih =>
    unfold insHash
    split
    · simp only [List.mem_cons, ih]
      try tauto
    · simp only [List.mem_cons]
      try tauto

theorem pairwise_insHash {mult : Nat} {x : Bytes × Bytes} {l : List (Bytes × Bytes)}
    (h : List.Pairwise (fun p q => hashName mult p.1 ≤ hashName mult q.1) l) :
    List.Pairwise (fun p q => hashName mult p.1 ≤ hashName mult q.1) (insHash mult x l) := by
  induction l with
  | nil => simp [insHash]
  | cons y t ih =>
    rw [List.pairwise_cons] at h
    obtain ⟨hy, ht⟩ := h
    unfold insHash
    split
    · next hlt =>
      rw [List.pairwise_cons]
      refine ⟨?_, ih ht⟩
      intro z hz
      rcases mem_insHash.1 hz with rfl | hz'
      · exact Nat.le_of_lt hlt
      · exact hy z hz'
    · next hnlt =>
      rw [List.pairwise_cons]
      refine ⟨?_, ?_⟩
      · intro z hz
        rcases List.mem_cons.1 hz with rfl | hz'
        · exact Nat.le_of_not_lt hnlt
        · exact le_trans (Nat.le_of_not_lt hnlt) (hy z hz')
      · rw [List.pairwise_cons]
        exact ⟨hy, ht⟩

theorem sortByHash_pairwise (mult : Nat) (l : List (Bytes × Bytes)) :
    List.Pairwise (fun p q => hashName mult p.1 ≤ hashName mult q.1) (sortByHash mult l) := by
  induction l with
  | nil => simp [sortByHash]
  | cons x t ih => exact pairwise_insHash ih

theorem sortByHash_sorted_id (mult : Nat) (l : List (Bytes × Bytes))
    (h : List.Pairwise (fun p q => hashName mult p.1 ≤ hashName mult q.1) l) :
    sortByHash mult l = l := by
  induction l with
  | nil => rfl
  | cons x t ih =>
    rw [List.pairwise_cons] at h
    obtain ⟨hx, ht⟩ := h
    show insHash mult x (sortByHash mult t) = x :: t
    rw [ih ht]
    cases t with
    | nil => rfl
    | cons y t' =>
      unfold insHash
      rw [if_neg (Nat.not_lt.2 (hx y (by simp)))]

/-! ## Claim C8 -/

/-- Claim C8: `write` leaves the writer in a state (files re-sorted, defaults
merged) from which a second `write` produces byte-identical output — the
re-sort is idempotent (stable sort of a sorted list) and re-merging the default
alignments does not change any lookup. -/
theorem claim_C8_idempotent (agl : List (Bytes × Nat)) (factory : List Bytes)
    (w : SarcWriter) :
    ((w.write agl factory).2.write agl factory).1 = (w.write agl factory).1 := by
  unfold SarcWriter.write
  simp only []
  rw [sortByHash_sorted_id _ _ (sortByHash_pairwise _ _)]
  exact writeCore_map_congr (lookup_addDefaults_twice agl w.endian w.alignmentMap)
    factory w.legacy w.minAlignment w.endian w.hashMultiplier _

/-! ## Layout: the FAT-entry loop -/

theorem length_entryBytes (e : Endian) (E : EntryL) : (entryBytes e E).length = 16 := by
  simp [entryBytes, length_putU32]

theorem entsSpec_length (factory : List Bytes) (legacy : Bool) (amap : List (Bytes × Nat))
    (minA : Nat) (e : Endian) (mult : Nat) (fs : List (Bytes × Bytes)) :
    ∀ rd rs, (entsSpec factory legacy amap minA e mult fs rd rs).length = fs.length := by
  induction fs with
  | nil => intro rd rs; rfl
  | cons nd t ih =>
    intro rd rs
    unfold entsSpec
    simp only [List.length_cons, ih]

theorem curWrite_at_end (c : Cur) (bs : Bytes) (h : c.pos = c.buf.length) :
    curWrite c bs = ⟨c.buf ++ bs, c.pos + bs.length⟩ := by
  unfold curWrite
  rw [h, storeBytes_at_end]

theorem entries_fold (factory : List Bytes) (legacy : Bool) (amap : List (Bytes × Nat))
    (minA : Nat) (e : Endian) (mult : Nat) (fs : List (Bytes × Bytes)) :
    ∀ (c : Cur) (al : List Nat) (rd rs : Nat), c.pos = c.buf.length →
    ∃ rd' rs',
      fs.foldl (entryStep factory legacy amap minA e mult) ⟨c, al, rd, rs⟩ =
        ⟨⟨c.buf ++ ((entsSpec factory legacy amap minA e mult fs rd rs).map
            (entryBytes e)).flatten,
          c.pos + 16 * fs.length⟩,
         al ++ (entsSpec factory legacy amap minA e mult fs rd rs).map EntryL.align,
         rd', rs'⟩ := by
  induction fs with
  | nil =>
    intro c al rd rs h
    exact ⟨rd, rs, by simp [entsSpec]⟩
  | cons nd t ih =>
    intro c al rd rs h
    rw [List.foldl_cons]
    have hE : ∃ E : EntryL,
        E = ⟨getAlignmentForFile factory legacy amap minA e nd.1 nd.2,
             hashName mult nd.1, Nat.lor 0x1000000 (rs / 4),
             alignUp rd (getAlignmentForFile factory legacy amap minA e nd.1 nd.2),
             alignUp rd (getAlignmentForFile factory legacy amap minA e nd.1 nd.2) +
               nd.2.length⟩ := ⟨_, rfl⟩
    obtain ⟨E, hEdef⟩ := hE
    have hstep : entryStep factory legacy amap minA e mult ⟨c, al, rd, rs⟩ nd =
        ⟨curWrite c (entryBytes e E), al ++ [E.align], E.dEnd,
         (rs + alignUp (nd.1.length + 1) 4) % 2^32⟩ := by
      rw [hEdef]; rfl
    rw [hstep, curWrite_at_end c _ h]
    obtain ⟨rd', rs', hrec⟩ := ih
      ⟨c.buf ++ entryBytes e E, c.pos + (entryBytes e E).length⟩
      (al ++ [E.align]) E.dEnd
      ((rs + alignUp (nd.1.length + 1) 4) % 2^32)
      (by simp [h])
    refine ⟨rd', rs', ?_⟩
    rw [hrec]
    simp only [entsSpec, hEdef, length_entryBytes, List.length_cons, EntSt.mk.injEq,
      Cur.mk.injEq, List.map_cons, List.flatten_cons, List.flatten_nil, List.append_assoc, List.cons_append,
      List.singleton_append, and_true, true_and]
    repeat' constructor
    all_goals first
      | rfl
      | omega

/-! ## Layout: per-entry facts -/

theorem entsSpec_facts (factory : List Bytes) (legacy : Bool) (amap : List (Bytes × Nat))
    (minA : Nat) (e : Endian) (mult : Nat) (fs : List (Bytes × Bytes)) :
    ∀ (rd rs : Nat),
    (∀ nd ∈ fs, ∃ k, k ≤ 30 ∧ getAlignmentForFile factory legacy amap minA e nd.1 nd.2 = 2^k) →
    rd + (fs.map (fun nd => nd.2.length + 2^30)).sum ≤ 2^62 →
    rs + (fs.map (fun nd => nameSz nd.1)).sum < 2^32 →
    ∀ i, i < fs.length →
    ((∃ k, k ≤ 30 ∧ ((entsSpec factory legacy amap minA e mult fs rd rs).getD i dfltEntry).align = 2^k) ∧
     ((entsSpec factory legacy amap minA e mult fs rd rs).getD i dfltEntry).align =
       getAlignmentForFile factory legacy amap minA e (fs.getD i dfltFile).1 (fs.getD i dfltFile).2 ∧
     ((entsSpec factory legacy amap minA e mult fs rd rs).getD i dfltEntry).hash =
       hashName mult (fs.getD i dfltFile).1 ∧
     ((entsSpec factory legacy amap minA e mult fs rd rs).getD i dfltEntry).rel =
       Nat.lor 0x1000000 ((rs + ((fs.take i).map (fun nd => nameSz nd.1)).sum) / 4) ∧
     ((entsSpec factory legacy amap minA e mult fs rd rs).getD i dfltEntry).align ∣
       ((entsSpec factory legacy amap minA e mult fs rd rs).getD i dfltEntry).dBegin ∧
     ((entsSpec factory legacy amap minA e mult fs rd rs).getD i dfltEntry).dEnd =
       ((entsSpec factory legacy amap minA e mult fs rd rs).getD i dfltEntry).dBegin +
         (fs.getD i dfltFile).2.length ∧
     rd ≤ ((entsSpec factory legacy amap minA e mult fs rd rs).getD i dfltEntry).dBegin ∧
     ((entsSpec factory legacy amap minA e mult fs rd rs).getD i dfltEntry).dEnd ≤
       rd + (fs.map (fun nd => nd.2.length + 2^30)).sum) := by
  induction fs with
  | nil => intro rd rs _ _ _ i hi; exact absurd hi (by simp)
  | cons nd t ih =>
    intro rd rs hal hb hrs i hi
    obtain ⟨k, hk, hak⟩ := hal nd (by simp)
    have hknum : (2:Nat)^k ≤ 2^30 := Nat.pow_le_pow_right (by norm_num) hk
    have hsum0 : (2:Nat)^30 ≤ (List.map (fun nd => nd.2.length + 2^30) (nd :: t)).sum := by
      simp only [List.map_cons, List.sum_cons]
      omega
    have hb0 : rd + 2^k ≤ 2^64 := by
      have h62 : (2:Nat)^62 ≤ 2^64 := by norm_num
      omega
    have hk64 : k ≤ 64 := by omega
    cases i with
    | zero =>
      simp only [entsSpec, List.getD_cons_zero, List.take_zero, List.map_nil,
        List.sum_nil, Nat.add_zero, hak]
      refine ⟨⟨k, hk, rfl⟩, ?_, ?_, ?_, alignUp_pow2_dvd rd k hk64 hb0, ?_,
        le_alignUp_pow2 rd k hk64 hb0, ?_⟩
      all_goals try trivial
      have hlt := alignUp_pow2_lt rd k hk64 hb0
      simp only [List.map_cons, List.sum_cons]
      omega
    | succ j =>
      have hj : j < t.length := by simpa using hi
      have hlt := alignUp_pow2_lt rd k hk64 hb0
      have hle := le_alignUp_pow2 rd k hk64 hb0
      have hsum2 : (List.map (fun nd => List.length nd.2 + 2 ^ 30) (nd :: t)).sum =
          nd.2.length + 2 ^ 30 + (List.map (fun nd => List.length nd.2 + 2 ^ 30) t).sum := by
        simp
      have hble : alignUp rd (2^k) + nd.2.length +
          (t.map (fun nd => nd.2.length + 2^30)).sum ≤ 2^62 := by
        simp only [List.map_cons, List.sum_cons] at hb
        omega
      have hrs' : (rs + alignUp (nd.1.length + 1) 4) % 2^32 =
          rs + alignUp (nd.1.length + 1) 4 := by
        apply Nat.mod_eq_of_lt
        simp only [List.map_cons, List.sum_cons, nameSz] at hrs
        omega
      have hrsle : rs + nameSz nd.1 + (t.map (fun nd => nameSz nd.1)).sum < 2^32 := by
        simp only [List.map_cons, List.sum_cons] at hrs
        omega
      have := ih (alignUp rd (2^k) + nd.2.length) (rs + nameSz nd.1)
        (fun x hx => hal x (by simp [hx])) hble hrsle j hj
      simp only [entsSpec, hak, List.getD_cons_succ, List.take_succ_cons,
        List.map_cons, List.sum_cons, nameSz] at this ⊢
      rw [hrs']
      refine ⟨this.1, this.2.1, this.2.2.1, ?_, this.2.2.2.2.1, this.2.2.2.2.2.1, ?_, ?_⟩
      · rw [this.2.2.2.1]
        congr 2
        rw [Nat.add_assoc]
      · have := this.2.2.2.2.2.2.1
        omega
      · have := this.2.2.2.2.2.2.2
        omega

/-! ## Layout: reading the FAT region back -/

theorem readU32_at_of_append (e : Endian) (pre ys : Bytes) (p q : Nat)
    (h : p = pre.length + q) : readU32 e (pre ++ ys) p = readU32 e ys q := by
  subst h
  rw [readU32_append_right e pre ys _ (by omega)]
  congr 1
  omega

theorem ents_read (e : Endian) (ents : List EntryL) :
    ∀ (pre rest : Bytes) (i : Nat), i < ents.length →
      readU32 e (pre ++ ((ents.map (entryBytes e)).flatten ++ rest)) (pre.length + 16 * i) =
        some ((ents.getD i dfltEntry).hash % 2^32) ∧
      readU32 e (pre ++ ((ents.map (entryBytes e)).flatten ++ rest)) (pre.length + 16 * i + 4) =
        some ((ents.getD i dfltEntry).rel % 2^32) ∧
      readU32 e (pre ++ ((ents.map (entryBytes e)).flatten ++ rest)) (pre.length + 16 * i + 8) =
        some ((ents.getD i dfltEntry).dBegin % 2^32) ∧
      readU32 e (pre ++ ((ents.map (entryBytes e)).flatten ++ rest)) (pre.length + 16 * i + 12) =
        some ((ents.getD i dfltEntry).dEnd % 2^32) := by
  induction ents with
  | nil => intro pre rest i hi; exact absurd hi (by simp)
  | cons E t ih =>
    intro pre rest i hi
    cases i with
    | zero =>
      simp only [List.map_cons, List.flatten_cons, List.flatten_nil, List.getD_cons_zero, Nat.mul_zero, Nat.add_zero]
      have hsplit : pre ++ ((entryBytes e E ++ (t.map (entryBytes e)).flatten) ++ rest) =
          pre ++ (putU32 e E.hash ++ (putU32 e E.rel ++ (putU32 e E.dBegin ++
            (putU32 e E.dEnd ++ ((t.map (entryBytes e)).flatten ++ rest))))) := by
        simp [entryBytes, List.append_assoc]
      rw [hsplit]
      refine ⟨?_, ?_, ?_, ?_⟩
      · rw [readU32_at_of_append e pre _ _ 0 (by omega)]
        exact readU32_putU32 e E.hash _
      · rw [show pre ++ (putU32 e E.hash ++ (putU32 e E.rel ++ (putU32 e E.dBegin ++
            (putU32 e E.dEnd ++ ((t.map (entryBytes e)).flatten ++ rest))))) =
            (pre ++ putU32 e E.hash) ++ (putU32 e E.rel ++ (putU32 e E.dBegin ++
            (putU32 e E.dEnd ++ ((t.map (entryBytes e)).flatten ++ rest)))) from by
            simp [List.append_assoc]]
        rw [readU32_at_of_append e _ _ _ 0 (by simp [length_putU32])]
        exact readU32_putU32 e E.rel _
      · rw [show pre ++ (putU32 e E.hash ++ (putU32 e E.rel ++ (putU32 e E.dBegin ++
            (putU32 e E.dEnd ++ ((t.map (entryBytes e)).flatten ++ rest))))) =
            (pre ++ putU32 e E.hash ++ putU32 e E.rel) ++ (putU32 e E.dBegin ++
            (putU32 e E.dEnd ++ ((t.map (entryBytes e)).flatten ++ rest))) from by
            simp [List.append_assoc]]
        rw [readU32_at_of_append e _ _ _ 0 (by simp [length_putU32])]
        exact readU32_putU32 e E.dBegin _
      · rw [show pre ++ (putU32 e E.hash ++ (putU32 e E.rel ++ (putU32 e E.dBegin ++
            (putU32 e E.dEnd ++ ((t.map (entryBytes e)).flatten ++ rest))))) =
            (pre ++ putU32 e E.hash ++ putU32 e E.rel ++ putU32 e E.dBegin) ++
            (putU32 e E.dEnd ++ ((t.map (entryBytes e)).flatten ++ rest)) from by
            simp [List.append_assoc]]
        rw [readU32_at_of_append e _ _ _ 0 (by simp [length_putU32])]
        exact readU32_putU32 e E.dEnd _
    | succ j =>
      have hj : j < t.length := by simpa using hi
      have hre : pre ++ (((E :: t).map (entryBytes e)).flatten ++ rest) =
          (pre ++ entryBytes e E) ++ ((t.map (entryBytes e)).flatten ++ rest) := by
        simp [List.append_assoc]
      have hlen : (pre ++ entryBytes e E).length = pre.length + 16 := by
        simp [length_entryBytes]
      obtain ⟨g1, g2, g3, g4⟩ := ih (pre ++ entryBytes e E) rest j hj
      rw [hlen] at g1 g2 g3 g4
      simp only [List.getD_cons_succ]
      rw [hre]
      refine ⟨?_, ?_, ?_, ?_⟩
      · rw [show pre.length + 16 * (j + 1) = pre.length + 16 + 16 * j from by omega]
        exact g1
      · rw [show pre.length + 16 * (j + 1) + 4 = pre.length + 16 + 16 * j + 4 from by omega]
        exact g2
      · rw [show pre.length + 16 * (j + 1) + 8 = pre.length + 16 + 16 * j + 8 from by omega]
        exact g3
      · rw [show pre.length + 16 * (j + 1) + 12 = pre.length + 16 + 16 * j + 12 from by omega]
        exact g4

theorem foldl_lcm_two_pow (l : List Nat) :
    ∀ j, j ≤ 30 → (∀ a ∈ l, ∃ k, k ≤ 30 ∧ a = 2^k) →
    ∃ K, K ≤ 30 ∧ l.foldl (fun acc a => Nat.lcm acc a) (2^j) = 2^K ∧
      (∀ a ∈ l, a ∣ l.foldl (fun acc a => Nat.lcm acc a) (2^j)) ∧
      2^j ∣ l.foldl (fun acc a => Nat.lcm acc a) (2^j) := by
  induction l with
  | nil =>
    intro j hj _
    exact ⟨j, hj, rfl, by simp, dvd_refl _⟩
  | cons a t ih =>
    intro j hj hal
    obtain ⟨k, hk, hak⟩ := hal a (by simp)
    have hstep : Nat.lcm (2^j) a = 2^(max j k) := by
      subst hak
      rcases Nat.le_total j k with h | h
      · rw [Nat.max_eq_right h]
        exact Nat.dvd_antisymm (Nat.lcm_dvd (Nat.pow_dvd_pow 2 h) dvd_rfl)
          (Nat.dvd_lcm_right _ _)
      · rw [Nat.max_eq_left h]
        exact Nat.dvd_antisymm (Nat.lcm_dvd dvd_rfl (Nat.pow_dvd_pow 2 h))
          (Nat.dvd_lcm_left _ _)
    obtain ⟨K, hK, hfold, hdvds, hinit⟩ := ih (max j k) (by omega)
      (fun x hx => hal x (by simp [hx]))
    refine ⟨K, hK, ?_, ?_, ?_⟩
    · rw [List.foldl_cons, hstep]
      exact hfold
    · intro x hx
      rcases List.mem_cons.1 hx with rfl | hx'
      · rw [List.foldl_cons, hstep]
        calc x ∣ 2^(max j k) := by rw [hak]; exact Nat.pow_dvd_pow 2 (Nat.le_max_right j k)
          _ ∣ _ := hinit
      · rw [List.foldl_cons, hstep]
        exact hdvds x hx'
    · rw [List.foldl_cons, hstep]
      exact (Nat.pow_dvd_pow 2 (Nat.le_max_left j k)).trans hinit

/-! ## Layout: the name-table loop -/

theorem drop_append_len (l₁ l₂ : Bytes) (p : Nat) (h : p = l₁.length) :
    (l₁ ++ l₂).drop p = l₂ := by
  subst h
  exact List.drop_left l₁ l₂

theorem names_fold (fs : List (Bytes × Bytes)) :
    ∀ (c : Cur), c.buf.length ≤ c.pos → 4 ∣ c.pos →
    c.pos + (fs.map (fun nd => nd.1.length + 4)).sum ≤ 2^63 →
    ((fs.foldl (fun c nd =>
        let c' := curWrite c (nd.1 ++ [0])
        Cur.mk c'.buf (alignUp c'.pos 4)) c).buf.length ≤
      (fs.foldl (fun c nd =>
        let c' := curWrite c (nd.1 ++ [0])
        Cur.mk c'.buf (alignUp c'.pos 4)) c).pos) ∧
    4 ∣ (fs.foldl (fun c nd =>
        let c' := curWrite c (nd.1 ++ [0])
        Cur.mk c'.buf (alignUp c'.pos 4)) c).pos ∧
    (fs.foldl (fun c nd =>
        let c' := curWrite c (nd.1 ++ [0])
        Cur.mk c'.buf (alignUp c'.pos 4)) c).pos =
      c.pos + (fs.map (fun nd => nameSz nd.1)).sum ∧
    (∃ ext, (fs.foldl (fun c nd =>
        let c' := curWrite c (nd.1 ++ [0])
        Cur.mk c'.buf (alignUp c'.pos 4)) c).buf = c.buf ++ ext) ∧
    (∀ i, i < fs.length →
      (((fs.foldl (fun c nd =>
          let c' := curWrite c (nd.1 ++ [0])
          Cur.mk c'.buf (alignUp c'.pos 4)) c).buf.drop
            (c.pos + ((fs.take i).map (fun nd => nameSz nd.1)).sum)).take
        ((fs.getD i dfltFile).1.length + 1)) = (fs.getD i dfltFile).1 ++ [0]) := by
  induction fs with
  | nil =>
    intro c h1 h2 _
    exact ⟨h1, h2, by simp, ⟨[], by simp⟩, fun i hi => absurd hi (by simp)⟩
  | cons nd t ih =>
    intro c h1 h2 hb
    rw [List.foldl_cons]
    have hcw : curWrite c (nd.1 ++ [0]) =
        ⟨c.buf ++ List.replicate (c.pos - c.buf.length) 0 ++ (nd.1 ++ [0]),
         c.pos + (nd.1.length + 1)⟩ := by
      unfold curWrite
      rw [storeBytes_ge c.buf _ c.pos h1 (by simp)]
      simp
    have hbd : c.pos + (nd.1.length + 1) + 2^2 ≤ 2^64 := by
      simp only [List.map_cons, List.sum_cons] at hb
      have : (2:Nat)^63 ≤ 2^64 := by norm_num
      omega
    have h4 : (4:Nat) = 2^2 := rfl
    have hle := le_alignUp_pow2 (c.pos + (nd.1.length + 1)) 2 (by norm_num) hbd
    have hdvd4 := alignUp_pow2_dvd (nd.1.length + 1) 2 (by norm_num)
      (by have : (2:Nat)^63 ≤ 2^64 := by norm_num
          simp only [List.map_cons, List.sum_cons] at hb
          omega)
    have hadd : alignUp (c.pos + (nd.1.length + 1)) 4 = c.pos + nameSz nd.1 := by
      rw [h4]
      rw [alignUp_pow2_add c.pos (nd.1.length + 1) 2 (by norm_num) (by rw [← h4]; exact h2)
        hbd]
      rfl
    have hlt := alignUp_pow2_lt (nd.1.length + 1) 2 (by norm_num)
      (by have : (2:Nat)^63 ≤ 2^64 := by norm_num
          simp only [List.map_cons, List.sum_cons] at hb
          omega)
    have hnsz : nameSz nd.1 < nd.1.length + 1 + 4 := by
      unfold nameSz
      rw [h4]
      exact hlt
    have hc1 : (Cur.mk (curWrite c (nd.1 ++ [0])).buf (alignUp (curWrite c (nd.1 ++ [0])).pos 4)) =
        ⟨c.buf ++ List.replicate (c.pos - c.buf.length) 0 ++ (nd.1 ++ [0]),
         c.pos + nameSz nd.1⟩ := by
      rw [hcw]
      simp only [Cur.mk.injEq, true_and]
      exact hadd
    have hlen1 : (c.buf ++ List.replicate (c.pos - c.buf.length) 0 ++ (nd.1 ++ [0])).length =
        c.pos + (nd.1.length + 1) := by
      simp
      omega
    have hbase : (c.buf ++ List.replicate (c.pos - c.buf.length) 0).length = c.pos := by
      simp
      omega
    obtain ⟨g1, g2, g3, ⟨ext, g4⟩, g5⟩ := ih
      ⟨c.buf ++ List.replicate (c.pos - c.buf.length) 0 ++ (nd.1 ++ [0]), c.pos + nameSz nd.1⟩
      (by rw [hlen1]
          have hup := le_alignUp_pow2 (nd.1.length + 1) 2 (by norm_num)
            (by have : (2:Nat)^63 ≤ 2^64 := by norm_num
                simp only [List.map_cons, List.sum_cons] at hb
                omega)
          simp only [nameSz, h4]
          omega)
      (by exact Nat.dvd_add h2 (by simpa [nameSz, h4] using hdvd4))
      (by show c.pos + nameSz nd.1 + (t.map (fun nd => nd.1.length + 4)).sum ≤ 2^63
          simp only [List.map_cons, List.sum_cons] at hb
          omega)
    rw [hc1]
    refine ⟨g1, g2, ?_, ?_, ?_⟩
    · rw [g3]
      simp only [List.map_cons, List.sum_cons]
      omega
    · refine ⟨List.replicate (c.pos - c.buf.length) 0 ++ (nd.1 ++ [0]) ++ ext, ?_⟩
      rw [g4]
      simp [List.append_assoc]
    · intro i hi
      cases i with
      | zero =>
        simp only [List.take_zero, List.map_nil, List.sum_nil, Nat.add_zero,
          List.getD_cons_zero]
        rw [g4, List.append_assoc, drop_append_len _ _ _ hbase.symm]
        rw [show nd.1.length + 1 = (nd.1 ++ [0]).length from by simp]
        exact List.take_left _ _
      | succ j =>
        have hj : j < t.length := by simpa using hi
        have := g5 j hj
        simp only [List.getD_cons_succ, List.take_succ_cons, List.map_cons, List.sum_cons]
        rw [show c.pos + (nameSz nd.1 + ((t.take j).map (fun nd => nameSz nd.1)).sum) =
            c.pos + nameSz nd.1 + ((t.take j).map (fun nd => nameSz nd.1)).sum from by omega]
        exact this

/-! ## Layout: the data-region loop -/

theorem data_fold (factory : List Bytes) (legacy : Bool) (amap : List (Bytes × Nat))
    (minA : Nat) (e : Endian) (mult : Nat) (fs : List (Bytes × Bytes)) :
    ∀ (c : Cur) (rd rs D : Nat),
    c.buf.length ≤ c.pos →
    c.pos = D + rd →
    (∀ nd ∈ fs, ∃ k, k ≤ 30 ∧ getAlignmentForFile factory legacy amap minA e nd.1 nd.2 = 2^k ∧
      getAlignmentForFile factory legacy amap minA e nd.1 nd.2 ∣ D) →
    rd + (fs.map (fun nd => nd.2.length + 2^30)).sum ≤ 2^62 →
    D ≤ 2^63 →
    (((fs.zip ((entsSpec factory legacy amap minA e mult fs rd rs).map EntryL.align)).foldl
        (fun c p => curWrite ⟨c.buf, alignUp c.pos p.2⟩ p.1.2) c).buf.length ≤
      ((fs.zip ((entsSpec factory legacy amap minA e mult fs rd rs).map EntryL.align)).foldl
        (fun c p => curWrite ⟨c.buf, alignUp c.pos p.2⟩ p.1.2) c).pos) ∧
    (∃ ext, ((fs.zip ((entsSpec factory legacy amap minA e mult fs rd rs).map EntryL.align)).foldl
        (fun c p => curWrite ⟨c.buf, alignUp c.pos p.2⟩ p.1.2) c).buf = c.buf ++ ext) ∧
    ((fs.zip ((entsSpec factory legacy amap minA e mult fs rd rs).map EntryL.align)).foldl
        (fun c p => curWrite ⟨c.buf, alignUp c.pos p.2⟩ p.1.2) c).pos =
      D + endRd rd (entsSpec factory legacy amap minA e mult fs rd rs) ∧
    ((∀ nd ∈ fs, nd.2 ≠ []) → fs ≠ [] →
      ((fs.zip ((entsSpec factory legacy amap minA e mult fs rd rs).map EntryL.align)).foldl
        (fun c p => curWrite ⟨c.buf, alignUp c.pos p.2⟩ p.1.2) c).buf.length =
      ((fs.zip ((entsSpec factory legacy amap minA e mult fs rd rs).map EntryL.align)).foldl
        (fun c p => curWrite ⟨c.buf, alignUp c.pos p.2⟩ p.1.2) c).pos) ∧
    (∀ i, i < fs.length →
      (((fs.zip ((entsSpec factory legacy amap minA e mult fs rd rs).map EntryL.align)).foldl
          (fun c p => curWrite ⟨c.buf, alignUp c.pos p.2⟩ p.1.2) c).buf.drop
        (D + ((entsSpec factory legacy amap minA e mult fs rd rs).getD i dfltEntry).dBegin)).take
        (fs.getD i dfltFile).2.length = (fs.getD i dfltFile).2) := by
  induction fs with
  | nil =>
    intro c rd rs D h1 h2 _ _ _
    refine ⟨h1, ⟨[], by simp⟩, ?_, fun _ h => absurd rfl h, fun i hi => absurd hi (by simp)⟩
    simp [entsSpec, endRd, h2]
  | cons nd t ih =>
    intro c rd rs D h1 h2 hal hb hD
    obtain ⟨k, hk, hak, hdvd⟩ := hal nd (by simp)
    have hk64 : k ≤ 64 := by omega
    have h2k30 : (2:Nat)^k ≤ 2^30 := Nat.pow_le_pow_right (by norm_num) hk
    have hbh : rd + (nd.2.length + 2^30 + (t.map (fun nd => nd.2.length + 2^30)).sum) ≤ 2^62 := by
      simpa using hb
    have hbound1 : rd + 2^k ≤ 2^64 := by
      have : (2:Nat)^62 ≤ 2^64 := by norm_num
      omega
    have hboundD : D + rd + 2^k ≤ 2^64 := by
      have h63 : (2:Nat)^63 + 2^62 + 2^30 ≤ 2^64 := by norm_num
      omega
    have hle := le_alignUp_pow2 rd k hk64 hbound1
    have hlt := alignUp_pow2_lt rd k hk64 hbound1
    have hpos : alignUp c.pos (getAlignmentForFile factory legacy amap minA e nd.1 nd.2) =
        D + alignUp rd (getAlignmentForFile factory legacy amap minA e nd.1 nd.2) := by
      rw [h2, hak]
      exact alignUp_pow2_add D rd k hk64 (hak ▸ hdvd) hboundD
    have hents : entsSpec factory legacy amap minA e mult (nd :: t) rd rs =
        ⟨getAlignmentForFile factory legacy amap minA e nd.1 nd.2,
         hashName mult nd.1, Nat.lor 0x1000000 (rs / 4),
         alignUp rd (getAlignmentForFile factory legacy amap minA e nd.1 nd.2),
         alignUp rd (getAlignmentForFile factory legacy amap minA e nd.1 nd.2) +
           nd.2.length⟩ ::
        entsSpec factory legacy amap minA e mult t
          (alignUp rd (getAlignmentForFile factory legacy amap minA e nd.1 nd.2) +
            nd.2.length)
          ((rs + alignUp (nd.1.length + 1) 4) % 2^32) := rfl
    have hfold : ((nd :: t).zip
          ((entsSpec factory legacy amap minA e mult (nd :: t) rd rs).map EntryL.align)).foldl
          (fun c p => curWrite ⟨c.buf, alignUp c.pos p.2⟩ p.1.2) c =
        (t.zip ((entsSpec factory legacy amap minA e mult t
            (alignUp rd (getAlignmentForFile factory legacy amap minA e nd.1 nd.2) +
              nd.2.length)
            ((rs + alignUp (nd.1.length + 1) 4) % 2^32)).map EntryL.align)).foldl
          (fun c p => curWrite ⟨c.buf, alignUp c.pos p.2⟩ p.1.2)
          ⟨storeBytes c.buf
            (D + alignUp rd (getAlignmentForFile factory legacy amap minA e nd.1 nd.2)) nd.2,
           D + alignUp rd (getAlignmentForFile factory legacy amap minA e nd.1 nd.2) +
             nd.2.length⟩ := by
      rw [hents]
      simp only [List.map_cons, List.zip_cons_cons, List.foldl_cons]
      rw [show (curWrite ⟨c.buf,
          alignUp c.pos (getAlignmentForFile factory legacy amap minA e nd.1 nd.2)⟩ nd.2) =
          ⟨storeBytes c.buf
            (D + alignUp rd (getAlignmentForFile factory legacy amap minA e nd.1 nd.2)) nd.2,
           D + alignUp rd (getAlignmentForFile factory legacy amap minA e nd.1 nd.2) +
             nd.2.length⟩ from by
        unfold curWrite
        rw [show (⟨c.buf, alignUp c.pos
            (getAlignmentForFile factory legacy amap minA e nd.1 nd.2)⟩ : Cur).pos =
            alignUp c.pos (getAlignmentForFile factory legacy amap minA e nd.1 nd.2) from rfl,
          hpos]]
    have hlen1 : c.buf.length ≤
        D + alignUp rd (getAlignmentForFile factory legacy amap minA e nd.1 nd.2) := by
      rw [hak]
      omega
    have hlenc1 : (storeBytes c.buf
          (D + alignUp rd (getAlignmentForFile factory legacy amap minA e nd.1 nd.2))
          nd.2).length ≤
        D + alignUp rd (getAlignmentForFile factory legacy amap minA e nd.1 nd.2) +
          nd.2.length := by
      by_cases hemp : nd.2 = []
      · have hsb : storeBytes c.buf
            (D + alignUp rd (getAlignmentForFile factory legacy amap minA e nd.1 nd.2)) nd.2 =
            c.buf := by
          simp [storeBytes, hemp]
        rw [hsb, hak, hemp]
        simp only [List.length_nil]
        omega
      · rw [length_storeBytes_ge c.buf nd.2 _ hlen1 hemp]
    obtain ⟨g1, ⟨ext, g2⟩, g3, g4, g5⟩ := ih
      ⟨storeBytes c.buf
        (D + alignUp rd (getAlignmentForFile factory legacy amap minA e nd.1 nd.2)) nd.2,
       D + alignUp rd (getAlignmentForFile factory legacy amap minA e nd.1 nd.2) +
         nd.2.length⟩
      (alignUp rd (getAlignmentForFile factory legacy amap minA e nd.1 nd.2) + nd.2.length)
      ((rs + alignUp (nd.1.length + 1) 4) % 2^32) D
      hlenc1
      (by show D + alignUp rd (getAlignmentForFile factory legacy amap minA e nd.1 nd.2) +
            nd.2.length = D + (alignUp rd (getAlignmentForFile factory legacy amap minA e
            nd.1 nd.2) + nd.2.length)
          omega)
      (fun x hx => hal x (by simp [hx]))
      (by rw [hak]; omega)
      hD
    rw [hfold, hents]
    have hbufc1 : nd.2 ≠ [] → storeBytes c.buf
        (D + alignUp rd (getAlignmentForFile factory legacy amap minA e nd.1 nd.2)) nd.2 =
        c.buf ++ (List.replicate
          (D + alignUp rd (getAlignmentForFile factory legacy amap minA e nd.1 nd.2) -
            c.buf.length) 0 ++ nd.2) := by
      intro hne
      rw [storeBytes_ge c.buf nd.2 _ hlen1 hne, List.append_assoc]
    refine ⟨g1, ?_, ?_, ?_, ?_⟩
    · by_cases hemp : nd.2 = []
      · refine ⟨ext, ?_⟩
        rw [g2]
        have hsb : storeBytes c.buf
            (D + alignUp rd (getAlignmentForFile factory legacy amap minA e nd.1 nd.2)) nd.2 =
            c.buf := by
          simp [storeBytes, hemp]
        exact congrArg (fun l => l ++ ext) hsb
      · refine ⟨List.replicate
          (D + alignUp rd (getAlignmentForFile factory legacy amap minA e nd.1 nd.2) -
            c.buf.length) 0 ++ nd.2 ++ ext, ?_⟩
        rw [g2, hbufc1 hemp, List.append_assoc]
    · rw [g3]
      rfl
    · intro hne _
      by_cases ht : t = []
      · subst ht
        simp only [List.zip_nil_left, List.foldl_nil]
        exact length_storeBytes_ge c.buf nd.2 _ hlen1 (hne nd (by simp))
      · exact g4 (fun x hx => hne x (by simp [hx])) ht
    · intro i hi
      cases i with
      | zero =>
        simp only [List.getD_cons_zero]
        by_cases hemp : nd.2 = []
        · rw [hemp]
          simp
        · rw [g2, hbufc1 hemp, ← List.append_assoc, List.append_assoc (c.buf ++ _),
            drop_append_len _ _ _ (by
              simp only [List.length_append, List.length_replicate]
              show D + alignUp rd (getAlignmentForFile factory legacy amap minA e nd.1 nd.2) =
                c.buf.length + (D + alignUp rd
                  (getAlignmentForFile factory legacy amap minA e nd.1 nd.2) - c.buf.length)
              omega)]
          exact List.take_left nd.2 ext
      | succ j =>
        have hj : j < t.length := by simpa using hi
        simpa only [List.getD_cons_succ] using g5 j hj

/-! ## Layout: assembling the whole emission pass -/

theorem drop_append_ge (l₁ l₂ : Bytes) (p : Nat) (h : l₁.length ≤ p) :
    (l₁ ++ l₂).drop p = l₂.drop (p - l₁.length) := by
  rw [List.drop_append_eq_append_drop, List.drop_eq_nil_of_le h, List.nil_append]

theorem take_drop_append (X Y : Bytes) (p q : Nat) (h : p + q ≤ X.length) :
    ((X ++ Y).drop p).take q = (X.drop p).take q := by
  have h0 : p - X.length = 0 := by omega
  rw [List.drop_append_eq_append_drop, h0, List.drop_zero, List.take_append_eq_append_take,
    List.length_drop]
  have h1 : q - (X.length - p) = 0 := by omega
  rw [h1, List.take_zero, List.append_nil]

theorem length_bomBytes (e : Endian) : (bomBytes e).length = 2 := by
  cases e <;> rfl

theorem length_entsFlatten (e : Endian) (ents : List EntryL) :
    ((ents.map (entryBytes e)).flatten).length = 16 * ents.length := by
  induction ents with
  | nil => rfl
  | cons E t ih =>
    simp only [List.map_cons, List.flatten_cons, List.length_append, ih, length_entryBytes,
      List.length_cons]
    omega

theorem nameSz_bounds (nm : Bytes) (h : nm.length + 5 ≤ 2^64) :
    nm.length + 1 ≤ nameSz nm ∧ nameSz nm ≤ nm.length + 4 := by
  have hlt := alignUp_pow2_lt (nm.length + 1) 2 (by norm_num) (by omega)
  have hle := le_alignUp_pow2 (nm.length + 1) 2 (by norm_num) (by omega)
  unfold nameSz
  rw [show (4:Nat) = 2^2 from rfl]
  omega

theorem sum_nameSz_le (fs : List (Bytes × Bytes))
    (h : (fs.map (fun nd => nd.1.length + 4)).sum ≤ 2^63) :
    (fs.map (fun nd => nameSz nd.1)).sum ≤ (fs.map (fun nd => nd.1.length + 4)).sum := by
  induction fs with
  | nil => simp
  | cons nd t ih =>
    simp only [List.map_cons, List.sum_cons] at h ⊢
    have h1 := nameSz_bounds nd.1 (by omega)
    have h2 := ih (by omega)
    omega

theorem entsSpec_align_map (factory : List Bytes) (legacy : Bool) (amap : List (Bytes × Nat))
    (minA : Nat) (e : Endian) (mult : Nat) (fs : List (Bytes × Bytes)) :
    ∀ rd rs, (entsSpec factory legacy amap minA e mult fs rd rs).map EntryL.align =
      fs.map (fun nd => getAlignmentForFile factory legacy amap minA e nd.1 nd.2) := by
  induction fs with
  | nil => intro rd rs; rfl
  | cons nd t ih =>
    intro rd rs
    simp only [entsSpec, List.map_cons, ih]

theorem entsSpec_endRd (factory : List Bytes) (legacy : Bool) (amap : List (Bytes × Nat))
    (minA : Nat) (e : Endian) (mult : Nat) (fs : List (Bytes × Bytes)) :
    ∀ rd rs,
    (∀ nd ∈ fs, ∃ k, k ≤ 30 ∧ getAlignmentForFile factory legacy amap minA e nd.1 nd.2 = 2^k) →
    rd + (fs.map (fun nd => nd.2.length + 2^30)).sum ≤ 2^62 →
    rd ≤ endRd rd (entsSpec factory legacy amap minA e mult fs rd rs) ∧
    endRd rd (entsSpec factory legacy amap minA e mult fs rd rs) ≤
      rd + (fs.map (fun nd => nd.2.length + 2^30)).sum ∧
    (∀ i, i < fs.length →
      ((entsSpec factory legacy amap minA e mult fs rd rs).getD i dfltEntry).dEnd ≤
        endRd rd (entsSpec factory legacy amap minA e mult fs rd rs)) := by
  induction fs with
  | nil =>
    intro rd rs _ _
    exact ⟨le_refl _, by simp [entsSpec, endRd], fun i hi => absurd hi (by simp)⟩
  | cons nd t ih =>
    intro rd rs hal hb
    obtain ⟨k, hk, hak⟩ := hal nd (by simp)
    have hk64 : k ≤ 64 := by omega
    have h2k30 : (2:Nat)^k ≤ 2^30 := Nat.pow_le_pow_right (by norm_num) hk
    have hbh : rd + (nd.2.length + 2^30 + (t.map (fun nd => nd.2.length + 2^30)).sum) ≤
        2^62 := by simpa using hb
    have hbound1 : rd + 2^k ≤ 2^64 := by
      have : (2:Nat)^62 ≤ 2^64 := by norm_num
      omega
    have hle : rd ≤ alignUp rd (getAlignmentForFile factory legacy amap minA e nd.1 nd.2) := by
      rw [hak]
      exact le_alignUp_pow2 rd k hk64 hbound1
    have hlt : alignUp rd (getAlignmentForFile factory legacy amap minA e nd.1 nd.2) <
        rd + 2^30 := by
      rw [hak]
      have := alignUp_pow2_lt rd k hk64 hbound1
      omega
    obtain ⟨g1, g2, g3⟩ := ih
      (alignUp rd (getAlignmentForFile factory legacy amap minA e nd.1 nd.2) + nd.2.length)
      ((rs + alignUp (nd.1.length + 1) 4) % 2^32)
      (fun x hx => hal x (by simp [hx]))
      (by omega)
    have hEnd : endRd rd (entsSpec factory legacy amap minA e mult (nd :: t) rd rs) =
        endRd (alignUp rd (getAlignmentForFile factory legacy amap minA e nd.1 nd.2) +
            nd.2.length)
          (entsSpec factory legacy amap minA e mult t
            (alignUp rd (getAlignmentForFile factory legacy amap minA e nd.1 nd.2) +
              nd.2.length) ((rs + alignUp (nd.1.length + 1) 4) % 2^32)) := rfl
    refine ⟨?_, ?_, ?_⟩
    · rw [hEnd]
      omega
    · rw [hEnd]
      simp only [List.map_cons, List.sum_cons]
      omega
    · intro i hi
      rw [hEnd]
      cases i with
      | zero =>
        have hz : ((entsSpec factory legacy amap minA e mult (nd :: t) rd rs).getD 0
            dfltEntry).dEnd =
            alignUp rd (getAlignmentForFile factory legacy amap minA e nd.1 nd.2) +
              nd.2.length := by
          simp [entsSpec]
        rw [hz]
        exact g1
      | succ j =>
        have hj : j < t.length := by simpa using hi
        have hs : (entsSpec factory legacy amap minA e mult (nd :: t) rd rs).getD (j + 1)
            dfltEntry =
            (entsSpec factory legacy amap minA e mult t
              (alignUp rd (getAlignmentForFile factory legacy amap minA e nd.1 nd.2) +
                nd.2.length) ((rs + alignUp (nd.1.length + 1) 4) % 2^32)).getD j dfltEntry := by
          simp [entsSpec]
        rw [hs]
        exact g3 j hj

theorem writeCore_eq (factory : List Bytes) (legacy : Bool) (map1 : List (Bytes × Nat))
    (minA : Nat) (e : Endian) (mult : Nat) (fs : List (Bytes × Bytes)) :
    writeCore factory legacy map1 minA e mult fs =
      storeBytes (c6Of factory legacy map1 minA e mult fs).buf 0
        (hdrB e (c6Of factory legacy map1 minA e mult fs).pos
          (alignUp (c4Of factory legacy map1 minA e mult fs).pos
            ((stOf factory legacy map1 minA e mult fs).aligns.foldl
              (fun acc a => Nat.lcm acc a) 1))) := rfl

theorem stOf_eq (factory : List Bytes) (legacy : Bool) (map1 : List (Bytes × Nat))
    (minA : Nat) (e : Endian) (mult : Nat) (fs : List (Bytes × Bytes)) :
    ∃ rdE rsE, stOf factory legacy map1 minA e mult fs =
      ⟨⟨(List.replicate 0x14 0 ++ fatHdrB e fs.length mult) ++
          ((entsOf factory legacy map1 minA e mult fs).map (entryBytes e)).flatten,
        0x20 + 16 * fs.length⟩,
       (entsOf factory legacy map1 minA e mult fs).map EntryL.align, rdE, rsE⟩ := by
  have hlen : (fatHdrB e fs.length mult).length = 12 := by
    simp [fatHdrB, sfatMagicB, length_putU16, length_putU32]
  have hC1 : curWrite ⟨[], 0x14⟩ (fatHdrB e fs.length mult) =
      ⟨List.replicate 0x14 0 ++ fatHdrB e fs.length mult, 0x20⟩ := by
    unfold curWrite
    rw [show (⟨[], 0x14⟩ : Cur).buf = ([] : Bytes) from rfl,
      show (⟨[], 0x14⟩ : Cur).pos = 0x14 from rfl,
      storeBytes_ge [] _ 0x14 (by simp) (by simp [fatHdrB, sfatMagicB]), hlen]
    simp
  obtain ⟨rdE, rsE, hst⟩ := entries_fold factory legacy map1 minA e mult fs
    ⟨List.replicate 0x14 0 ++ fatHdrB e fs.length mult, 0x20⟩ [] 0 0
    (by show (0x20:Nat) = (List.replicate 0x14 0 ++ fatHdrB e fs.length mult).length
        simp [hlen])
  refine ⟨rdE, rsE, ?_⟩
  unfold stOf
  rw [hC1, hst]
  rfl

theorem c4Of_facts (factory : List Bytes) (legacy : Bool) (map1 : List (Bytes × Nat))
    (minA : Nat) (e : Endian) (mult : Nat) (fs : List (Bytes × Bytes))
    (hb : 0x28 + 16 * fs.length + (fs.map (fun nd => nd.1.length + 4)).sum ≤ 2^63) :
    (c4Of factory legacy map1 minA e mult fs).buf.length ≤
      (c4Of factory legacy map1 minA e mult fs).pos ∧
    4 ∣ (c4Of factory legacy map1 minA e mult fs).pos ∧
    (c4Of factory legacy map1 minA e mult fs).pos = namesEndOf fs ∧
    (∃ ext, (c4Of factory legacy map1 minA e mult fs).buf =
      ((List.replicate 0x14 0 ++ fatHdrB e fs.length mult) ++
        ((entsOf factory legacy map1 minA e mult fs).map (entryBytes e)).flatten ++
        fntHdrB e) ++ ext) ∧
    (∀ i, i < fs.length →
      ((c4Of factory legacy map1 minA e mult fs).buf.drop
        (0x28 + 16 * fs.length + ((fs.take i).map (fun nd => nameSz nd.1)).sum)).take
        ((fs.getD i dfltFile).1.length + 1) = (fs.getD i dfltFile).1 ++ [0]) := by
  obtain ⟨rdE, rsE, hstO⟩ := stOf_eq factory legacy map1 minA e mult fs
  have hcur : (stOf factory legacy map1 minA e mult fs).cur =
      ⟨(List.replicate 0x14 0 ++ fatHdrB e fs.length mult) ++
        ((entsOf factory legacy map1 minA e mult fs).map (entryBytes e)).flatten,
       0x20 + 16 * fs.length⟩ := by
    rw [hstO]
  have hlenFat : (fatHdrB e fs.length mult).length = 12 := by
    simp [fatHdrB, sfatMagicB, length_putU16, length_putU32]
  have hlenFnt : (fntHdrB e).length = 8 := by
    simp [fntHdrB, sfntMagicB, length_putU16]
  have hlenB2 : ((List.replicate 0x14 0 ++ fatHdrB e fs.length mult) ++
      ((entsOf factory legacy map1 minA e mult fs).map (entryBytes e)).flatten).length =
      0x20 + 16 * fs.length := by
    rw [List.length_append, List.length_append, List.length_replicate, hlenFat,
      length_entsFlatten]
    unfold entsOf
    rw [entsSpec_length]
  have hc3 : curWrite (stOf factory legacy map1 minA e mult fs).cur (fntHdrB e) =
      ⟨((List.replicate 0x14 0 ++ fatHdrB e fs.length mult) ++
          ((entsOf factory legacy map1 minA e mult fs).map (entryBytes e)).flatten) ++
        fntHdrB e,
       0x28 + 16 * fs.length⟩ := by
    rw [hcur, curWrite_at_end _ _ hlenB2.symm, hlenFnt]
    simp only [Cur.mk.injEq, true_and]
    omega
  have hc4eq : c4Of factory legacy map1 minA e mult fs =
      fs.foldl (fun c nd =>
          let c' := curWrite c (nd.1 ++ [0])
          Cur.mk c'.buf (alignUp c'.pos 4))
        ⟨((List.replicate 0x14 0 ++ fatHdrB e fs.length mult) ++
            ((entsOf factory legacy map1 minA e mult fs).map (entryBytes e)).flatten) ++
          fntHdrB e,
         0x28 + 16 * fs.length⟩ := by
    unfold c4Of
    rw [hc3]
  obtain ⟨n1, n2, n3, ⟨extN, n4⟩, n5⟩ := names_fold fs
    ⟨((List.replicate 0x14 0 ++ fatHdrB e fs.length mult) ++
        ((entsOf factory legacy map1 minA e mult fs).map (entryBytes e)).flatten) ++
      fntHdrB e,
     0x28 + 16 * fs.length⟩
    (by show (((List.replicate 0x14 0 ++ fatHdrB e fs.length mult) ++
          ((entsOf factory legacy map1 minA e mult fs).map (entryBytes e)).flatten) ++
          fntHdrB e).length ≤ 0x28 + 16 * fs.length
        rw [List.length_append, hlenB2, hlenFnt]
        omega)
    (by show 4 ∣ 0x28 + 16 * fs.length
        omega)
    (by show 0x28 + 16 * fs.length + (fs.map (fun nd => nd.1.length + 4)).sum ≤ 2^63
        omega)
  refine ⟨by rw [hc4eq]; exact n1, by rw [hc4eq]; exact n2, by rw [hc4eq]; exact n3,
    ⟨extN, by rw [hc4eq]; exact n4⟩, ?_⟩
  intro i hi
  rw [hc4eq]
  exact n5 i hi

theorem c6Of_facts (factory : List Bytes) (legacy : Bool) (map1 : List (Bytes × Nat))
    (minA : Nat) (e : Endian) (mult : Nat) (fs : List (Bytes × Bytes))
    (hal : ∀ nd ∈ fs, ∃ k, k ≤ 30 ∧
      getAlignmentForFile factory legacy map1 minA e nd.1 nd.2 = 2^k)
    (hsz : 0x28 + 16 * fs.length + (fs.map (fun nd => nd.1.length + 4)).sum +
      (fs.map (fun nd => nd.2.length + 2^30)).sum ≤ 2^62) :
    ∃ K, K ≤ 30 ∧
    requiredOf factory legacy map1 minA e mult fs = 2^K ∧
    alignUp (c4Of factory legacy map1 minA e mult fs).pos
      ((stOf factory legacy map1 minA e mult fs).aligns.foldl
        (fun acc a => Nat.lcm acc a) 1) = dOffOf factory legacy map1 minA e mult fs ∧
    namesEndOf fs ≤ dOffOf factory legacy map1 minA e mult fs ∧
    dOffOf factory legacy map1 minA e mult fs < namesEndOf fs + 2^30 ∧
    (∀ nd ∈ fs, getAlignmentForFile factory legacy map1 minA e nd.1 nd.2 ∣
      dOffOf factory legacy map1 minA e mult fs) ∧
    (c6Of factory legacy map1 minA e mult fs).buf.length ≤
      (c6Of factory legacy map1 minA e mult fs).pos ∧
    (∃ ext, (c6Of factory legacy map1 minA e mult fs).buf =
      (c4Of factory legacy map1 minA e mult fs).buf ++ ext) ∧
    (c6Of factory legacy map1 minA e mult fs).pos =
      fileSizeOf factory legacy map1 minA e mult fs ∧
    ((∀ nd ∈ fs, nd.2 ≠ []) → fs ≠ [] →
      (c6Of factory legacy map1 minA e mult fs).buf.length =
        (c6Of factory legacy map1 minA e mult fs).pos) ∧
    (∀ i, i < fs.length →
      ((c6Of factory legacy map1 minA e mult fs).buf.drop
        (dOffOf factory legacy map1 minA e mult fs +
          ((entsOf factory legacy map1 minA e mult fs).getD i dfltEntry).dBegin)).take
        (fs.getD i dfltFile).2.length = (fs.getD i dfltFile).2) := by
  obtain ⟨rdE, rsE, hstO⟩ := stOf_eq factory legacy map1 minA e mult fs
  have haligns : (stOf factory legacy map1 minA e mult fs).aligns =
      (entsSpec factory legacy map1 minA e mult fs 0 0).map EntryL.align := by
    rw [hstO]
    rfl
  have hmem : ∀ a ∈ (entsSpec factory legacy map1 minA e mult fs 0 0).map EntryL.align,
      ∃ k, k ≤ 30 ∧ a = 2^k := by
    intro a ha
    rw [entsSpec_align_map] at ha
    obtain ⟨nd, hnd, hand⟩ := List.mem_map.1 ha
    obtain ⟨k, hk, hak⟩ := hal nd hnd
    exact ⟨k, hk, by rw [← hand, hak]⟩
  obtain ⟨K, hK, hfold, hdvds, _⟩ := foldl_lcm_two_pow
    ((entsSpec factory legacy map1 minA e mult fs 0 0).map EntryL.align) 0 (by norm_num) hmem
  have hfold1 : ((entsSpec factory legacy map1 minA e mult fs 0 0).map EntryL.align).foldl
      (fun acc a => Nat.lcm acc a) 1 = 2^K := hfold
  have hreqOf : requiredOf factory legacy map1 minA e mult fs = 2^K := hfold1
  obtain ⟨m1, m2, m3, ⟨extN, m4⟩, m5⟩ := c4Of_facts factory legacy map1 minA e mult fs
    (by omega)
  have h2K : (2:Nat)^K ≤ 2^30 := Nat.pow_le_pow_right (by norm_num) hK
  have hK64 : K ≤ 64 := by omega
  have hnEle : namesEndOf fs ≤ 2^62 := by
    have hs := sum_nameSz_le fs (by omega)
    unfold namesEndOf
    omega
  have hboundNE : namesEndOf fs + 2^K ≤ 2^64 := by
    have : (2:Nat)^62 + 2^30 ≤ 2^64 := by norm_num
    omega
  have hdOffle : namesEndOf fs ≤ alignUp (namesEndOf fs) (2^K) :=
    le_alignUp_pow2 _ K hK64 hboundNE
  have hdOffdvd : (2:Nat)^K ∣ alignUp (namesEndOf fs) (2^K) :=
    alignUp_pow2_dvd _ K hK64 hboundNE
  have hdOfflt : alignUp (namesEndOf fs) (2^K) < namesEndOf fs + 2^K :=
    alignUp_pow2_lt _ K hK64 hboundNE
  have hdOffOf : dOffOf factory legacy map1 minA e mult fs =
      alignUp (namesEndOf fs) (2^K) := by
    unfold dOffOf
    rw [hreqOf]
  have hseedpos : alignUp (c4Of factory legacy map1 minA e mult fs).pos
      ((stOf factory legacy map1 minA e mult fs).aligns.foldl
        (fun acc a => Nat.lcm acc a) 1) = dOffOf factory legacy map1 minA e mult fs := by
    rw [haligns, hfold1, m3, hdOffOf]
  have halD : ∀ nd ∈ fs, ∃ k, k ≤ 30 ∧
      getAlignmentForFile factory legacy map1 minA e nd.1 nd.2 = 2^k ∧
      getAlignmentForFile factory legacy map1 minA e nd.1 nd.2 ∣
        dOffOf factory legacy map1 minA e mult fs := by
    intro nd hnd
    obtain ⟨k, hk, hak⟩ := hal nd hnd
    refine ⟨k, hk, hak, ?_⟩
    have hmem2 : getAlignmentForFile factory legacy map1 minA e nd.1 nd.2 ∈
        (entsSpec factory legacy map1 minA e mult fs 0 0).map EntryL.align := by
      rw [entsSpec_align_map]
      exact List.mem_map_of_mem _ hnd
    have hd := hdvds _ hmem2
    rw [hfold] at hd
    rw [hdOffOf]
    exact hd.trans hdOffdvd
  have hc6eq : c6Of factory legacy map1 minA e mult fs =
      (fs.zip ((entsSpec factory legacy map1 minA e mult fs 0 0).map EntryL.align)).foldl
        (fun c p => curWrite ⟨c.buf, alignUp c.pos p.2⟩ p.1.2)
        ⟨(c4Of factory legacy map1 minA e mult fs).buf,
         dOffOf factory legacy map1 minA e mult fs⟩ := by
    unfold c6Of
    rw [haligns, hfold1, m3, ← hdOffOf]
  obtain ⟨d1, ⟨extD, d2⟩, d3, d4, d5⟩ := data_fold factory legacy map1 minA e mult fs
    ⟨(c4Of factory legacy map1 minA e mult fs).buf,
     dOffOf factory legacy map1 minA e mult fs⟩ 0 0
    (dOffOf factory legacy map1 minA e mult fs)
    (by show (c4Of factory legacy map1 minA e mult fs).buf.length ≤
          dOffOf factory legacy map1 minA e mult fs
        rw [m3] at m1
        exact le_trans m1 (by rw [hdOffOf]; exact hdOffle))
    (by show dOffOf factory legacy map1 minA e mult fs =
          dOffOf factory legacy map1 minA e mult fs + 0
        omega)
    halD
    (by omega)
    (by rw [hdOffOf]; omega)
  refine ⟨K, hK, hreqOf, hseedpos, by rw [hdOffOf]; exact hdOffle,
    by rw [hdOffOf]; omega,
    fun nd hnd => by obtain ⟨k, hk, hak, hdd⟩ := halD nd hnd; exact hdd,
    ?_, ⟨extD, ?_⟩, ?_, ?_, ?_⟩
  · rw [hc6eq]
    exact d1
  · rw [hc6eq]
    exact d2
  · rw [hc6eq]
    exact d3
  · intro hne hne2
    rw [hc6eq]
    exact d4 hne hne2
  · intro i hi
    rw [hc6eq]
    exact d5 i hi

theorem length_hdrB (e : Endian) (a b : Nat) : (hdrB e a b).length = 0x14 := by
  simp [hdrB, sarcMagicB, length_putU16, length_putU32, length_bomBytes]

theorem writeCore_structure (factory : List Bytes) (legacy : Bool) (map1 : List (Bytes × Nat))
    (minA : Nat) (e : Endian) (mult : Nat) (fs : List (Bytes × Bytes))
    (hal : ∀ nd ∈ fs, ∃ k, k ≤ 30 ∧
      getAlignmentForFile factory legacy map1 minA e nd.1 nd.2 = 2^k)
    (hsz : 0x28 + 16 * fs.length + (fs.map (fun nd => nd.1.length + 4)).sum +
      (fs.map (fun nd => nd.2.length + 2^30)).sum ≤ 2^62) :
    (∃ tail,
      writeCore factory legacy map1 minA e mult fs =
        hdrB e (fileSizeOf factory legacy map1 minA e mult fs)
          (dOffOf factory legacy map1 minA e mult fs) ++
        (fatHdrB e fs.length mult ++
        (((entsOf factory legacy map1 minA e mult fs).map (entryBytes e)).flatten ++
        (fntHdrB e ++ tail)))) ∧
    ((∀ nd ∈ fs, nd.2 ≠ []) →
      (writeCore factory legacy map1 minA e mult fs).length =
        fileSizeOf factory legacy map1 minA e mult fs) ∧
    (∀ i, i < fs.length →
      ((writeCore factory legacy map1 minA e mult fs).drop
        (0x28 + 16 * fs.length + ((fs.take i).map (fun nd => nameSz nd.1)).sum)).take
        ((fs.getD i dfltFile).1.length + 1) = (fs.getD i dfltFile).1 ++ [0]) ∧
    (∀ i, i < fs.length →
      ((writeCore factory legacy map1 minA e mult fs).drop
        (dOffOf factory legacy map1 minA e mult fs +
          ((entsOf factory legacy map1 minA e mult fs).getD i dfltEntry).dBegin)).take
        (fs.getD i dfltFile).2.length = (fs.getD i dfltFile).2) := by
  obtain ⟨m1, m2, m3, ⟨extN, m4⟩, m5⟩ := c4Of_facts factory legacy map1 minA e mult fs
    (by omega)
  obtain ⟨K, hK, hreqOf, hseedpos, hnele, hdlt, hdvd, d1, ⟨extD, d2⟩, d3, d4, d5⟩ :=
    c6Of_facts factory legacy map1 minA e mult fs hal hsz
  have hw := writeCore_eq factory legacy map1 minA e mult fs
  rw [hseedpos, d3, storeBytes_zero,
    length_hdrB e (fileSizeOf factory legacy map1 minA e mult fs)
      (dOffOf factory legacy map1 minA e mult fs)] at hw
  have hlenFat : (fatHdrB e fs.length mult).length = 12 := by
    simp [fatHdrB, sfatMagicB, length_putU16, length_putU32]
  have hlenFnt : (fntHdrB e).length = 8 := by
    simp [fntHdrB, sfntMagicB, length_putU16]
  have hlenPRE : (((List.replicate 0x14 0 ++ fatHdrB e fs.length mult) ++
      ((entsOf factory legacy map1 minA e mult fs).map (entryBytes e)).flatten ++
      fntHdrB e)).length = 0x28 + 16 * fs.length := by
    rw [List.length_append, List.length_append, List.length_append, List.length_replicate,
      hlenFat, hlenFnt, length_entsFlatten]
    unfold entsOf
    rw [entsSpec_length]
    omega
  have hbufc6 : (c6Of factory legacy map1 minA e mult fs).buf =
      ((List.replicate 0x14 0 ++ fatHdrB e fs.length mult) ++
        ((entsOf factory legacy map1 minA e mult fs).map (entryBytes e)).flatten ++
        fntHdrB e) ++ (extN ++ extD) := by
    rw [d2, m4, List.append_assoc]
  have hc6ge : 0x28 + 16 * fs.length ≤ (c6Of factory legacy map1 minA e mult fs).buf.length := by
    rw [hbufc6, List.length_append, hlenPRE]
    omega
  have hdropOut : ∀ p, 0x14 ≤ p → (writeCore factory legacy map1 minA e mult fs).drop p =
      (c6Of factory legacy map1 minA e mult fs).buf.drop p := by
    intro p hp
    rw [hw, drop_append_ge _ _ p (by
        rw [length_hdrB]
        omega),
      length_hdrB, List.drop_drop]
    congr 1
    omega
  have hnE40 : 0x28 ≤ namesEndOf fs := by
    unfold namesEndOf
    omega
  refine ⟨⟨extN ++ extD, ?_⟩, ?_, ?_, ?_⟩
  · rw [hw, hbufc6]
    rw [show ((List.replicate 0x14 0 ++ fatHdrB e fs.length mult) ++
        ((entsOf factory legacy map1 minA e mult fs).map (entryBytes e)).flatten ++
        fntHdrB e) ++ (extN ++ extD) =
        List.replicate 0x14 0 ++
          (fatHdrB e fs.length mult ++
            (((entsOf factory legacy map1 minA e mult fs).map (entryBytes e)).flatten ++
              (fntHdrB e ++ (extN ++ extD)))) from by
      simp [List.append_assoc]]
    rw [drop_append_len _ _ 0x14 (by simp)]
  · intro hne
    by_cases hfs : fs = []
    · subst hfs
      have hreq1 : requiredOf factory legacy map1 minA e mult [] = 1 := rfl
      have hfsz40 : fileSizeOf factory legacy map1 minA e mult [] = 0x28 := by
        have h1 : dOffOf factory legacy map1 minA e mult [] = alignUp 0x28 (2^0) := by
          unfold dOffOf
          rw [hreq1]
          norm_num [namesEndOf]
        have h2 : alignUp 0x28 (2^0) = 0x28 :=
          alignUp_pow2_self 0x28 0 (by norm_num) (by norm_num) (by norm_num)
        unfold fileSizeOf
        rw [h1, h2]
        simp [entsOf, entsSpec, endRd]
      have hlb := congrArg List.length hbufc6
      rw [List.length_append, hlenPRE] at hlb
      simp only [List.length_nil, Nat.mul_zero, Nat.add_zero] at hlb
      have hle40 : (c6Of factory legacy map1 minA e mult []).buf.length ≤ 0x28 := by
        have := d1
        rw [d3, hfsz40] at this
        exact this
      rw [hw, hfsz40, List.length_append, length_hdrB, List.length_drop]
      omega
    · have heq := d4 hne hfs
      rw [hw, List.length_append, length_hdrB, List.length_drop, heq, d3]
      have hb2 : 0x28 + 16 * fs.length ≤ fileSizeOf factory legacy map1 minA e mult fs := by
        rw [← d3, ← heq]
        exact hc6ge
      omega
  · intro i hi
    have hn5 := m5 i hi
    have hlen5 := congrArg List.length hn5
    rw [List.length_take, List.length_drop] at hlen5
    simp only [List.length_append, List.length_cons, List.length_nil] at hlen5
    rw [hdropOut _ (by omega), d2,
      take_drop_append _ _ _ _ (by omega)]
    exact hn5
  · intro i hi
    rw [hdropOut _ (by
      have := hnele
      omega)]
    exact d5 i hi

/-! ## Hash values and order of the emitted FAT -/

theorem foldl_hash_lt (mult : Nat) (l : Bytes) :
    ∀ acc, acc < 2^32 → l.foldl (fun h b => (h * mult + b) % 2^32) acc < 2^32 := by
  induction l with
  | nil => intro acc h; simpa using h
  | cons b t ih =>
    intro acc h
    rw [List.foldl_cons]
    exact ih _ (Nat.mod_lt _ (by norm_num))

theorem hashName_lt (mult : Nat) (nm : Bytes) : hashName mult nm < 2^32 :=
  foldl_hash_lt mult nm 0 (by norm_num)

theorem entsSpec_hash (factory : List Bytes) (legacy : Bool) (amap : List (Bytes × Nat))
    (minA : Nat) (e : Endian) (mult : Nat) (fs : List (Bytes × Bytes)) :
    ∀ rd rs i, i < fs.length →
      ((entsSpec factory legacy amap minA e mult fs rd rs).getD i dfltEntry).hash =
        hashName mult (fs.getD i dfltFile).1 := by
  induction fs with
  | nil => intro rd rs i hi; exact absurd hi (by simp)
  | cons nd t ih =>
    intro rd rs i hi
    cases i with
    | zero => simp [entsSpec]
    | succ j =>
      have hj : j < t.length := by simpa using hi
      have hs : (entsSpec factory legacy amap minA e mult (nd :: t) rd rs).getD (j + 1)
          dfltEntry =
          (entsSpec factory legacy amap minA e mult t
            (alignUp rd (getAlignmentForFile factory legacy amap minA e nd.1 nd.2) +
              nd.2.length) ((rs + alignUp (nd.1.length + 1) 4) % 2^32)).getD j dfltEntry := by
        simp [entsSpec]
      rw [hs, show ((nd :: t).getD (j + 1) dfltFile) = t.getD j dfltFile from rfl]
      exact ih _ _ j hj

theorem perm_insHash (mult : Nat) (x : Bytes × Bytes) (l : List (Bytes × Bytes)) :
    (insHash mult x l).Perm (x :: l) := by
  induction l with
  | nil => exact List.Perm.refl _
  | cons y t ih =>
    unfold insHash
    split
    · exact (List.Perm.cons y ih).trans (List.Perm.swap x y t)
    · exact List.Perm.refl _

theorem sortByHash_perm (mult : Nat) (l : List (Bytes × Bytes)) :
    (sortByHash mult l).Perm l := by
  induction l with
  | nil => exact List.Perm.refl _
  | cons x t ih =>
    show (insHash mult x (sortByHash mult t)).Perm (x :: t)
    exact (perm_insHash mult x _).trans (ih.cons x)

theorem pairwise_getD {R : Bytes × Bytes → Bytes × Bytes → Prop} {l : List (Bytes × Bytes)}
    (h : l.Pairwise R) (i j : Nat) (hij : i < j) (hj : j < l.length) :
    R (l.getD i dfltFile) (l.getD j dfltFile) := by
  rw [List.getD_eq_getElem l dfltFile (by omega), List.getD_eq_getElem l dfltFile hj]
  exact List.pairwise_iff_getElem.1 h i j (by omega) hj hij

/-- C6 (amended): in every serialized archive (power-of-two resolved alignments,
in-range sizes) the emitted FAT entries are sorted by `name_hash` in
nondecreasing order, and strictly ascending whenever the input names have
pairwise distinct hashes.  The claim's unconditional strict order fails for
colliding names (see the counterexample). -/
theorem claim_C6_sorted (agl : List (Bytes × Nat)) (factory : List Bytes) (w : SarcWriter)
    (hal : ∀ nd ∈ sortByHash w.hashMultiplier w.files, ∃ k, k ≤ 30 ∧
      resolvedAlignment agl factory w nd.1 nd.2 = 2^k)
    (hsz : 0x28 + 16 * (sortByHash w.hashMultiplier w.files).length +
      ((sortByHash w.hashMultiplier w.files).map (fun nd => nd.1.length + 4)).sum +
      ((sortByHash w.hashMultiplier w.files).map (fun nd => nd.2.length + 2^30)).sum ≤ 2^62)
    (i : Nat) (hi : i + 1 < (sortByHash w.hashMultiplier w.files).length) :
    ∃ h1 h2,
      readU32 w.endian (w.write agl factory).1 (0x20 + 16 * i) = some h1 ∧
      readU32 w.endian (w.write agl factory).1 (0x20 + 16 * (i + 1)) = some h2 ∧
      h1 ≤ h2 ∧
      (List.Pairwise
        (fun p q => hashName w.hashMultiplier p.1 ≠ hashName w.hashMultiplier q.1)
        w.files → h1 < h2) := by
  have hout : (w.write agl factory).1 = writeCore factory w.legacy
      (addDefaultAlignments agl w.endian w.alignmentMap) w.minAlignment w.endian
      w.hashMultiplier (sortByHash w.hashMultiplier w.files) := rfl
  obtain ⟨⟨tail, hstruct⟩, _, _, _⟩ := writeCore_structure factory w.legacy
    (addDefaultAlignments agl w.endian w.alignmentMap) w.minAlignment w.endian
    w.hashMultiplier (sortByHash w.hashMultiplier w.files) hal hsz
  have hstruct2 : writeCore factory w.legacy
      (addDefaultAlignments agl w.endian w.alignmentMap) w.minAlignment w.endian
      w.hashMultiplier (sortByHash w.hashMultiplier w.files) =
      (hdrB w.endian
        (fileSizeOf factory w.legacy (addDefaultAlignments agl w.endian w.alignmentMap)
          w.minAlignment w.endian w.hashMultiplier (sortByHash w.hashMultiplier w.files))
        (dOffOf factory w.legacy (addDefaultAlignments agl w.endian w.alignmentMap)
          w.minAlignment w.endian w.hashMultiplier (sortByHash w.hashMultiplier w.files)) ++
        fatHdrB w.endian (sortByHash w.hashMultiplier w.files).length w.hashMultiplier) ++
      (((entsOf factory w.legacy (addDefaultAlignments agl w.endian w.alignmentMap)
          w.minAlignment w.endian w.hashMultiplier
          (sortByHash w.hashMultiplier w.files)).map (entryBytes w.endian)).flatten ++
        (fntHdrB w.endian ++ tail)) := by
    rw [hstruct]
    simp [List.append_assoc]
  have hprelen : (hdrB w.endian
      (fileSizeOf factory w.legacy (addDefaultAlignments agl w.endian w.alignmentMap)
        w.minAlignment w.endian w.hashMultiplier (sortByHash w.hashMultiplier w.files))
      (dOffOf factory w.legacy (addDefaultAlignments agl w.endian w.alignmentMap)
        w.minAlignment w.endian w.hashMultiplier (sortByHash w.hashMultiplier w.files)) ++
      fatHdrB w.endian (sortByHash w.hashMultiplier w.files).length
        w.hashMultiplier).length = 0x20 := by
    rw [List.length_append, length_hdrB]
    simp [fatHdrB, sfatMagicB, length_putU16, length_putU32]
  have hexi : i < (entsOf factory w.legacy (addDefaultAlignments agl w.endian w.alignmentMap)
      w.minAlignment w.endian w.hashMultiplier (sortByHash w.hashMultiplier w.files)).length := by
    unfold entsOf
    rw [entsSpec_length]
    omega
  have hexi1 : i + 1 < (entsOf factory w.legacy
      (addDefaultAlignments agl w.endian w.alignmentMap) w.minAlignment w.endian
      w.hashMultiplier (sortByHash w.hashMultiplier w.files)).length := by
    unfold entsOf
    rw [entsSpec_length]
    omega
  obtain ⟨ra, -, -, -⟩ := ents_read w.endian
    (entsOf factory w.legacy (addDefaultAlignments agl w.endian w.alignmentMap)
      w.minAlignment w.endian w.hashMultiplier (sortByHash w.hashMultiplier w.files))
    (hdrB w.endian
      (fileSizeOf factory w.legacy (addDefaultAlignments agl w.endian w.alignmentMap)
        w.minAlignment w.endian w.hashMultiplier (sortByHash w.hashMultiplier w.files))
      (dOffOf factory w.legacy (addDefaultAlignments agl w.endian w.alignmentMap)
        w.minAlignment w.endian w.hashMultiplier (sortByHash w.hashMultiplier w.files)) ++
      fatHdrB w.endian (sortByHash w.hashMultiplier w.files).length w.hashMultiplier)
    (fntHdrB w.endian ++ tail) i hexi
  obtain ⟨rb, -, -, -⟩ := ents_read w.endian
    (entsOf factory w.legacy (addDefaultAlignments agl w.endian w.alignmentMap)
      w.minAlignment w.endian w.hashMultiplier (sortByHash w.hashMultiplier w.files))
    (hdrB w.endian
      (fileSizeOf factory w.legacy (addDefaultAlignments agl w.endian w.alignmentMap)
        w.minAlignment w.endian w.hashMultiplier (sortByHash w.hashMultiplier w.files))
      (dOffOf factory w.legacy (addDefaultAlignments agl w.endian w.alignmentMap)
        w.minAlignment w.endian w.hashMultiplier (sortByHash w.hashMultiplier w.files)) ++
      fatHdrB w.endian (sortByHash w.hashMultiplier w.files).length w.hashMultiplier)
    (fntHdrB w.endian ++ tail) (i + 1) hexi1
  rw [hprelen] at ra rb
  have hhi : ((entsOf factory w.legacy (addDefaultAlignments agl w.endian w.alignmentMap)
      w.minAlignment w.endian w.hashMultiplier
      (sortByHash w.hashMultiplier w.files)).getD i dfltEntry).hash =
      hashName w.hashMultiplier
        ((sortByHash w.hashMultiplier w.files).getD i dfltFile).1 :=
    entsSpec_hash factory w.legacy (addDefaultAlignments agl w.endian w.alignmentMap)
      w.minAlignment w.endian w.hashMultiplier (sortByHash w.hashMultiplier w.files)
      0 0 i (by omega)
  have hhi1 : ((entsOf factory w.legacy (addDefaultAlignments agl w.endian w.alignmentMap)
      w.minAlignment w.endian w.hashMultiplier
      (sortByHash w.hashMultiplier w.files)).getD (i + 1) dfltEntry).hash =
      hashName w.hashMultiplier
        ((sortByHash w.hashMultiplier w.files).getD (i + 1) dfltFile).1 :=
    entsSpec_hash factory w.legacy (addDefaultAlignments agl w.endian w.alignmentMap)
      w.minAlignment w.endian w.hashMultiplier (sortByHash w.hashMultiplier w.files)
      0 0 (i + 1) hi
  have hpair := sortByHash_pairwise w.hashMultiplier w.files
  have hle := pairwise_getD hpair i (i + 1) (by omega) hi
  refine ⟨hashName w.hashMultiplier ((sortByHash w.hashMultiplier w.files).getD i dfltFile).1,
    hashName w.hashMultiplier ((sortByHash w.hashMultiplier w.files).getD (i + 1) dfltFile).1,
    ?_, ?_, hle, ?_⟩
  · rw [hout, hstruct2, ra, hhi, Nat.mod_eq_of_lt (hashName_lt _ _)]
  · rw [hout, hstruct2, rb, hhi1, Nat.mod_eq_of_lt (hashName_lt _ _)]
  · intro hdist
    have hdist2 := hdist.perm (sortByHash_perm w.hashMultiplier w.files).symm
      (fun hxy heq => hxy heq.symm)
    have hne := pairwise_getD hdist2 i (i + 1) (by omega) hi
    exact lt_of_le_of_ne hle hne

theorem claim_C6_sorted_witness :
    ∃ h1 h2,
      readU32 w6a.endian (w6a.write [] []).1 (0x20 + 16 * 0) = some h1 ∧
      readU32 w6a.endian (w6a.write [] []).1 (0x20 + 16 * (0 + 1)) = some h2 ∧
      h1 ≤ h2 ∧
      (List.Pairwise
        (fun p q => hashName w6a.hashMultiplier p.1 ≠ hashName w6a.hashMultiplier q.1)
        w6a.files → h1 < h2) :=
  claim_C6_sorted [] [] w6a
    (by intro nd hnd
        have hfs : sortByHash w6a.hashMultiplier w6a.files =
            [([97], [104]), ([98], [105])] := by decide
        rw [hfs] at hnd
        simp only [List.mem_cons, List.not_mem_nil, or_false] at hnd
        rcases hnd with rfl | rfl <;> exact ⟨2, by norm_num, by decide⟩)
    (by decide) 0 (by decide)

/-! ## Reading the emitted headers back -/

theorem readU16_at_of_append (e : Endian) (pre ys : Bytes) (p q : Nat)
    (h : p = pre.length + q) : readU16 e (pre ++ ys) p = readU16 e ys q := by
  subst h
  rw [readU16_append_right e pre ys _ (by omega)]
  congr 1
  omega

theorem readBytesN_at_of_append (pre ys : Bytes) (p n q : Nat) (h : p = pre.length + q) :
    readBytesN (pre ++ ys) p n = readBytesN ys q n := by
  subst h
  unfold readBytesN
  rw [List.length_append, drop_append_ge pre ys _ (by omega)]
  have h2 : pre.length + q - pre.length = q := by omega
  rw [h2]
  by_cases hc : q + n ≤ ys.length
  · rw [if_pos (by omega), if_pos hc]
  · rw [if_neg (by omega), if_neg hc]

theorem readBytesN_prefix (m rest : Bytes) (h : m.length = 4) :
    readBytesN (m ++ rest) 0 4 = some m := by
  unfold readBytesN
  rw [if_pos (by rw [List.length_append]; omega), List.drop_zero, ← h, List.take_left]

theorem hdrB_read_magic (e : Endian) (fsz dOff : Nat) (rest : Bytes) :
    readBytesN (hdrB e fsz dOff ++ rest) 0 4 = some sarcMagicB := by
  rw [show hdrB e fsz dOff ++ rest = sarcMagicB ++ (putU16 e 0x14 ++ (bomBytes e ++
      (putU32 e fsz ++ (putU32 e dOff ++ (putU16 e 0x0100 ++ (putU16 e 0 ++ rest))))))
      from by simp [hdrB, List.append_assoc]]
  exact readBytesN_prefix _ _ rfl

theorem hdrB_read_hsize (e : Endian) (fsz dOff : Nat) (rest : Bytes) :
    readU16 e (hdrB e fsz dOff ++ rest) 4 = some 0x14 := by
  rw [show hdrB e fsz dOff ++ rest = sarcMagicB ++ (putU16 e 0x14 ++ (bomBytes e ++
      (putU32 e fsz ++ (putU32 e dOff ++ (putU16 e 0x0100 ++ (putU16 e 0 ++ rest))))))
      from by simp [hdrB, List.append_assoc],
    readU16_at_of_append e sarcMagicB _ 4 0 (by simp [sarcMagicB]),
    readU16_putU16]
  norm_num

theorem readU16_cons_zero (e : Endian) (a b : Nat) (t : Bytes) :
    readU16 e (a :: b :: t) 0 =
      some (match e with | .big => a * 2^8 + b | .little => a + b * 2^8) := by
  cases e <;> simp [readU16]

theorem hdrB_read_bom (e : Endian) (fsz dOff : Nat) (rest : Bytes) :
    readU16 Endian.little (hdrB e fsz dOff ++ rest) 6 =
      some (match e with | .big => 0xFFFE | .little => 0xFEFF) := by
  rw [show hdrB e fsz dOff ++ rest = (sarcMagicB ++ putU16 e 0x14) ++ (bomBytes e ++
      (putU32 e fsz ++ (putU32 e dOff ++ (putU16 e 0x0100 ++ (putU16 e 0 ++ rest)))))
      from by simp [hdrB, List.append_assoc],
    readU16_at_of_append _ _ _ 6 0 (by simp [sarcMagicB, length_putU16])]
  cases e <;>
    simp only [bomBytes, List.cons_append, List.nil_append, readU16_cons_zero] <;>
    norm_num

theorem hdrB_read_fsz (e : Endian) (fsz dOff : Nat) (rest : Bytes) :
    readU32 e (hdrB e fsz dOff ++ rest) 8 = some (fsz % 2^32) := by
  rw [show hdrB e fsz dOff ++ rest = (sarcMagicB ++ putU16 e 0x14 ++ bomBytes e) ++
      (putU32 e fsz ++ (putU32 e dOff ++ (putU16 e 0x0100 ++ (putU16 e 0 ++ rest))))
      from by simp [hdrB, List.append_assoc],
    readU32_at_of_append e _ _ 8 0
      (by simp [sarcMagicB, length_putU16, length_bomBytes]),
    readU32_putU32]

theorem hdrB_read_dOff (e : Endian) (fsz dOff : Nat) (rest : Bytes) :
    readU32 e (hdrB e fsz dOff ++ rest) 0xC = some (dOff % 2^32) := by
  rw [show hdrB e fsz dOff ++ rest = (sarcMagicB ++ putU16 e 0x14 ++ bomBytes e ++
      putU32 e fsz) ++ (putU32 e dOff ++ (putU16 e 0x0100 ++ (putU16 e 0 ++ rest)))
      from by simp [hdrB, List.append_assoc],
    readU32_at_of_append e _ _ 0xC 0
      (by simp [sarcMagicB, length_putU16, length_putU32, length_bomBytes]),
    readU32_putU32]

theorem hdrB_read_version (e : Endian) (fsz dOff : Nat) (rest : Bytes) :
    readU16 e (hdrB e fsz dOff ++ rest) 0x10 = some 0x0100 := by
  rw [show hdrB e fsz dOff ++ rest = (sarcMagicB ++ putU16 e 0x14 ++ bomBytes e ++
      putU32 e fsz ++ putU32 e dOff) ++ (putU16 e 0x0100 ++ (putU16 e 0 ++ rest))
      from by simp [hdrB, List.append_assoc],
    readU16_at_of_append e _ _ 0x10 0
      (by simp [sarcMagicB, length_putU16, length_putU32, length_bomBytes]),
    readU16_putU16]
  norm_num

theorem hdrB_read_reserved (e : Endian) (fsz dOff : Nat) (rest : Bytes) :
    readU16 e (hdrB e fsz dOff ++ rest) 0x12 = some 0 := by
  rw [show hdrB e fsz dOff ++ rest = (sarcMagicB ++ putU16 e 0x14 ++ bomBytes e ++
      putU32 e fsz ++ putU32 e dOff ++ putU16 e 0x0100) ++ (putU16 e 0 ++ rest)
      from by simp [hdrB, List.append_assoc],
    readU16_at_of_append e _ _ 0x12 0
      (by simp [sarcMagicB, length_putU16, length_putU32, length_bomBytes]),
    readU16_putU16]
  norm_num

theorem fatHdrB_reads (e : Endian) (n mult : Nat) (pre rest : Bytes)
    (hpre : pre.length = 0x14) :
    readBytesN (pre ++ (fatHdrB e n mult ++ rest)) 0x14 4 = some sfatMagicB ∧
    readU16 e (pre ++ (fatHdrB e n mult ++ rest)) 0x18 = some 0x0C ∧
    readU16 e (pre ++ (fatHdrB e n mult ++ rest)) 0x1A = some (n % 2^16) ∧
    readU32 e (pre ++ (fatHdrB e n mult ++ rest)) 0x1C = some (mult % 2^32) := by
  refine ⟨?_, ?_, ?_, ?_⟩
  · rw [readBytesN_at_of_append pre _ 0x14 4 0 (by omega),
      show fatHdrB e n mult ++ rest = sfatMagicB ++ (putU16 e 0x0C ++ (putU16 e n ++
        (putU32 e mult ++ rest))) from by simp [fatHdrB, List.append_assoc]]
    exact readBytesN_prefix _ _ rfl
  · rw [show pre ++ (fatHdrB e n mult ++ rest) = (pre ++ sfatMagicB) ++ (putU16 e 0x0C ++
        (putU16 e n ++ (putU32 e mult ++ rest))) from by simp [fatHdrB, List.append_assoc],
      readU16_at_of_append e _ _ 0x18 0 (by simp [sfatMagicB]; omega),
      readU16_putU16]
    norm_num
  · rw [show pre ++ (fatHdrB e n mult ++ rest) = (pre ++ sfatMagicB ++ putU16 e 0x0C) ++
        (putU16 e n ++ (putU32 e mult ++ rest)) from by simp [fatHdrB, List.append_assoc],
      readU16_at_of_append e _ _ 0x1A 0
        (by simp [sfatMagicB, length_putU16]; omega),
      readU16_putU16]
  · rw [show pre ++ (fatHdrB e n mult ++ rest) = (pre ++ sfatMagicB ++ putU16 e 0x0C ++
        putU16 e n) ++ (putU32 e mult ++ rest) from by simp [fatHdrB, List.append_assoc],
      readU32_at_of_append e _ _ 0x1C 0
        (by simp [sfatMagicB, length_putU16]; omega),
      readU32_putU32]

theorem fntHdrB_reads (e : Endian) (pre rest : Bytes) :
    readBytesN (pre ++ (fntHdrB e ++ rest)) pre.length 4 = some sfntMagicB ∧
    readU16 e (pre ++ (fntHdrB e ++ rest)) (pre.length + 4) = some 0x8 ∧
    readU16 e (pre ++ (fntHdrB e ++ rest)) (pre.length + 6) = some 0 := by
  refine ⟨?_, ?_, ?_⟩
  · rw [readBytesN_at_of_append pre _ pre.length 4 0 (by omega),
      show fntHdrB e ++ rest = sfntMagicB ++ (putU16 e 0x8 ++ (putU16 e 0 ++ rest))
        from by simp [fntHdrB, List.append_assoc]]
    exact readBytesN_prefix _ _ rfl
  · rw [show pre ++ (fntHdrB e ++ rest) = (pre ++ sfntMagicB) ++ (putU16 e 0x8 ++
        (putU16 e 0 ++ rest)) from by simp [fntHdrB, List.append_assoc],
      readU16_at_of_append e _ _ _ 0 (by simp [sfntMagicB]),
      readU16_putU16]
    norm_num
  · rw [show pre ++ (fntHdrB e ++ rest) = (pre ++ sfntMagicB ++ putU16 e 0x8) ++
        (putU16 e 0 ++ rest) from by simp [fntHdrB, List.append_assoc],
      readU16_at_of_append e _ _ _ 0 (by simp [sfntMagicB, length_putU16]),
      readU16_putU16]
    norm_num

/-! ## Alignment facts of the emitted FAT entries -/

theorem entsSpec_begin (factory : List Bytes) (legacy : Bool) (amap : List (Bytes × Nat))
    (minA : Nat) (e : Endian) (mult : Nat) (fs : List (Bytes × Bytes)) :
    ∀ rd rs,
    (∀ nd ∈ fs, ∃ k, k ≤ 30 ∧ getAlignmentForFile factory legacy amap minA e nd.1 nd.2 = 2^k) →
    rd + (fs.map (fun nd => nd.2.length + 2^30)).sum ≤ 2^62 →
    ∀ i, i < fs.length →
      ((entsSpec factory legacy amap minA e mult fs rd rs).getD i dfltEntry).align =
        getAlignmentForFile factory legacy amap minA e (fs.getD i dfltFile).1
          (fs.getD i dfltFile).2 ∧
      ((entsSpec factory legacy amap minA e mult fs rd rs).getD i dfltEntry).align ∣
        ((entsSpec factory legacy amap minA e mult fs rd rs).getD i dfltEntry).dBegin ∧
      ((entsSpec factory legacy amap minA e mult fs rd rs).getD i dfltEntry).dEnd =
        ((entsSpec factory legacy amap minA e mult fs rd rs).getD i dfltEntry).dBegin +
          (fs.getD i dfltFile).2.length := by
  induction fs with
  | nil => intro rd rs _ _ i hi; exact absurd hi (by simp)
  | cons nd t ih =>
    intro rd rs hal hb i hi
    obtain ⟨k, hk, hak⟩ := hal nd (by simp)
    have hk64 : k ≤ 64 := by omega
    have h2k30 : (2:Nat)^k ≤ 2^30 := Nat.pow_le_pow_right (by norm_num) hk
    have hbh : rd + (nd.2.length + 2^30 + (t.map (fun nd => nd.2.length + 2^30)).sum) ≤
        2^62 := by simpa using hb
    have hbound1 : rd + 2^k ≤ 2^64 := by
      have : (2:Nat)^62 ≤ 2^64 := by norm_num
      omega
    cases i with
    | zero =>
      refine ⟨by simp [entsSpec], ?_, by simp [entsSpec]⟩
      have hz : ((entsSpec factory legacy amap minA e mult (nd :: t) rd rs).getD 0
          dfltEntry).align = getAlignmentForFile factory legacy amap minA e nd.1 nd.2 := by
        simp [entsSpec]
      have hz2 : ((entsSpec factory legacy amap minA e mult (nd :: t) rd rs).getD 0
          dfltEntry).dBegin =
          alignUp rd (getAlignmentForFile factory legacy amap minA e nd.1 nd.2) := by
        simp [entsSpec]
      rw [hz, hz2, hak]
      exact alignUp_pow2_dvd rd k hk64 hbound1
    | succ j =>
      have hj : j < t.length := by simpa using hi
      have hlt : alignUp rd (getAlignmentForFile factory legacy amap minA e nd.1 nd.2) <
          rd + 2^30 := by
        rw [hak]
        have := alignUp_pow2_lt rd k hk64 hbound1
        omega
      have hs : ∀ E : EntryL,
          (entsSpec factory legacy amap minA e mult (nd :: t) rd rs).getD (j + 1) E =
          (entsSpec factory legacy amap minA e mult t
            (alignUp rd (getAlignmentForFile factory legacy amap minA e nd.1 nd.2) +
              nd.2.length) ((rs + alignUp (nd.1.length + 1) 4) % 2^32)).getD j E := by
        intro E
        simp [entsSpec]
      rw [hs, show ((nd :: t).getD (j + 1) dfltFile) = t.getD j dfltFile from rfl]
      exact ih _ _ (fun x hx => hal x (by simp [hx])) (by omega) j hj

/-- C2 (amended): in every serialized archive whose resolved alignments are all
powers of two (with sizes in range), the recorded `data_offset` plus each
entry's `data_begin` is an exact multiple of that file's resolved alignment,
and the alignment passes `is_valid_alignment`.  The claim's "for every writer
configuration" fails: a Big-endian BFLIM payload can resolve to the non
power-of-two alignment 6 (see the counterexample). -/
theorem claim_C2_alignment (agl : List (Bytes × Nat)) (factory : List Bytes) (w : SarcWriter)
    (hal : ∀ nd ∈ sortByHash w.hashMultiplier w.files, ∃ k, k ≤ 30 ∧
      resolvedAlignment agl factory w nd.1 nd.2 = 2^k)
    (hsz : 0x28 + 16 * (sortByHash w.hashMultiplier w.files).length +
      ((sortByHash w.hashMultiplier w.files).map (fun nd => nd.1.length + 4)).sum +
      ((sortByHash w.hashMultiplier w.files).map (fun nd => nd.2.length + 2^30)).sum ≤ 2^62)
    (h32 : fileSizeOf factory w.legacy (addDefaultAlignments agl w.endian w.alignmentMap)
      w.minAlignment w.endian w.hashMultiplier (sortByHash w.hashMultiplier w.files) < 2^32)
    (i : Nat) (hi : i < (sortByHash w.hashMultiplier w.files).length) :
    ∃ dOff dBegin,
      readU32 w.endian (w.write agl factory).1 0xC = some dOff ∧
      readU32 w.endian (w.write agl factory).1 (0x20 + 16 * i + 8) = some dBegin ∧
      (dOff + dBegin) %
        resolvedAlignment agl factory w
          ((sortByHash w.hashMultiplier w.files).getD i dfltFile).1
          ((sortByHash w.hashMultiplier w.files).getD i dfltFile).2 = 0 ∧
      isValidAlignment (resolvedAlignment agl factory w
        ((sortByHash w.hashMultiplier w.files).getD i dfltFile).1
        ((sortByHash w.hashMultiplier w.files).getD i dfltFile).2) = true := by
  have hout : (w.write agl factory).1 = writeCore factory w.legacy
      (addDefaultAlignments agl w.endian w.alignmentMap) w.minAlignment w.endian
      w.hashMultiplier (sortByHash w.hashMultiplier w.files) := rfl
  obtain ⟨⟨tail, hstruct⟩, -, -, -⟩ := writeCore_structure factory w.legacy
    (addDefaultAlignments agl w.endian w.alignmentMap) w.minAlignment w.endian
    w.hashMultiplier (sortByHash w.hashMultiplier w.files) hal hsz
  obtain ⟨K, hK, -, -, -, -, hdvd, -, -, -, -, -⟩ := c6Of_facts factory w.legacy
    (addDefaultAlignments agl w.endian w.alignmentMap) w.minAlignment w.endian
    w.hashMultiplier (sortByHash w.hashMultiplier w.files) hal hsz
  obtain ⟨kk, hkk, hakk⟩ := hal ((sortByHash w.hashMultiplier w.files).getD i dfltFile)
    (by rw [List.getD_eq_getElem _ dfltFile hi]; exact List.getElem_mem hi)
  obtain ⟨hba, hbd, hbe⟩ := entsSpec_begin factory w.legacy
    (addDefaultAlignments agl w.endian w.alignmentMap) w.minAlignment w.endian
    w.hashMultiplier (sortByHash w.hashMultiplier w.files) 0 0 hal (by omega) i hi
  obtain ⟨-, hend2, hend3⟩ := entsSpec_endRd factory w.legacy
    (addDefaultAlignments agl w.endian w.alignmentMap) w.minAlignment w.endian
    w.hashMultiplier (sortByHash w.hashMultiplier w.files) 0 0 hal (by omega)
  have hstruct2 : writeCore factory w.legacy
      (addDefaultAlignments agl w.endian w.alignmentMap) w.minAlignment w.endian
      w.hashMultiplier (sortByHash w.hashMultiplier w.files) =
      (hdrB w.endian
        (fileSizeOf factory w.legacy (addDefaultAlignments agl w.endian w.alignmentMap)
          w.minAlignment w.endian w.hashMultiplier (sortByHash w.hashMultiplier w.files))
        (dOffOf factory w.legacy (addDefaultAlignments agl w.endian w.alignmentMap)
          w.minAlignment w.endian w.hashMultiplier (sortByHash w.hashMultiplier w.files)) ++
        fatHdrB w.endian (sortByHash w.hashMultiplier w.files).length w.hashMultiplier) ++
      (((entsOf factory w.legacy (addDefaultAlignments agl w.endian w.alignmentMap)
          w.minAlignment w.endian w.hashMultiplier
          (sortByHash w.hashMultiplier w.files)).map (entryBytes w.endian)).flatten ++
        (fntHdrB w.endian ++ tail)) := by
    rw [hstruct]
    simp [List.append_assoc]
  have hprelen : (hdrB w.endian
      (fileSizeOf factory w.legacy (addDefaultAlignments agl w.endian w.alignmentMap)
        w.minAlignment w.endian w.hashMultiplier (sortByHash w.hashMultiplier w.files))
      (dOffOf factory w.legacy (addDefaultAlignments agl w.endian w.alignmentMap)
        w.minAlignment w.endian w.hashMultiplier (sortByHash w.hashMultiplier w.files)) ++
      fatHdrB w.endian (sortByHash w.hashMultiplier w.files).length
        w.hashMultiplier).length = 0x20 := by
    rw [List.length_append, length_hdrB]
    simp [fatHdrB, sfatMagicB, length_putU16, length_putU32]
  have hexi : i < (entsOf factory w.legacy (addDefaultAlignments agl w.endian w.alignmentMap)
      w.minAlignment w.endian w.hashMultiplier
      (sortByHash w.hashMultiplier w.files)).length := by
    unfold entsOf
    rw [entsSpec_length]
    omega
  obtain ⟨-, -, rc, -⟩ := ents_read w.endian
    (entsOf factory w.legacy (addDefaultAlignments agl w.endian w.alignmentMap)
      w.minAlignment w.endian w.hashMultiplier (sortByHash w.hashMultiplier w.files))
    (hdrB w.endian
      (fileSizeOf factory w.legacy (addDefaultAlignments agl w.endian w.alignmentMap)
        w.minAlignment w.endian w.hashMultiplier (sortByHash w.hashMultiplier w.files))
      (dOffOf factory w.legacy (addDefaultAlignments agl w.endian w.alignmentMap)
        w.minAlignment w.endian w.hashMultiplier (sortByHash w.hashMultiplier w.files)) ++
      fatHdrB w.endian (sortByHash w.hashMultiplier w.files).length w.hashMultiplier)
    (fntHdrB w.endian ++ tail) i hexi
  rw [hprelen] at rc
  have hdOlt : dOffOf factory w.legacy (addDefaultAlignments agl w.endian w.alignmentMap)
      w.minAlignment w.endian w.hashMultiplier (sortByHash w.hashMultiplier w.files) <
      2^32 := by
    have : dOffOf factory w.legacy (addDefaultAlignments agl w.endian w.alignmentMap)
        w.minAlignment w.endian w.hashMultiplier (sortByHash w.hashMultiplier w.files) ≤
        fileSizeOf factory w.legacy (addDefaultAlignments agl w.endian w.alignmentMap)
          w.minAlignment w.endian w.hashMultiplier (sortByHash w.hashMultiplier w.files) :=
      Nat.le_add_right _ _
    omega
  have hbeglt : ((entsOf factory w.legacy (addDefaultAlignments agl w.endian w.alignmentMap)
      w.minAlignment w.endian w.hashMultiplier
      (sortByHash w.hashMultiplier w.files)).getD i dfltEntry).dBegin < 2^32 := by
    have h1 := hend3 i hi
    have h2 : endRd 0 (entsSpec factory w.legacy
        (addDefaultAlignments agl w.endian w.alignmentMap) w.minAlignment w.endian
        w.hashMultiplier (sortByHash w.hashMultiplier w.files) 0 0) ≤
        fileSizeOf factory w.legacy (addDefaultAlignments agl w.endian w.alignmentMap)
          w.minAlignment w.endian w.hashMultiplier (sortByHash w.hashMultiplier w.files) :=
      Nat.le_add_left _ _
    show ((entsSpec factory w.legacy (addDefaultAlignments agl w.endian w.alignmentMap)
      w.minAlignment w.endian w.hashMultiplier
      (sortByHash w.hashMultiplier w.files) 0 0).getD i dfltEntry).dBegin < 2^32
    omega
  refine ⟨dOffOf factory w.legacy (addDefaultAlignments agl w.endian w.alignmentMap)
      w.minAlignment w.endian w.hashMultiplier (sortByHash w.hashMultiplier w.files),
    ((entsOf factory w.legacy (addDefaultAlignments agl w.endian w.alignmentMap)
      w.minAlignment w.endian w.hashMultiplier
      (sortByHash w.hashMultiplier w.files)).getD i dfltEntry).dBegin, ?_, ?_, ?_, ?_⟩
  · rw [hout, hstruct]
    rw [hdrB_read_dOff, Nat.mod_eq_of_lt hdOlt]
  · rw [hout, hstruct2, rc, Nat.mod_eq_of_lt hbeglt]
  · have hdd : resolvedAlignment agl factory w
        ((sortByHash w.hashMultiplier w.files).getD i dfltFile).1
        ((sortByHash w.hashMultiplier w.files).getD i dfltFile).2 ∣
        dOffOf factory w.legacy (addDefaultAlignments agl w.endian w.alignmentMap)
          w.minAlignment w.endian w.hashMultiplier (sortByHash w.hashMultiplier w.files) +
        ((entsOf factory w.legacy (addDefaultAlignments agl w.endian w.alignmentMap)
          w.minAlignment w.endian w.hashMultiplier
          (sortByHash w.hashMultiplier w.files)).getD i dfltEntry).dBegin := by
      refine Nat.dvd_add ?_ ?_
      · exact hdvd ((sortByHash w.hashMultiplier w.files).getD i dfltFile)
          (by rw [List.getD_eq_getElem _ dfltFile hi]; exact List.getElem_mem hi)
      · show getAlignmentForFile factory w.legacy
            (addDefaultAlignments agl w.endian w.alignmentMap) w.minAlignment w.endian
            ((sortByHash w.hashMultiplier w.files).getD i dfltFile).1
            ((sortByHash w.hashMultiplier w.files).getD i dfltFile).2 ∣
          ((entsSpec factory w.legacy (addDefaultAlignments agl w.endian w.alignmentMap)
            w.minAlignment w.endian w.hashMultiplier
            (sortByHash w.hashMultiplier w.files) 0 0).getD i dfltEntry).dBegin
        rw [← hba]
        exact hbd
    obtain ⟨c, hc⟩ := hdd
    rw [hc]
    exact Nat.mul_mod_right _ _
  · rw [hakk]
    exact isValidAlignment_two_pow kk

theorem claim_C2_alignment_witness :
    ∃ dOff dBegin,
      readU32 w6a.endian (w6a.write [] []).1 0xC = some dOff ∧
      readU32 w6a.endian (w6a.write [] []).1 (0x20 + 16 * 0 + 8) = some dBegin ∧
      (dOff + dBegin) % resolvedAlignment [] [] w6a
        ((sortByHash w6a.hashMultiplier w6a.files).getD 0 dfltFile).1
        ((sortByHash w6a.hashMultiplier w6a.files).getD 0 dfltFile).2 = 0 ∧
      isValidAlignment (resolvedAlignment [] [] w6a
        ((sortByHash w6a.hashMultiplier w6a.files).getD 0 dfltFile).1
        ((sortByHash w6a.hashMultiplier w6a.files).getD 0 dfltFile).2) = true :=
  claim_C2_alignment [] [] w6a
    (by intro nd hnd
        have hfs : sortByHash w6a.hashMultiplier w6a.files =
            [([97], [104]), ([98], [105])] := by decide
        rw [hfs] at hnd
        simp only [List.mem_cons, List.not_mem_nil, or_false] at hnd
        rcases hnd with rfl | rfl <;> exact ⟨2, by norm_num, by decide⟩)
    (by decide) (by decide) 0 (by decide)

/-! ## Lookup safety on opened archives -/

theorem readU32_none (e : Endian) (d : Bytes) (p : Nat) (h : d.length < p + 4) :
    readU32 e d p = none := by
  unfold readU32
  have h3 : d[p+3]? = none := List.getElem?_eq_none (by omega)
  rw [h3]
  rcases d[p]? with - | a <;> rcases d[p+1]? with - | b <;> rcases d[p+2]? with - | c <;> rfl

theorem fileAt_no_panik {data : Bytes} {s : Sarc} (h : parseSarc data = Except.ok s)
    (hin : ∀ i, i < s.numFiles → entryInBounds s i = true) (idx : Nat) :
    s.fileAt idx ≠ PRes.panik := by
  obtain ⟨hdata, hEO, hNO, hNF, hND, hlen6⟩ := parseSarc_ok h
  unfold Sarc.fileAt
  by_cases hidx : s.numFiles ≤ idx
  · rw [if_pos hidx]
    simp
  · rw [if_neg hidx]
    push_neg at hidx
    rw [hdata, hEO]
    simp only []
    have hdlen : 0x20 + 0x10 * s.numFiles + 8 ≤ data.length := hlen6
    obtain ⟨v1, hv1⟩ := readU32_isSome s.endian
      (show 0x20 + 0x10 * idx + 4 ≤ data.length by omega)
    obtain ⟨v2, hv2⟩ := readU32_isSome s.endian
      (show 0x20 + 0x10 * idx + 4 + 4 ≤ data.length by omega)
    obtain ⟨v3, hv3⟩ := readU32_isSome s.endian
      (show 0x20 + 0x10 * idx + 8 + 4 ≤ data.length by omega)
    obtain ⟨v4, hv4⟩ := readU32_isSome s.endian
      (show 0x20 + 0x10 * idx + 12 + 4 ≤ data.length by omega)
    have hB := hin idx hidx
    unfold entryInBounds at hB
    rw [hdata, hEO] at hB
    simp only [] at hB
    rw [hv2, hv3, hv4] at hB
    simp only [Bool.and_eq_true, Bool.or_eq_true, beq_iff_eq, decide_eq_true_eq] at hB
    obtain ⟨hBn, hBd1, hBd2⟩ := hB
    rw [if_neg (show ¬ (data.length < 0x20 + 0x10 * idx) by omega), hv1, hv2, hv3, hv4]
    simp only []
    split
    · next nm heq =>
      rw [if_neg (show ¬ ((s.dataOffset + v4) % 2^32 < (s.dataOffset + v3) % 2^32 ∨
          data.length < (s.dataOffset + v4) % 2^32) by omega)]
      simp
    · simp
    · next heq =>
      exfalso
      revert heq
      split
      · next hrel =>
        rw [if_neg (show ¬ (data.length < s.namesOffset + v2 % 2^24 * 4) by
            rcases hBn with h0 | hb
            · exact absurd h0 hrel
            · omega)]
        split
        · simp
        · split <;> simp
      · simp

theorem getFileLoop_no_panik {data : Bytes} {s : Sarc} (h : parseSarc data = Except.ok s)
    (hin : ∀ i, i < s.numFiles → entryInBounds s i = true)
    (hlen : data.length ≤ 2^32) (needle : Nat) :
    ∀ fuel a b, b < s.numFiles → a ≤ b + 1 → 1 ≤ fuel →
      (a ≤ b → b - a + 2 ≤ fuel) →
      getFileLoop s needle fuel a b ≠ PRes.panik := by
  obtain ⟨hdata, hEO, hNO, hNF, hND, hlen6⟩ := parseSarc_ok h
  intro fuel
  induction fuel with
  | zero => intro a b _ _ hf _; omega
  | succ f ih =>
    intro a b hb hab hf1 hfc
    by_cases hba : b < a
    · simp only [getFileLoop]
      rw [if_pos hba]
      simp
    · have hf : b - a + 2 ≤ f + 1 := hfc (by omega)
      simp only [getFileLoop]
      rw [if_neg hba]
      have habLT : a + b < 2^32 := by
        have h14 : (0x4000:Nat) + 0x4000 < 2^32 := by norm_num
        omega
      have hm : (a + b) % 2^32 = a + b := Nat.mod_eq_of_lt habLT
      rw [hdata, hEO, hm]
      have hmb : (a + b) / 2 ≤ b := by omega
      have hma : a ≤ (a + b) / 2 := by omega
      obtain ⟨hsh, hhsh⟩ := readU32_isSome s.endian
        (show 0x20 + 0x10 * ((a + b) / 2) + 4 ≤ data.length by omega)
      rw [hhsh]
      simp only []
      by_cases hc1 : needle < hsh
      · rw [if_pos hc1]
        by_cases hm0 : (a + b) / 2 = 0
        · have ha0 : a = 0 := by omega
          rw [show ((a + b) / 2 + (2^32 - 1)) % 2^32 = 2^32 - 1 from by
            rw [hm0]
            norm_num]
          have hf1 : 1 ≤ f := by omega
          rcases f with - | f2
          · omega
          · simp only [getFileLoop]
            rw [if_neg (show ¬ ((2:Nat)^32 - 1 < a) by omega)]
            rw [hdata, hEO]
            rw [show (a + (2^32 - 1)) % 2^32 = 2^32 - 1 from by
              rw [ha0]
              norm_num]
            rw [readU32_none s.endian data _ (by omega)]
            simp
        · rw [show ((a + b) / 2 + (2^32 - 1)) % 2^32 = (a + b) / 2 - 1 from by
            rw [show (a + b) / 2 + (2^32 - 1) = ((a + b) / 2 - 1) + 1 * 2^32 from by omega,
              Nat.add_mul_mod_self_right]
            exact Nat.mod_eq_of_lt (by omega)]
          have hlt : (a + b) / 2 - 1 < s.numFiles := by omega
          have hle : a ≤ (a + b) / 2 - 1 + 1 := by omega
          have hfge : 1 ≤ f := by omega
          have hstep : a ≤ (a + b) / 2 - 1 → (a + b) / 2 - 1 - a + 2 ≤ f := by omega
          exact ih a ((a + b) / 2 - 1) hlt hle hfge hstep
      · rw [if_neg hc1]
        by_cases hc2 : hsh < needle
        · rw [if_pos hc2]
          rw [show ((a + b) / 2 + 1) % 2^32 = (a + b) / 2 + 1 from
            Nat.mod_eq_of_lt (by omega)]
          have hle2 : (a + b) / 2 + 1 ≤ b + 1 := by omega
          have hfge2 : 1 ≤ f := by omega
          have hstep2 : (a + b) / 2 + 1 ≤ b → b - ((a + b) / 2 + 1) + 2 ≤ f := by omega
          exact ih ((a + b) / 2 + 1) b hb hle2 hfge2 hstep2
        · rw [if_neg hc2]
          have hfa := fileAt_no_panik h hin ((a + b) / 2)
          rcases hres : s.fileAt ((a + b) / 2) with fl | er
          · simp
          · simp
          · exact absurd hres hfa

/-- C7 (amended): on a successfully opened archive whose FAT entries all pass
the in-bounds checks (name offset and wrapped payload bounds inside the
buffer) and whose buffer fits in 2^32 bytes, `file_at` and `get_file` never
panic: every failure is an error value.  The claim's "whatever the values of
its FAT entries and name-table offsets" fails: an out-of-range
`rel_name_opt_offset` makes `file_at` index past the buffer and panic
(see the counterexample). -/
theorem claim_C7_no_panic (data : Bytes) (s : Sarc) (h : parseSarc data = Except.ok s)
    (hin : ∀ i, i < s.numFiles → entryInBounds s i = true)
    (hlen : data.length ≤ 2^32) :
    (∀ idx, s.fileAt idx ≠ PRes.panik) ∧ (∀ name, s.getFile name ≠ PRes.panik) := by
  refine ⟨fileAt_no_panik h hin, ?_⟩
  intro name
  unfold Sarc.getFile
  by_cases h0 : s.numFiles = 0
  · rw [if_pos h0]
    simp
  · rw [if_neg h0]
    exact getFileLoop_no_panik h hin hlen _ (s.numFiles + 2) 0 (s.numFiles - 1)
      (by omega) (by omega) (by omega) (fun _ => by omega)

theorem claim_C7_no_panic_witness :
    parseSarc arch3 = Except.ok sarc3 ∧
    ((∀ idx, sarc3.fileAt idx ≠ PRes.panik) ∧
     (∀ name, sarc3.getFile name ≠ PRes.panik)) :=
  ⟨by decide, claim_C7_no_panic arch3 sarc3 (by decide) (by decide) (by decide)⟩

/-! ## What `from_sarc` keeps -/

theorem imInsert_not_mem (m : List (Bytes × Bytes)) (k v : Bytes)
    (h : ∀ p ∈ m, p.1 ≠ k) : imInsert m k v = m ++ [(k, v)] := by
  induction m with
  | nil => rfl
  | cons q t ih =>
    unfold imInsert
    rw [if_neg (h q (by simp)), ih (fun p hp => h p (by simp [hp]))]
    rfl

theorem foldl_imInsert_append (l : List (Bytes × Bytes)) :
    ∀ acc, (∀ p ∈ acc, ∀ q ∈ l, p.1 ≠ q.1) →
    l.Pairwise (fun p q => p.1 ≠ q.1) →
    l.foldl (fun m p => imInsert m p.1 p.2) acc = acc ++ l := by
  induction l with
  | nil => intro acc _ _; simp
  | cons q t ih =>
    intro acc hacc hdist
    rw [List.pairwise_cons] at hdist
    rw [List.foldl_cons, imInsert_not_mem acc q.1 q.2
      (fun p hp => hacc p hp q (by simp))]
    rw [ih (acc ++ [q]) ?hnew hdist.2]
    · simp
    · intro p hp r hr
      rcases List.mem_append.1 hp with hp1 | hp2
      · exact hacc p hp1 r (by simp [hr])
      · rw [List.mem_singleton.1 hp2]
        exact hdist.1 r hr

/-- C10 (amended): when the reader's file iteration and alignment guess both
succeed, `from_sarc` produces a writer whose file map holds, in reader order,
exactly the name-data pairs of the entries `file_at` returned with a name
(assuming those names are distinct, as `IndexMap` keys); nameless entries are
omitted, and the hash multiplier is reset to 0x65 whatever the archive
stored.  The claim's "exactly the reader's entries that have a name" also
fails for another reason: entries whose `file_at` errors (e.g. an invalid
UTF-8 name) are silently dropped by `.ok()` as well (see the
counterexample). -/
theorem claim_C10_from_sarc (s : Sarc) (fl : List SFile) (g : Nat)
    (hf : s.filesList = PRes.ok fl) (hg : s.guessMinAlignment = some g)
    (hdist : (fl.filterMap (fun f => f.name.map (fun n => (n, f.data)))).Pairwise
      (fun p q => p.1 ≠ q.1)) :
    SarcWriter.fromSarc s = some
      { endian := s.endian, legacy := false, hashMultiplier := 0x65,
        alignmentMap := [],
        files := fl.filterMap (fun f => f.name.map (fun n => (n, f.data))),
        minAlignment := g } := by
  unfold SarcWriter.fromSarc
  rw [hf, hg]
  simp only [Option.some.injEq]
  rw [foldl_imInsert_append _ [] (by simp) hdist]
  simp

theorem claim_C10_from_sarc_witness :
    sarc1.filesList = PRes.ok [⟨none, [9, 9, 9, 9]⟩] ∧
    sarc1.guessMinAlignment = some 4 ∧
    SarcWriter.fromSarc sarc1 = some
      { endian := sarc1.endian, legacy := false, hashMultiplier := 0x65,
        alignmentMap := [],
        files := ([⟨none, [9, 9, 9, 9]⟩] : List SFile).filterMap
          (fun f => f.name.map (fun n => (n, f.data))),
        minAlignment := 4 } :=
  ⟨by decide, by decide,
   claim_C10_from_sarc sarc1 [⟨none, [9, 9, 9, 9]⟩] 4 (by decide) (by decide) (by decide)⟩

/-! ## Parsing the writer's own output -/

theorem hdrB_read_bom_same (e : Endian) (fsz dOff : Nat) (rest : Bytes) :
    readU16 e (hdrB e fsz dOff ++ rest) 6 = some 0xFEFF := by
  rw [show hdrB e fsz dOff ++ rest = (sarcMagicB ++ putU16 e 0x14) ++ (bomBytes e ++
      (putU32 e fsz ++ (putU32 e dOff ++ (putU16 e 0x0100 ++ (putU16 e 0 ++ rest)))))
      from by simp [hdrB, List.append_assoc],
    readU16_at_of_append _ _ _ 6 0 (by simp [sarcMagicB, length_putU16])]
  cases e <;>
    simp only [bomBytes, List.cons_append, List.nil_append, readU16_cons_zero] <;>
    norm_num

theorem parseAfterBom_writeCore (factory : List Bytes) (legacy : Bool)
    (map1 : List (Bytes × Nat)) (minA : Nat) (e : Endian) (mult : Nat)
    (fs : List (Bytes × Bytes))
    (hal : ∀ nd ∈ fs, ∃ k, k ≤ 30 ∧
      getAlignmentForFile factory legacy map1 minA e nd.1 nd.2 = 2^k)
    (hsz : 0x28 + 16 * fs.length + (fs.map (fun nd => nd.1.length + 4)).sum +
      (fs.map (fun nd => nd.2.length + 2^30)).sum ≤ 2^62)
    (hn : fs.length < 0x4000)
    (h32 : fileSizeOf factory legacy map1 minA e mult fs < 2^32)
    (hmult : mult < 2^32) :
    parseAfterBom e (writeCore factory legacy map1 minA e mult fs) =
      Except.ok ⟨fs.length, 0x20, mult, dOffOf factory legacy map1 minA e mult fs,
        0x20 + 0x10 * fs.length + 8, e, writeCore factory legacy map1 minA e mult fs⟩ := by
  obtain ⟨⟨tail, hstruct⟩, -, -, -⟩ := writeCore_structure factory legacy map1 minA e mult
    fs hal hsz
  obtain ⟨K, hK, -, -, hnele, -, -, -, -, -, -, -⟩ := c6Of_facts factory legacy map1 minA
    e mult fs hal hsz
  have hdOle : dOffOf factory legacy map1 minA e mult fs ≤
      fileSizeOf factory legacy map1 minA e mult fs := Nat.le_add_right _ _
  have hNE40 : 0x28 + 16 * fs.length ≤ namesEndOf fs := by
    unfold namesEndOf
    omega
  unfold parseAfterBom readResHeader
  rw [hstruct, hdrB_read_magic, hdrB_read_hsize, hdrB_read_bom_same, hdrB_read_fsz,
    hdrB_read_dOff, hdrB_read_version, hdrB_read_reserved,
    Nat.mod_eq_of_lt (show dOffOf factory legacy map1 minA e mult fs < 2^32 by omega)]
  simp only []
  rw [if_pos (show (0xFEFF:Nat) = 0xFFFE ∨ True from Or.inr trivial)]
  simp only []
  rw [if_neg (by simp : ¬ (sarcMagicB ≠ sarcMagicB)),
    if_neg (by norm_num : ¬ ((0x0100:Nat) ≠ 0x0100)),
    if_neg (by norm_num : ¬ ((0x14:Nat) ≠ 0x14))]
  unfold parseFat readResFatHeader
  obtain ⟨f1, f2, f3, f4⟩ := fatHdrB_reads e fs.length mult
    (hdrB e (fileSizeOf factory legacy map1 minA e mult fs)
      (dOffOf factory legacy map1 minA e mult fs))
    (((entsOf factory legacy map1 minA e mult fs).map (entryBytes e)).flatten ++
      (fntHdrB e ++ tail))
    (length_hdrB e _ _)
  rw [f1, f2, f3, f4, Nat.mod_eq_of_lt (show fs.length < 2^16 by omega),
    Nat.mod_eq_of_lt hmult]
  simp only []
  rw [if_neg (by simp : ¬ (sfatMagicB ≠ sfatMagicB)),
    if_neg (by norm_num : ¬ ((0x0C:Nat) ≠ 0x0C)),
    if_neg (show ¬ (fs.length >>> 0xE ≠ 0) by
      rw [Nat.shiftRight_eq_div_pow]
      simp only [ne_eq, not_not]
      apply Nat.div_eq_of_lt
      norm_num at hn ⊢
      omega)]
  unfold parseFnt readResFntHeader
  have hstruct3 : hdrB e (fileSizeOf factory legacy map1 minA e mult fs)
      (dOffOf factory legacy map1 minA e mult fs) ++
      (fatHdrB e fs.length mult ++
      (((entsOf factory legacy map1 minA e mult fs).map (entryBytes e)).flatten ++
      (fntHdrB e ++ tail))) =
      (hdrB e (fileSizeOf factory legacy map1 minA e mult fs)
        (dOffOf factory legacy map1 minA e mult fs) ++
       (fatHdrB e fs.length mult ++
        ((entsOf factory legacy map1 minA e mult fs).map (entryBytes e)).flatten)) ++
      (fntHdrB e ++ tail) := by
    simp [List.append_assoc]
  have hlenP3 : (hdrB e (fileSizeOf factory legacy map1 minA e mult fs)
      (dOffOf factory legacy map1 minA e mult fs) ++
      (fatHdrB e fs.length mult ++
        ((entsOf factory legacy map1 minA e mult fs).map (entryBytes e)).flatten)).length =
      0x20 + 0x10 * fs.length := by
    rw [List.length_append, List.length_append, length_hdrB, length_entsFlatten]
    have : (fatHdrB e fs.length mult).length = 12 := by
      simp [fatHdrB, sfatMagicB, length_putU16, length_putU32]
    rw [this]
    unfold entsOf
    rw [entsSpec_length]
    omega
  obtain ⟨g1, g2, g3⟩ := fntHdrB_reads e
    (hdrB e (fileSizeOf factory legacy map1 minA e mult fs)
      (dOffOf factory legacy map1 minA e mult fs) ++
     (fatHdrB e fs.length mult ++
      ((entsOf factory legacy map1 minA e mult fs).map (entryBytes e)).flatten))
    tail
  rw [hlenP3] at g1 g2 g3
  rw [hstruct3]
  simp only []
  rw [g1, g2, g3]
  simp only []
  rw [if_neg (by simp : ¬ (sfntMagicB ≠ sfntMagicB)),
    if_neg (by norm_num : ¬ ((0x08:Nat) ≠ 0x08)),
    if_neg (show ¬ (dOffOf factory legacy map1 minA e mult fs <
        0x20 + 0x10 * fs.length + 8) by omega)]

theorem parse_writeCore (factory : List Bytes) (legacy : Bool)
    (map1 : List (Bytes × Nat)) (minA : Nat) (e : Endian) (mult : Nat)
    (fs : List (Bytes × Bytes))
    (hal : ∀ nd ∈ fs, ∃ k, k ≤ 30 ∧
      getAlignmentForFile factory legacy map1 minA e nd.1 nd.2 = 2^k)
    (hsz : 0x28 + 16 * fs.length + (fs.map (fun nd => nd.1.length + 4)).sum +
      (fs.map (fun nd => nd.2.length + 2^30)).sum ≤ 2^62)
    (hn : fs.length < 0x4000)
    (h32 : fileSizeOf factory legacy map1 minA e mult fs < 2^32)
    (hmult : mult < 2^32) :
    parseSarc (writeCore factory legacy map1 minA e mult fs) =
      Except.ok ⟨fs.length, 0x20, mult, dOffOf factory legacy map1 minA e mult fs,
        0x20 + 0x10 * fs.length + 8, e, writeCore factory legacy map1 minA e mult fs⟩ := by
  obtain ⟨⟨tail, hstruct⟩, -, -, -⟩ := writeCore_structure factory legacy map1 minA e mult
    fs hal hsz
  unfold parseSarc
  cases e
  · rw [show readU16 Endian.little (writeCore factory legacy map1 minA .big mult fs) 6 =
        some 0xFFFE from by rw [hstruct]; exact hdrB_read_bom .big _ _ _]
    simp only []
    rw [if_pos (show True ∨ (0xFFFE:Nat) = 0xFEFF from Or.inl trivial),
      if_pos (show True from trivial)]
    exact parseAfterBom_writeCore factory legacy map1 minA .big mult fs hal hsz hn h32 hmult
  · rw [show readU16 Endian.little (writeCore factory legacy map1 minA .little mult fs) 6 =
        some 0xFEFF from by rw [hstruct]; exact hdrB_read_bom .little _ _ _]
    simp only []
    rw [if_pos (show (0xFEFF:Nat) = 0xFFFE ∨ True from Or.inr trivial),
      if_neg (by norm_num : ¬ ((0xFEFF:Nat) = 0xFFFE))]
    exact parseAfterBom_writeCore factory legacy map1 minA .little mult fs hal hsz hn h32 hmult

theorem lor_two_pow_add {k x : Nat} (h : x < 2^k) : Nat.lor (2^k) x = 2^k + x := by
  apply Nat.eq_of_testBit_eq
  intro i
  show ((2^k) ||| x).testBit i = (2^k + x).testBit i
  rw [Nat.testBit_lor]
  rcases lt_trichotomy i k with hik | rfl | hik
  · rw [Nat.testBit_two_pow_of_ne (by omega), Nat.testBit_two_pow_add_gt hik, Bool.false_or]
  · rw [Nat.testBit_two_pow_self, Nat.testBit_two_pow_add_eq, Nat.testBit_lt_two_pow h,
      Bool.true_or]
    rfl
  · have h2 : (2:Nat)^k + x < 2^i := by
      have : (2:Nat)^(k+1) ≤ 2^i := Nat.pow_le_pow_right (by norm_num) (by omega)
      have : (2:Nat)^(k+1) = 2^k + 2^k := by ring
      omega
    rw [Nat.testBit_two_pow_of_ne (by omega), Bool.false_or,
      Nat.testBit_lt_two_pow h2, Nat.testBit_lt_two_pow (by omega)]

theorem nameSz_dvd4 (nm : Bytes) (h : nm.length + 5 ≤ 2^64) : 4 ∣ nameSz nm := by
  unfold nameSz
  rw [show (4:Nat) = 2^2 from rfl]
  exact alignUp_pow2_dvd _ 2 (by norm_num) (by omega)

theorem sum_take_le_sum (l : List Nat) (i : Nat) : (l.take i).sum ≤ l.sum := by
  have h : (l.take i).sum + (l.drop i).sum = l.sum := by
    rw [← List.sum_append, List.take_append_drop]
  omega

theorem fileAt_writeCore (factory : List Bytes) (legacy : Bool) (map1 : List (Bytes × Nat))
    (minA : Nat) (e : Endian) (mult : Nat) (fs : List (Bytes × Bytes)) (s : Sarc)
    (hal : ∀ nd ∈ fs, ∃ k, k ≤ 30 ∧
      getAlignmentForFile factory legacy map1 minA e nd.1 nd.2 = 2^k)
    (hsz : 0x28 + 16 * fs.length + (fs.map (fun nd => nd.1.length + 4)).sum +
      (fs.map (fun nd => nd.2.length + 2^30)).sum ≤ 2^62)
    (h32 : fileSizeOf factory legacy map1 minA e mult fs < 2^32)
    (hrs : (fs.map (fun nd => nameSz nd.1)).sum < 2^26)
    (hname : ∀ nd ∈ fs, (∀ b ∈ nd.1, b ≠ 0) ∧ validUtf8 nd.1 = true)
    (hpay : ∀ nd ∈ fs, nd.2 ≠ [])
    (hsN : s.numFiles = fs.length) (hsE : s.entriesOffset = 0x20)
    (hsD : s.dataOffset = dOffOf factory legacy map1 minA e mult fs)
    (hsNO : s.namesOffset = 0x20 + 0x10 * fs.length + 8)
    (hsEnd : s.endian = e)
    (hsData : s.data = writeCore factory legacy map1 minA e mult fs)
    (i : Nat) (hi : i < fs.length) :
    s.fileAt i = PRes.ok ⟨some (fs.getD i dfltFile).1, (fs.getD i dfltFile).2⟩ := by
  obtain ⟨⟨tail, hstruct⟩, hlenEq, hnames, hdata⟩ := writeCore_structure factory legacy
    map1 minA e mult fs hal hsz
  have hn5 := hnames i hi
  have hd5 := hdata i hi
  obtain ⟨-, -, -, hrelE, -, hdEndE, hrdE, -⟩ :=
    entsSpec_facts factory legacy map1 minA e mult fs 0 0 hal (by omega) (by omega) i hi
  obtain ⟨-, hend2, hend3⟩ := entsSpec_endRd factory legacy map1 minA e mult fs 0 0 hal
    (by omega)
  obtain ⟨K, hK, -, -, hnele, -, -, -, -, -, -, -⟩ := c6Of_facts factory legacy map1 minA
    e mult fs hal hsz
  have hOUTlen : (writeCore factory legacy map1 minA e mult fs).length =
      fileSizeOf factory legacy map1 minA e mult fs := hlenEq hpay
  have hgd : fs.getD i dfltFile ∈ fs := by
    rw [List.getD_eq_getElem _ dfltFile hi]
    exact List.getElem_mem hi
  have hnameF := hname _ hgd
  -- the FAT-entry reads, transported to the output bytes
  have hstruct2 : writeCore factory legacy map1 minA e mult fs =
      (hdrB e (fileSizeOf factory legacy map1 minA e mult fs)
        (dOffOf factory legacy map1 minA e mult fs) ++
        fatHdrB e fs.length mult) ++
      (((entsOf factory legacy map1 minA e mult fs).map (entryBytes e)).flatten ++
        (fntHdrB e ++ tail)) := by
    rw [hstruct]
    simp [List.append_assoc]
  have hprelen : (hdrB e (fileSizeOf factory legacy map1 minA e mult fs)
      (dOffOf factory legacy map1 minA e mult fs) ++
      fatHdrB e fs.length mult).length = 0x20 := by
    rw [List.length_append, length_hdrB]
    simp [fatHdrB, sfatMagicB, length_putU16, length_putU32]
  have hexi : i < (entsOf factory legacy map1 minA e mult fs).length := by
    unfold entsOf
    rw [entsSpec_length]
    omega
  obtain ⟨r1, r2, r3, r4⟩ := ents_read e (entsOf factory legacy map1 minA e mult fs)
    (hdrB e (fileSizeOf factory legacy map1 minA e mult fs)
      (dOffOf factory legacy map1 minA e mult fs) ++ fatHdrB e fs.length mult)
    (fntHdrB e ++ tail) i hexi
  rw [hprelen, ← hstruct2] at r1 r2 r3 r4
  -- the relative string offset of entry i
  have hxidvd : 4 ∣ ((fs.take i).map (fun nd => nameSz nd.1)).sum := by
    apply List.dvd_sum
    intro x hx
    obtain ⟨nd, hnd, hxe⟩ := List.mem_map.1 hx
    have hndfs : nd ∈ fs := List.mem_of_mem_take hnd
    have hmem4 : nd.1.length + 4 ≤ (fs.map (fun nd => nd.1.length + 4)).sum :=
      List.single_le_sum (fun x _ => Nat.zero_le x) _
        (List.mem_map_of_mem (fun nd => nd.1.length + 4) hndfs)
    rw [← hxe]
    exact nameSz_dvd4 nd.1 (by omega)
  have hxile : ((fs.take i).map (fun nd => nameSz nd.1)).sum ≤
      (fs.map (fun nd => nameSz nd.1)).sum := by
    rw [List.map_take]
    exact sum_take_le_sum _ i
  have hx24 : ((fs.take i).map (fun nd => nameSz nd.1)).sum / 4 < 2^24 := by
    rw [Nat.div_lt_iff_lt_mul (by norm_num)]
    have h26 : (2:Nat)^24 * 4 = 2^26 := by norm_num
    omega
  have hrel' : ((entsOf factory legacy map1 minA e mult fs).getD i dfltEntry).rel =
      2^24 + ((fs.take i).map (fun nd => nameSz nd.1)).sum / 4 := by
    show ((entsSpec factory legacy map1 minA e mult fs 0 0).getD i dfltEntry).rel =
      2^24 + ((fs.take i).map (fun nd => nameSz nd.1)).sum / 4
    rw [hrelE, Nat.zero_add, show (0x1000000:Nat) = 2^24 from by norm_num]
    exact lor_two_pow_add hx24
  have hrellt : (2:Nat)^24 + ((fs.take i).map (fun nd => nameSz nd.1)).sum / 4 < 2^32 := by
    have h25 : (2:Nat)^24 + 2^24 ≤ 2^32 := by norm_num
    omega
  have r2' : readU32 e (writeCore factory legacy map1 minA e mult fs) (0x20 + 16 * i + 4) =
      some (2^24 + ((fs.take i).map (fun nd => nameSz nd.1)).sum / 4) := by
    rw [r2, hrel', Nat.mod_eq_of_lt hrellt]
  -- payload bounds
  have hbegle : ((entsSpec factory legacy map1 minA e mult fs 0 0).getD i dfltEntry).dEnd ≤
      endRd 0 (entsSpec factory legacy map1 minA e mult fs 0 0) := hend3 i hi
  have hfszEq : fileSizeOf factory legacy map1 minA e mult fs =
      dOffOf factory legacy map1 minA e mult fs +
      endRd 0 (entsSpec factory legacy map1 minA e mult fs 0 0) := rfl
  have hbeglt : ((entsOf factory legacy map1 minA e mult fs).getD i dfltEntry).dBegin <
      2^32 := by
    show ((entsSpec factory legacy map1 minA e mult fs 0 0).getD i dfltEntry).dBegin < 2^32
    omega
  have hendlt : ((entsOf factory legacy map1 minA e mult fs).getD i dfltEntry).dEnd <
      2^32 := by
    show ((entsSpec factory legacy map1 minA e mult fs 0 0).getD i dfltEntry).dEnd < 2^32
    omega
  have hBE : ((entsOf factory legacy map1 minA e mult fs).getD i dfltEntry).dEnd =
      ((entsOf factory legacy map1 minA e mult fs).getD i dfltEntry).dBegin +
      (fs.getD i dfltFile).2.length := hdEndE
  have hEndLe : dOffOf factory legacy map1 minA e mult fs +
      ((entsOf factory legacy map1 minA e mult fs).getD i dfltEntry).dEnd ≤
      fileSizeOf factory legacy map1 minA e mult fs := by
    show dOffOf factory legacy map1 minA e mult fs +
      ((entsSpec factory legacy map1 minA e mult fs 0 0).getD i dfltEntry).dEnd ≤
      fileSizeOf factory legacy map1 minA e mult fs
    omega
  have r3' : readU32 e (writeCore factory legacy map1 minA e mult fs) (0x20 + 16 * i + 8) =
      some ((entsOf factory legacy map1 minA e mult fs).getD i dfltEntry).dBegin := by
    rw [r3, Nat.mod_eq_of_lt hbeglt]
  have r4' : readU32 e (writeCore factory legacy map1 minA e mult fs) (0x20 + 16 * i + 12) =
      some ((entsOf factory legacy map1 minA e mult fs).getD i dfltEntry).dEnd := by
    rw [r4, Nat.mod_eq_of_lt hendlt]
  -- the name-table bytes of entry i
  rw [show (0x28:Nat) + 16 * fs.length + ((fs.take i).map (fun nd => nameSz nd.1)).sum =
      0x20 + 0x10 * fs.length + 8 + ((fs.take i).map (fun nd => nameSz nd.1)).sum
      from by omega] at hn5
  have hnlen := congrArg List.length hn5
  rw [List.length_take, List.length_drop] at hnlen
  simp only [List.length_append, List.length_cons, List.length_nil] at hnlen
  have hinbuf : 0x20 + 0x10 * fs.length + 8 +
      ((fs.take i).map (fun nd => nameSz nd.1)).sum +
      ((fs.getD i dfltFile).1.length + 1) ≤
      (writeCore factory legacy map1 minA e mult fs).length := by
    omega
  have hdropName : (writeCore factory legacy map1 minA e mult fs).drop
      (0x20 + 0x10 * fs.length + 8 + ((fs.take i).map (fun nd => nameSz nd.1)).sum) =
      ((fs.getD i dfltFile).1 ++ [0]) ++
      ((writeCore factory legacy map1 minA e mult fs).drop
        (0x20 + 0x10 * fs.length + 8 +
          ((fs.take i).map (fun nd => nameSz nd.1)).sum)).drop
        ((fs.getD i dfltFile).1.length + 1) := by
    conv_lhs => rw [← List.take_append_drop ((fs.getD i dfltFile).1.length + 1)
      ((writeCore factory legacy map1 minA e mult fs).drop
        (0x20 + 0x10 * fs.length + 8 + ((fs.take i).map (fun nd => nameSz nd.1)).sum))]
    rw [hn5]
  -- now step through file_at
  unfold Sarc.fileAt
  rw [if_neg (show ¬ s.numFiles ≤ i by omega)]
  rw [hsData, hsE, hsEnd, hsNO, hsD]
  simp only []
  rw [if_neg (show ¬ (writeCore factory legacy map1 minA e mult fs).length <
      0x20 + 0x10 * i by
    have hge : 0x28 + 16 * fs.length ≤ fileSizeOf factory legacy map1 minA e mult fs := by
      have : 0x28 + 16 * fs.length ≤ namesEndOf fs := by
        unfold namesEndOf
        omega
      omega
    omega)]
  rw [r1, r2', r3', r4']
  simp only []
  rw [if_pos (show (2:Nat)^24 + ((fs.take i).map (fun nd => nameSz nd.1)).sum / 4 ≠ 0
    by positivity)]
  rw [show ((2:Nat)^24 + ((fs.take i).map (fun nd => nameSz nd.1)).sum / 4) % 2^24 =
      ((fs.take i).map (fun nd => nameSz nd.1)).sum / 4 from by
    rw [Nat.add_mod_left]
    exact Nat.mod_eq_of_lt hx24]
  rw [Nat.div_mul_cancel hxidvd]
  rw [if_neg (show ¬ (writeCore factory legacy map1 minA e mult fs).length <
      0x20 + 0x10 * fs.length + 8 + ((fs.take i).map (fun nd => nameSz nd.1)).sum
      by omega)]
  rw [hdropName]
  rw [show ((fs.getD i dfltFile).1 ++ [0]) ++
      ((writeCore factory legacy map1 minA e mult fs).drop
        (0x20 + 0x10 * fs.length + 8 +
          ((fs.take i).map (fun nd => nameSz nd.1)).sum)).drop
        ((fs.getD i dfltFile).1.length + 1) =
      (fs.getD i dfltFile).1 ++ (0 ::
      ((writeCore factory legacy map1 minA e mult fs).drop
        (0x20 + 0x10 * fs.length + 8 +
          ((fs.take i).map (fun nd => nameSz nd.1)).sum)).drop
        ((fs.getD i dfltFile).1.length + 1)) from by simp]
  rw [findNull_append _ _ hnameF.1]
  simp only []
  rw [show ((fs.getD i dfltFile).1 ++ (0 ::
      ((writeCore factory legacy map1 minA e mult fs).drop
        (0x20 + 0x10 * fs.length + 8 +
          ((fs.take i).map (fun nd => nameSz nd.1)).sum)).drop
        ((fs.getD i dfltFile).1.length + 1))).take (fs.getD i dfltFile).1.length =
      (fs.getD i dfltFile).1 from List.take_left _ _]
  rw [if_pos hnameF.2]
  simp only []
  rw [show (dOffOf factory legacy map1 minA e mult fs +
      ((entsOf factory legacy map1 minA e mult fs).getD i dfltEntry).dBegin) % 2^32 =
      dOffOf factory legacy map1 minA e mult fs +
      ((entsOf factory legacy map1 minA e mult fs).getD i dfltEntry).dBegin from
    Nat.mod_eq_of_lt (by omega)]
  rw [show (dOffOf factory legacy map1 minA e mult fs +
      ((entsOf factory legacy map1 minA e mult fs).getD i dfltEntry).dEnd) % 2^32 =
      dOffOf factory legacy map1 minA e mult fs +
      ((entsOf factory legacy map1 minA e mult fs).getD i dfltEntry).dEnd from
    Nat.mod_eq_of_lt (by omega)]
  rw [if_neg (show ¬ (dOffOf factory legacy map1 minA e mult fs +
      ((entsOf factory legacy map1 minA e mult fs).getD i dfltEntry).dEnd <
      dOffOf factory legacy map1 minA e mult fs +
      ((entsOf factory legacy map1 minA e mult fs).getD i dfltEntry).dBegin ∨
      (writeCore factory legacy map1 minA e mult fs).length <
      dOffOf factory legacy map1 minA e mult fs +
      ((entsOf factory legacy map1 minA e mult fs).getD i dfltEntry).dEnd) by
    push_neg
    constructor
    · omega
    · omega)]
  rw [show dOffOf factory legacy map1 minA e mult fs +
      ((entsOf factory legacy map1 minA e mult fs).getD i dfltEntry).dEnd -
      (dOffOf factory legacy map1 minA e mult fs +
      ((entsOf factory legacy map1 minA e mult fs).getD i dfltEntry).dBegin) =
      (fs.getD i dfltFile).2.length from by omega]
  rw [hd5]

theorem filesAux_all_ok (s : Sarc) (f : Nat → SFile) :
    ∀ l : List Nat, (∀ i ∈ l, s.fileAt i = PRes.ok (f i)) →
      filesAux s l = PRes.ok (l.map f) := by
  intro l
  induction l with
  | nil => intro _; rfl
  | cons i t ih =>
    intro h
    unfold filesAux
    rw [h i (by simp), ih (fun j hj => h j (by simp [hj]))]
    simp

theorem filterMap_some_fun (g : Nat → Bytes × Bytes) (l : List Nat) :
    l.filterMap (fun i => some (g i)) = l.map g := by
  induction l with
  | nil => rfl
  | cons i t ih => simp [List.filterMap_cons, ih]

theorem map_getD_range (l : List (Bytes × Bytes)) :
    (List.range l.length).map (fun i => l.getD i dfltFile) = l := by
  apply List.ext_getElem
  · simp
  · intro i h1 h2
    rw [List.getElem_map, List.getElem_range, List.getD_eq_getElem l dfltFile h2]

theorem minA_dvd_align (factory : List Bytes) (legacy : Bool) (amap : List (Bytes × Nat))
    (minA : Nat) (e : Endian) (name data : Bytes) :
    minA ∣ getAlignmentForFile factory legacy amap minA e name data := by
  unfold getAlignmentForFile
  simp only []
  have h2 : minA ∣ (match aamLookup amap (extOf name) with
      | some r => Nat.lcm minA r
      | none => minA) := by
    cases aamLookup amap (extOf name) with
    | none => exact dvd_refl _
    | some r => exact Nat.dvd_lcm_left _ _
  have h3 : minA ∣ (if legacy && isFileSarc data then
      Nat.lcm (match aamLookup amap (extOf name) with
        | some r => Nat.lcm minA r
        | none => minA) 0x2000
      else (match aamLookup amap (extOf name) with
        | some r => Nat.lcm minA r
        | none => minA)) := by
    split
    · exact h2.trans (Nat.dvd_lcm_left _ _)
    · exact h2
  split
  · cases e
    · exact (h3.trans (Nat.dvd_lcm_left _ _)).trans (Nat.dvd_lcm_left _ _)
    · exact h3.trans (Nat.dvd_lcm_left _ _)
  · exact h3

theorem guessFold_four (s : Sarc) (l : List Nat)
    (h : ∀ i ∈ l,
      (∃ a, readU32 s.endian s.data (s.entriesOffset + 0x10 * i) = some a) ∧
      (∃ a, readU32 s.endian s.data (s.entriesOffset + 0x10 * i + 4) = some a) ∧
      (∃ a, readU32 s.endian s.data (s.entriesOffset + 0x10 * i + 12) = some a) ∧
      (∃ b, readU32 s.endian s.data (s.entriesOffset + 0x10 * i + 8) = some b ∧
        4 ∣ (s.dataOffset + b) % 2^32)) :
    guessFold s l 4 = some 4 := by
  induction l with
  | nil => rfl
  | cons i t ih =>
    obtain ⟨⟨a1, h1⟩, ⟨a2, h2⟩, ⟨a4, h4⟩, ⟨b, h3, hb⟩⟩ := h i (by simp)
    unfold guessFold
    rw [h1, h2, h3, h4]
    simp only []
    rw [Nat.gcd_eq_left hb]
    exact ih (fun j hj => h j (by simp [hj]))

theorem guess_writeCore (factory : List Bytes) (legacy : Bool) (map1 : List (Bytes × Nat))
    (minA : Nat) (e : Endian) (mult : Nat) (fs : List (Bytes × Bytes)) (s : Sarc)
    (hal : ∀ nd ∈ fs, ∃ k, k ≤ 30 ∧
      getAlignmentForFile factory legacy map1 minA e nd.1 nd.2 = 2^k)
    (hsz : 0x28 + 16 * fs.length + (fs.map (fun nd => nd.1.length + 4)).sum +
      (fs.map (fun nd => nd.2.length + 2^30)).sum ≤ 2^62)
    (h32 : fileSizeOf factory legacy map1 minA e mult fs < 2^32)
    (h4m : 4 ∣ minA)
    (hsN : s.numFiles = fs.length) (hsE : s.entriesOffset = 0x20)
    (hsD : s.dataOffset = dOffOf factory legacy map1 minA e mult fs)
    (hsEnd : s.endian = e)
    (hsData : s.data = writeCore factory legacy map1 minA e mult fs) :
    s.guessMinAlignment = some 4 := by
  obtain ⟨⟨tail, hstruct⟩, -, -, -⟩ := writeCore_structure factory legacy map1 minA e mult
    fs hal hsz
  obtain ⟨K, hK, -, -, -, -, hdvdD, -, -, -, -, -⟩ := c6Of_facts factory legacy map1 minA
    e mult fs hal hsz
  have hstruct2 : writeCore factory legacy map1 minA e mult fs =
      (hdrB e (fileSizeOf factory legacy map1 minA e mult fs)
        (dOffOf factory legacy map1 minA e mult fs) ++
        fatHdrB e fs.length mult) ++
      (((entsOf factory legacy map1 minA e mult fs).map (entryBytes e)).flatten ++
        (fntHdrB e ++ tail)) := by
    rw [hstruct]
    simp [List.append_assoc]
  have hprelen : (hdrB e (fileSizeOf factory legacy map1 minA e mult fs)
      (dOffOf factory legacy map1 minA e mult fs) ++
      fatHdrB e fs.length mult).length = 0x20 := by
    rw [List.length_append, length_hdrB]
    simp [fatHdrB, sfatMagicB, length_putU16, length_putU32]
  have hOUTge : 0x20 ≤ (writeCore factory legacy map1 minA e mult fs).length := by
    rw [hstruct2, List.length_append, hprelen]
    omega
  obtain ⟨-, hend2, hend3⟩ := entsSpec_endRd factory legacy map1 minA e mult fs 0 0 hal
    (by omega)
  have hfszEq : fileSizeOf factory legacy map1 minA e mult fs =
      dOffOf factory legacy map1 minA e mult fs +
      endRd 0 (entsSpec factory legacy map1 minA e mult fs 0 0) := rfl
  unfold Sarc.guessMinAlignment
  rw [if_neg (show ¬ s.data.length < s.entriesOffset by rw [hsData, hsE]; omega)]
  rw [hsN, guessFold_four s (List.range fs.length) ?hreads]
  case hreads =>
    intro j hj
    have hjn : j < fs.length := List.mem_range.1 hj
    have hexj : j < (entsOf factory legacy map1 minA e mult fs).length := by
      unfold entsOf
      rw [entsSpec_length]
      omega
    obtain ⟨r1, r2, r3, r4⟩ := ents_read e (entsOf factory legacy map1 minA e mult fs)
      (hdrB e (fileSizeOf factory legacy map1 minA e mult fs)
        (dOffOf factory legacy map1 minA e mult fs) ++ fatHdrB e fs.length mult)
      (fntHdrB e ++ tail) j hexj
    rw [hprelen, ← hstruct2] at r1 r2 r3 r4
    rw [hsE, hsEnd, hsData, hsD]
    obtain ⟨hbaj, hbdj, -⟩ := entsSpec_begin factory legacy map1 minA e mult fs 0 0 hal
      (by omega) j hjn
    have hbeglt : ((entsOf factory legacy map1 minA e mult fs).getD j dfltEntry).dBegin <
        2^32 := by
      have h1 := hend3 j hjn
      obtain ⟨-, -, hej⟩ := entsSpec_begin factory legacy map1 minA e mult fs 0 0 hal
        (by omega) j hjn
      show ((entsSpec factory legacy map1 minA e mult fs 0 0).getD j dfltEntry).dBegin <
        2^32
      omega
    refine ⟨⟨_, r1⟩, ⟨_, r2⟩, ⟨_, r4⟩,
      ⟨((entsOf factory legacy map1 minA e mult fs).getD j dfltEntry).dBegin % 2^32, r3, ?_⟩⟩
    rw [Nat.mod_eq_of_lt hbeglt]
    have hsum : dOffOf factory legacy map1 minA e mult fs +
        ((entsOf factory legacy map1 minA e mult fs).getD j dfltEntry).dBegin < 2^32 := by
      have h1 := hend3 j hjn
      obtain ⟨-, -, hej⟩ := entsSpec_begin factory legacy map1 minA e mult fs 0 0 hal
        (by omega) j hjn
      show dOffOf factory legacy map1 minA e mult fs +
        ((entsSpec factory legacy map1 minA e mult fs 0 0).getD j dfltEntry).dBegin < 2^32
      omega
    rw [Nat.mod_eq_of_lt hsum]
    have h4A : 4 ∣ getAlignmentForFile factory legacy map1 minA e
        (fs.getD j dfltFile).1 (fs.getD j dfltFile).2 :=
      h4m.trans (minA_dvd_align factory legacy map1 minA e _ _)
    have hgdm : fs.getD j dfltFile ∈ fs := by
      rw [List.getD_eq_getElem _ dfltFile hjn]
      exact List.getElem_mem hjn
    refine Nat.dvd_add (h4A.trans (hdvdD _ hgdm)) (h4A.trans ?_)
    rw [← hbaj]
    exact hbdj
  simp only []
  rw [if_pos (show isValidAlignment 4 = true by decide)]

/-- C1 (amended): the round trip holds for archives the default writer itself
produces.  For a writer in default configuration (legacy off, multiplier 0x65,
min alignment 4, empty alignment map) whose files have distinct NUL-free valid
UTF-8 names, nonempty payloads, power-of-two resolved alignments and in-range
sizes, the serialized archive parses back, `from_sarc` reconstructs the writer,
and serializing again is byte-identical:
`serialize(from_reader(parse(A))) == A` for `A` the writer's output.  The
claim's version for every valid input archive fails (see the counterexample: a
nameless entry's payload is dropped by the round trip). -/
theorem claim_C1_roundtrip (agl : List (Bytes × Nat)) (factory : List Bytes) (w : SarcWriter)
    (hleg : w.legacy = false) (hmult : w.hashMultiplier = 0x65)
    (hmin : w.minAlignment = 4) (hmap : w.alignmentMap = [])
    (hdist : (sortByHash w.hashMultiplier w.files).Pairwise (fun p q => p.1 ≠ q.1))
    (hname : ∀ nd ∈ sortByHash w.hashMultiplier w.files,
      (∀ b ∈ nd.1, b ≠ 0) ∧ validUtf8 nd.1 = true)
    (hpay : ∀ nd ∈ sortByHash w.hashMultiplier w.files, nd.2 ≠ [])
    (hal : ∀ nd ∈ sortByHash w.hashMultiplier w.files, ∃ k, k ≤ 30 ∧
      resolvedAlignment agl factory w nd.1 nd.2 = 2^k)
    (hsz : 0x28 + 16 * (sortByHash w.hashMultiplier w.files).length +
      ((sortByHash w.hashMultiplier w.files).map (fun nd => nd.1.length + 4)).sum +
      ((sortByHash w.hashMultiplier w.files).map (fun nd => nd.2.length + 2^30)).sum ≤ 2^62)
    (hn : (sortByHash w.hashMultiplier w.files).length < 0x4000)
    (h32 : fileSizeOf factory w.legacy (addDefaultAlignments agl w.endian w.alignmentMap)
      w.minAlignment w.endian w.hashMultiplier (sortByHash w.hashMultiplier w.files) < 2^32)
    (hrs : ((sortByHash w.hashMultiplier w.files).map (fun nd => nameSz nd.1)).sum < 2^26) :
    ∃ s w2, parseSarc (w.write agl factory).1 = Except.ok s ∧
      SarcWriter.fromSarc s = some w2 ∧
      (w2.write agl factory).1 = (w.write agl factory).1 := by
  obtain ⟨we, wleg, wmult, wmin, wmap, wfiles⟩ := w
  obtain rfl : wleg = false := hleg
  obtain rfl : wmult = 0x65 := hmult
  obtain rfl : wmin = 4 := hmin
  obtain rfl : wmap = [] := hmap
  refine ⟨⟨(sortByHash 0x65 wfiles).length, 0x20, 0x65,
      dOffOf factory false (addDefaultAlignments agl we []) 4 we 0x65
        (sortByHash 0x65 wfiles),
      0x20 + 0x10 * (sortByHash 0x65 wfiles).length + 8, we,
      writeCore factory false (addDefaultAlignments agl we []) 4 we 0x65
        (sortByHash 0x65 wfiles)⟩,
    ⟨we, false, 0x65, 4, [], sortByHash 0x65 wfiles⟩, ?_, ?_, ?_⟩
  · show parseSarc (writeCore factory false (addDefaultAlignments agl we []) 4 we 0x65
      (sortByHash 0x65 wfiles)) = _
    exact parse_writeCore factory false (addDefaultAlignments agl we []) 4 we 0x65
      (sortByHash 0x65 wfiles) hal hsz hn h32 (by norm_num)
  · have hfl : Sarc.filesList ⟨(sortByHash 0x65 wfiles).length, 0x20, 0x65,
        dOffOf factory false (addDefaultAlignments agl we []) 4 we 0x65
          (sortByHash 0x65 wfiles),
        0x20 + 0x10 * (sortByHash 0x65 wfiles).length + 8, we,
        writeCore factory false (addDefaultAlignments agl we []) 4 we 0x65
          (sortByHash 0x65 wfiles)⟩ =
        PRes.ok ((List.range (sortByHash 0x65 wfiles).length).map
          (fun i => ⟨some ((sortByHash 0x65 wfiles).getD i dfltFile).1,
            ((sortByHash 0x65 wfiles).getD i dfltFile).2⟩)) := by
      unfold Sarc.filesList
      exact filesAux_all_ok _ _ (List.range (sortByHash 0x65 wfiles).length)
        (fun i hi => fileAt_writeCore factory false (addDefaultAlignments agl we []) 4 we
          0x65 (sortByHash 0x65 wfiles) _ hal hsz h32 hrs hname hpay rfl rfl rfl rfl rfl rfl
          i (List.mem_range.1 hi))
    have hguess : Sarc.guessMinAlignment ⟨(sortByHash 0x65 wfiles).length, 0x20, 0x65,
        dOffOf factory false (addDefaultAlignments agl we []) 4 we 0x65
          (sortByHash 0x65 wfiles),
        0x20 + 0x10 * (sortByHash 0x65 wfiles).length + 8, we,
        writeCore factory false (addDefaultAlignments agl we []) 4 we 0x65
          (sortByHash 0x65 wfiles)⟩ = some 4 :=
      guess_writeCore factory false (addDefaultAlignments agl we []) 4 we 0x65
        (sortByHash 0x65 wfiles) _ hal hsz h32 (dvd_refl 4) rfl rfl rfl rfl rfl
    have hfm : ((List.range (sortByHash 0x65 wfiles).length).map
        (fun i => (⟨some ((sortByHash 0x65 wfiles).getD i dfltFile).1,
          ((sortByHash 0x65 wfiles).getD i dfltFile).2⟩ : SFile))).filterMap
        (fun f => f.name.map (fun n => (n, f.data))) = sortByHash 0x65 wfiles := by
      rw [List.filterMap_map]
      have hcongr : ∀ i ∈ List.range (sortByHash 0x65 wfiles).length,
          ((fun f : SFile => f.name.map (fun n => (n, f.data))) ∘
            (fun i => (⟨some ((sortByHash 0x65 wfiles).getD i dfltFile).1,
              ((sortByHash 0x65 wfiles).getD i dfltFile).2⟩ : SFile))) i =
          (fun i => some ((sortByHash 0x65 wfiles).getD i dfltFile)) i :=
        fun i _ => rfl
      rw [List.filterMap_congr hcongr,
        filterMap_some_fun (fun i => (sortByHash 0x65 wfiles).getD i dfltFile)]
      exact map_getD_range (sortByHash 0x65 wfiles)
    unfold SarcWriter.fromSarc
    rw [hfl, hguess]
    simp only []
    rw [hfm, foldl_imInsert_append _ [] (by simp) hdist]
    rfl
  · show writeCore factory false (addDefaultAlignments agl we []) 4 we 0x65
      (sortByHash 0x65 (sortByHash 0x65 wfiles)) = _
    rw [sortByHash_sorted_id 0x65 (sortByHash 0x65 wfiles)
      (sortByHash_pairwise 0x65 wfiles)]
    rfl

theorem claim_C1_roundtrip_witness :
    ∃ s w2, parseSarc (w6a.write [] []).1 = Except.ok s ∧
      SarcWriter.fromSarc s = some w2 ∧
      (w2.write [] []).1 = (w6a.write [] []).1 :=
  claim_C1_roundtrip [] [] w6a rfl rfl rfl rfl
    (by decide) (by decide) (by decide)
    (by intro nd hnd
        have hfs : sortByHash w6a.hashMultiplier w6a.files =
            [([97], [104]), ([98], [105])] := by decide
        rw [hfs] at hnd
        simp only [List.mem_cons, List.not_mem_nil, or_false] at hnd
        rcases hnd with rfl | rfl <;> exact ⟨2, by norm_num, by decide⟩)
    (by decide) (by decide) (by decide) (by decide)

end SarcRs
